import Mathlib

set_option maxHeartbeats 1000000

/-!
Shallow embedding of the json-editor line-model engine
(src/src/app/json-viewer/json-viewer.ts) and proofs about it.

Conventions of the embedding:
* Synthetic string ids of the form line-N / edit-N are modelled by their
  numeric counter N; the source only ever compares them for equality.
* JSON numbers are modelled as integers; the host's float formatting is
  outside the shallow embedding, and every claim is about structure,
  escaping and bookkeeping, not float printing.
* The mutable accumulator of the flatteners becomes explicit state passing
  (list of pushed lines, next counter value).
* The DOM is outside the model: validateAndSave takes the submitted text as
  an argument, and getPlainTextContent becomes a pure tag stripper.
-/

namespace JsonEditor

/-- JSON values as produced by the host parser.  Objects keep their key
insertion order as a list of pairs. -/
inductive JsonValue where
  | str (s : String)
  | num (n : Int)
  | bool (b : Bool)
  | null
  | arr (items : List JsonValue)
  | obj (fields : List (String × JsonValue))
  deriving Repr

/-- Decimal digits with an explicit recursion budget; any budget above the
number itself yields the full digit string. -/
def natCharsFuel : Nat → Nat → List Char
  | 0, _ => []
  | fuel + 1, n =>
      if n < 10 then [Char.ofNat (48 + n)]
      else natCharsFuel fuel (n / 10) ++ [Char.ofNat (48 + n % 10)]

/-- Decimal digits of a natural number, most significant first. -/
def natChars (n : Nat) : List Char :=
  natCharsFuel (n + 1) n

/-- Canonical decimal rendering of an integer. -/
def intChars (n : Int) : List Char :=
  if n < 0 then '-' :: natChars n.natAbs else natChars n.natAbs

/-- Lowercase hexadecimal digit, as the host's \u00xx escapes use. -/
def hexDigitChar (n : Nat) : Char :=
  if n < 10 then Char.ofNat (48 + n) else Char.ofNat (87 + n)

/-- One character of a JSON string literal as JSON.stringify renders it:
quote and backslash escaped, the five short control escapes, \u00xx for the
remaining control characters, everything else verbatim. -/
def escapeChar (c : Char) : List Char :=
  if c = '"' then ['\\', '"']
  else if c = '\\' then ['\\', '\\']
  else if c = Char.ofNat 8 then ['\\', 'b']
  else if c = Char.ofNat 9 then ['\\', 't']
  else if c = Char.ofNat 10 then ['\\', 'n']
  else if c = Char.ofNat 12 then ['\\', 'f']
  else if c = Char.ofNat 13 then ['\\', 'r']
  else if c.toNat < 32 then
    ['\\', 'u', '0', '0', hexDigitChar (c.toNat / 16), hexDigitChar (c.toNat % 16)]
  else [c]

/-- Interior of a JSON string literal for s, per JSON.stringify. -/
def escapeString (s : String) : String :=
  String.mk (s.data.map escapeChar).flatten

/-- JSON.stringify applied to a scalar value (the edit flattener only calls
it on scalars; containers are handled line by line). -/
def stringifyScalar : JsonValue → String
  | .str s => "\"" ++ escapeString s ++ "\""
  | .num n => String.mk (intChars n)
  | .bool b => if b then "true" else "false"
  | .null => "null"
  | .arr _ => ""
  | .obj _ => ""

/-- Two-space indentation, the source's '  '.repeat(level). -/
def indentStr : Nat → String
  | 0 => ""
  | level + 1 => "  " ++ indentStr level

mutual
/-- JSON.stringify(v, null, 2): the canonical pretty-printed form the source
stores in rawJsonText after load and save. -/
def stringifyPretty : JsonValue → Nat → String
  | .obj [], _ => "\x7b\x7d"
  | .obj fs, level =>
      "\x7b\n" ++ prettyFields fs (level + 1) ++ "\n" ++ indentStr level ++ "\x7d"
  | .arr [], _ => "[]"
  | .arr xs, level =>
      "[\n" ++ prettyItems xs (level + 1) ++ "\n" ++ indentStr level ++ "]"
  | v, _ => stringifyScalar v

def prettyFields : List (String × JsonValue) → Nat → String
  | [], _ => ""
  | [(k, v)], level =>
      indentStr level ++ "\"" ++ escapeString k ++ "\": " ++ stringifyPretty v level
  | (k, v) :: rest, level =>
      indentStr level ++ "\"" ++ escapeString k ++ "\": " ++ stringifyPretty v level ++
        ",\n" ++ prettyFields rest level

def prettyItems : List JsonValue → Nat → String
  | [], _ => ""
  | [v], level => indentStr level ++ stringifyPretty v level
  | v :: rest, level =>
      indentStr level ++ stringifyPretty v level ++ ",\n" ++ prettyItems rest level
end

/-- The JsonLine record of the source, with string ids replaced by their
numeric counters. -/
structure JsonLine where
  id : Nat
  content : String
  level : Nat
  hasToggle : Bool
  isCollapsed : Bool
  parentId : Option Nat
  lineNumber : Nat
  isClosing : Bool
  originalKey : Option String
  isArray : Bool
  isObject : Bool
  childCount : Nat
  deriving Repr, DecidableEq

/-- Markup wrapper used by the display flattener. -/
def spanWrap (cls s : String) : String :=
  "<span class=\"" ++ cls ++ "\">" ++ s ++ "</span>"

/-- Key part of an opening/scalar display line; the builder tests
key !== null, so an empty-string key still gets its prefix here. -/
def keySpan : Option String → String
  | some k => spanWrap "key" ("\"" ++ k ++ "\"") ++ spanWrap "colon" ": "
  | none => ""

/-- Raw scalar rendering of the display flattener: the value is interpolated
into the template literal, so strings are NOT escaped. -/
def scalarSpanText : JsonValue → String
  | .str s => spanWrap "value-string" ("\"" ++ s ++ "\"")
  | .num n => spanWrap "value-number" (String.mk (intChars n))
  | .bool b => spanWrap "value-boolean" (if b then "true" else "false")
  | .null => spanWrap "value-null" "null"
  | _ => ""

/-- Trailing separator appended to the previously pushed line after each
non-final sibling. -/
def commaSpan : String := spanWrap "comma" ","

/-- Append a separator to the content of the last pushed line (the source
mutates this.allLines[this.allLines.length - 1]). -/
def appendCommaLast (comma : String) : List JsonLine → List JsonLine
  | [] => []
  | [l] => [{ l with content := l.content ++ comma }]
  | l :: ls => l :: appendCommaLast comma ls

mutual
/-- The buildLines closure of parseAndDisplay: flattens a value into display
lines, threading the id counter; returns the pushed lines and the next
counter. -/
def buildLines (v : JsonValue) (key : Option String) (level : Nat)
    (parentId : Option Nat) (c : Nat) : List JsonLine × Nat :=
  match v with
  | .obj fields =>
      let openLine : JsonLine :=
        { id := c, content := indentStr level ++ keySpan key ++ spanWrap "bracket" "\x7b",
          level, hasToggle := true, isCollapsed := false, parentId,
          lineNumber := 0, isClosing := false, originalKey := key,
          isArray := false, isObject := true, childCount := fields.length }
      let (children, c1) := buildObjChildren fields (level + 1) c (c + 1)
      let closeLine : JsonLine :=
        { id := c1, content := indentStr level ++ spanWrap "bracket" "\x7d",
          level, hasToggle := false, isCollapsed := false, parentId := some c,
          lineNumber := 0, isClosing := true, originalKey := none,
          isArray := false, isObject := false, childCount := 0 }
      (openLine :: (children ++ [closeLine]), c1 + 1)
  | .arr items =>
      let openLine : JsonLine :=
        { id := c, content := indentStr level ++ keySpan key ++ spanWrap "bracket" "[",
          level, hasToggle := true, isCollapsed := false, parentId,
          lineNumber := 0, isClosing := false, originalKey := key,
          isArray := true, isObject := false, childCount := items.length }
      let (children, c1) := buildArrChildren items (level + 1) c (c + 1)
      let closeLine : JsonLine :=
        { id := c1, content := indentStr level ++ spanWrap "bracket" "]",
          level, hasToggle := false, isCollapsed := false, parentId := some c,
          lineNumber := 0, isClosing := true, originalKey := none,
          isArray := false, isObject := false, childCount := 0 }
      (openLine :: (children ++ [closeLine]), c1 + 1)
  | v =>
      ([{ id := c, content := indentStr level ++ keySpan key ++ scalarSpanText v,
          level, hasToggle := false, isCollapsed := false, parentId,
          lineNumber := 0, isClosing := false, originalKey := key,
          isArray := false, isObject := false, childCount := 0 }], c + 1)

/-- Object children of the display flattener: each non-final child's last
pushed line gets a trailing comma span. -/
def buildObjChildren : List (String × JsonValue) → Nat → Nat → Nat →
    List JsonLine × Nat
  | [], _, _, c => ([], c)
  | [(k, v)], level, pid, c => buildLines v (some k) level (some pid) c
  | (k, v) :: rest, level, pid, c =>
      let (ls, c1) := buildLines v (some k) level (some pid) c
      let (rs, c2) := buildObjChildren rest level pid c1
      (appendCommaLast commaSpan ls ++ rs, c2)

/-- Array children of the display flattener. -/
def buildArrChildren : List JsonValue → Nat → Nat → Nat → List JsonLine × Nat
  | [], _, _, c => ([], c)
  | [v], level, pid, c => buildLines v none level (some pid) c
  | v :: rest, level, pid, c =>
      let (ls, c1) := buildLines v none level (some pid) c
      let (rs, c2) := buildArrChildren rest level pid c1
      (appendCommaLast commaSpan ls ++ rs, c2)
end

/-- The flat display line sequence built by parseAndDisplay for a value. -/
def flattenDisplay (v : JsonValue) : List JsonLine :=
  (buildLines v none 0 none 0).1

/-- Ids of all currently collapsed lines (the collapsedParents set). -/
def collapsedIds (lines : List JsonLine) : List Nat :=
  (lines.filter (fun l => l.isCollapsed)).map (fun l => l.id)

/-- Lookup of a line by id, the source's allLines.find(l => l.id === x). -/
def findById (lines : List JsonLine) (i : Nat) : Option JsonLine :=
  lines.find? (fun l => l.id == i)

/-- The ancestor walk of updateDisplayLines: true iff walking the parentId
chain meets an id in the collapsed set.  The source's while loop terminates
because parent links point to earlier lines; the fuel argument (instantiated
with the list length) makes that explicit. -/
def hiddenWalk (lines : List JsonLine) (collapsed : List Nat) :
    Option Nat → Nat → Bool
  | none, _ => false
  | some _, 0 => false
  | some p, fuel + 1 =>
      if collapsed.contains p then true
      else
        match findById lines p with
        | some parent => hiddenWalk lines collapsed parent.parentId fuel
        | none => false

/-- Visibility of a line: no ancestor on the parentId chain is collapsed. -/
def isVisible (lines : List JsonLine) (l : JsonLine) : Bool :=
  !(hiddenWalk lines (collapsedIds lines) l.parentId lines.length)

/-- The projection pass shared by updateDisplayLines, renumberEditLines and
updateEditDisplayLines: visible lines are renumbered 1.. in place and
collected in order.  The source mutates shared objects, so the renumbered
full list is returned alongside the visible sublist. -/
def projectGo (lines : List JsonLine) : List JsonLine → Nat →
    List JsonLine × List JsonLine
  | [], _ => ([], [])
  | l :: ls, n =>
      if isVisible lines l then
        let l' := { l with lineNumber := n }
        let (a, vs) := projectGo lines ls (n + 1)
        (l' :: a, l' :: vs)
      else
        let (a, vs) := projectGo lines ls n
        (l :: a, vs)

/-- Recompute the visible projection of a full line list. -/
def projectLines (lines : List JsonLine) : List JsonLine × List JsonLine :=
  projectGo lines lines 1

/-- Component state; fields are the signals/arrays of the source component
that the modelled operations read or write. -/
structure ViewerState where
  allLines : List JsonLine
  displayLines : List JsonLine
  rawJsonText : String
  textareaContent : String
  isEditMode : Bool
  validationError : String
  editLines : List JsonLine
  editAllLines : List JsonLine
  hasUnsavedChanges : Bool
  isValidJson : Bool
  successMessage : String
  deriving Repr, DecidableEq

/-- parseAndDisplay: rebuild the display model wholesale and re-project. -/
def parseAndDisplay (st : ViewerState) (data : JsonValue) : ViewerState :=
  let all := flattenDisplay data
  let (a, vs) := projectLines all
  { st with allLines := a, displayLines := vs }

/-- Key part used by the toggle/collapseAll/expandAll rewrites; the source
tests line.originalKey for truthiness, so an empty-string key is dropped
here (unlike in the builder, which tests key !== null). -/
def keyPartToggle : Option String → String
  | some s =>
      if s = "" then ""
      else spanWrap "key" ("\"" ++ s ++ "\"") ++ spanWrap "colon" ": "
  | none => ""

/-- Collapsed summary content for an object-open display line. -/
def collapsedObjContent (l : JsonLine) : String :=
  indentStr l.level ++ keyPartToggle l.originalKey ++
    spanWrap "bracket" "\x7b...\x7d" ++ " " ++
    spanWrap "comment" ("// " ++ toString l.childCount ++ " properties")

/-- Collapsed summary content for an array-open display line. -/
def collapsedArrContent (l : JsonLine) : String :=
  indentStr l.level ++ keyPartToggle l.originalKey ++
    spanWrap "bracket" "[...]" ++ " " ++
    spanWrap "comment" ("// " ++ toString l.childCount ++ " items")

/-- Restored plain opening content for an object-open display line. -/
def expandedObjContent (l : JsonLine) : String :=
  indentStr l.level ++ keyPartToggle l.originalKey ++ spanWrap "bracket" "\x7b"

/-- Restored plain opening content for an array-open display line. -/
def expandedArrContent (l : JsonLine) : String :=
  indentStr l.level ++ keyPartToggle l.originalKey ++ spanWrap "bracket" "["

/-- The in-place mutation toggleCollapse performs on the found line. -/
def toggleLine (l0 : JsonLine) : JsonLine :=
  let l := { l0 with isCollapsed := !l0.isCollapsed }
  if l.isCollapsed then
    if l.isObject then { l with content := collapsedObjContent l }
    else if l.isArray then { l with content := collapsedArrContent l }
    else l
  else
    if l.isObject then { l with content := expandedObjContent l }
    else if l.isArray then { l with content := expandedArrContent l }
    else l

/-- Replace the first line carrying the given id (the source mutates the
object returned by find). -/
def replaceFirstById (i : Nat) (f : JsonLine → JsonLine) :
    List JsonLine → List JsonLine
  | [] => []
  | l :: ls => if l.id == i then f l :: ls else l :: replaceFirstById i f ls

/-- toggleCollapse of the display variant: guard, flip, rewrite content,
re-project; a miss or a non-toggle line is a no-op. -/
def toggleCollapse (st : ViewerState) (lineId : Nat) : ViewerState :=
  match findById st.allLines lineId with
  | some l =>
      if l.hasToggle then
        let all1 := replaceFirstById lineId toggleLine st.allLines
        let (a, vs) := projectLines all1
        { st with allLines := a, displayLines := vs }
      else st
  | none => st

/-- toggleEditCollapse of the edit variant: guard, flip, re-project; the
line's content is left untouched. -/
def toggleEditCollapse (st : ViewerState) (lineId : Nat) : ViewerState :=
  match findById st.editAllLines lineId with
  | some l =>
      if l.hasToggle then
        let all1 := replaceFirstById lineId
          (fun l0 => { l0 with isCollapsed := !l0.isCollapsed }) st.editAllLines
        let (a, vs) := projectLines all1
        { st with editAllLines := a, editLines := vs }
      else st
  | none => st

/-- Key part of an edit line; the key is interpolated raw into the template
literal, WITHOUT JSON escaping (unlike scalar values, which go through
JSON.stringify). -/
def editKeyPart : Option String → String
  | some k => "\"" ++ k ++ "\": "
  | none => ""

mutual
/-- The parse closure of parseEditLines: flattens a value into plain-text
edit lines; trailing commas are baked into each non-final sibling's own
last line via the isLastItem flag. -/
def buildEditLines (v : JsonValue) (key : Option String) (level : Nat)
    (parentId : Option Nat) (isLastItem : Bool) (c : Nat) :
    List JsonLine × Nat :=
  match v with
  | .obj fields =>
      let openLine : JsonLine :=
        { id := c, content := indentStr level ++ editKeyPart key ++ "\x7b",
          level, hasToggle := true, isCollapsed := false, parentId,
          lineNumber := 0, isClosing := false, originalKey := key,
          isArray := false, isObject := true, childCount := fields.length }
      let (children, c1) := buildEditFields fields (level + 1) c (c + 1)
      let closeLine : JsonLine :=
        { id := c1, content := indentStr level ++ "\x7d" ++ (if isLastItem then "" else ","),
          level, hasToggle := false, isCollapsed := false, parentId := some c,
          lineNumber := 0, isClosing := true, originalKey := none,
          isArray := false, isObject := false, childCount := 0 }
      (openLine :: (children ++ [closeLine]), c1 + 1)
  | .arr items =>
      let openLine : JsonLine :=
        { id := c, content := indentStr level ++ editKeyPart key ++ "[",
          level, hasToggle := true, isCollapsed := false, parentId,
          lineNumber := 0, isClosing := false, originalKey := key,
          isArray := true, isObject := false, childCount := items.length }
      let (children, c1) := buildEditItems items (level + 1) c (c + 1)
      let closeLine : JsonLine :=
        { id := c1, content := indentStr level ++ "]" ++ (if isLastItem then "" else ","),
          level, hasToggle := false, isCollapsed := false, parentId := some c,
          lineNumber := 0, isClosing := true, originalKey := none,
          isArray := false, isObject := false, childCount := 0 }
      (openLine :: (children ++ [closeLine]), c1 + 1)
  | v =>
      ([{ id := c,
          content := indentStr level ++ editKeyPart key ++ stringifyScalar v ++
            (if isLastItem then "" else ","),
          level, hasToggle := false, isCollapsed := false, parentId,
          lineNumber := 0, isClosing := false, originalKey := key,
          isArray := false, isObject := false, childCount := 0 }], c + 1)

/-- Object entries of the edit flattener; the child knows whether it is the
last entry. -/
def buildEditFields : List (String × JsonValue) → Nat → Nat → Nat →
    List JsonLine × Nat
  | [], _, _, c => ([], c)
  | (k, v) :: rest, level, pid, c =>
      let (ls, c1) := buildEditLines v (some k) level (some pid) rest.isEmpty c
      let (rs, c2) := buildEditFields rest level pid c1
      (ls ++ rs, c2)

/-- Array items of the edit flattener. -/
def buildEditItems : List JsonValue → Nat → Nat → Nat → List JsonLine × Nat
  | [], _, _, c => ([], c)
  | v :: rest, level, pid, c =>
      let (ls, c1) := buildEditLines v none level (some pid) rest.isEmpty c
      let (rs, c2) := buildEditItems rest level pid c1
      (ls ++ rs, c2)
end

/-- The flat edit line sequence parseEditLines builds for a value (the root
call passes isLastItem = true). -/
def flattenEdit (v : JsonValue) : List JsonLine :=
  (buildEditLines v none 0 none true 0).1

/-- parseEditLines: rebuild the edit model wholesale and re-project. -/
def parseEditLines (st : ViewerState) (data : JsonValue) : ViewerState :=
  let all := flattenEdit data
  let (a, vs) := projectLines all
  { st with editAllLines := a, editLines := vs }

/-- reconstructJsonFromEditLines: join every edit line's content with
newlines, in original order. -/
def reconstructJsonFromEditLines (lines : List JsonLine) : String :=
  String.intercalate "\n" (lines.map (fun l => l.content))

/-- JSON whitespace. -/
def isWsChar (c : Char) : Bool :=
  c = ' ' || c = Char.ofNat 9 || c = Char.ofNat 10 || c = Char.ofNat 13

/-- Skip leading JSON whitespace. -/
def skipWs : List Char → List Char
  | [] => []
  | c :: cs => if isWsChar c then skipWs cs else c :: cs

/-- ASCII decimal digit test. -/
def isDigitChar (c : Char) : Bool :=
  48 ≤ c.toNat && c.toNat ≤ 57

/-- Hexadecimal digit value, any case. -/
def hexVal? (c : Char) : Option Nat :=
  if 48 ≤ c.toNat ∧ c.toNat ≤ 57 then some (c.toNat - 48)
  else if 97 ≤ c.toNat ∧ c.toNat ≤ 102 then some (c.toNat - 87)
  else if 65 ≤ c.toNat ∧ c.toNat ≤ 70 then some (c.toNat - 55)
  else none

/-- Decoded form of a one-character JSON string escape. -/
def simpleEscChar? (e : Char) : Option Char :=
  if e = '"' then some '"'
  else if e = '\\' then some '\\'
  else if e = '/' then some '/'
  else if e = 'b' then some (Char.ofNat 8)
  else if e = 'f' then some (Char.ofNat 12)
  else if e = 'n' then some (Char.ofNat 10)
  else if e = 'r' then some (Char.ofNat 13)
  else if e = 't' then some (Char.ofNat 9)
  else none

/-- Value of a four-digit hexadecimal escape. -/
def hexQuad? (h1 h2 h3 h4 : Char) : Option Nat :=
  match hexVal? h1, hexVal? h2, hexVal? h3, hexVal? h4 with
  | some a, some b, some c, some d => some (((a * 16 + b) * 16 + c) * 16 + d)
  | _, _, _, _ => none

/-- Body of a JSON string literal after the opening quote: returns the
decoded characters and the input after the closing quote.  Raw control
characters are rejected, as JSON.parse does. -/
def parseStringBody : List Char → Option (List Char × List Char)
  | [] => none
  | '"' :: cs => some ([], cs)
  | '\\' :: 'u' :: h1 :: h2 :: h3 :: h4 :: cs =>
      (match hexQuad? h1 h2 h3 h4 with
       | some n =>
           match parseStringBody cs with
           | some (s, r) => some (Char.ofNat n :: s, r)
           | none => none
       | none => none)
  | '\\' :: e :: cs =>
      (match simpleEscChar? e with
       | some d =>
           match parseStringBody cs with
           | some (s, r) => some (d :: s, r)
           | none => none
       | none => none)
  | ['\\'] => none
  | c :: cs =>
      if c.toNat < 32 then none
      else
        match parseStringBody cs with
        | some (s, r) => some (c :: s, r)
        | none => none

/-- Longest digit head of the input. -/
def takeDigits : List Char → List Char × List Char
  | [] => ([], [])
  | c :: cs =>
      if isDigitChar c then
        let (ds, r) := takeDigits cs
        (c :: ds, r)
      else ([], c :: cs)

/-- Decimal digits folded onto an accumulator. -/
def digitsToNat (acc : Nat) : List Char → Nat
  | [] => acc
  | c :: cs => digitsToNat (acc * 10 + (c.toNat - 48)) cs

/-- Magnitude of a JSON integer literal after the optional sign; JSON allows
a single 0 or a nonzero leading digit (the model covers the integral
subset of the number grammar). -/
def parseNumAfterSign : List Char → Option (Nat × List Char)
  | [] => none
  | c :: cs =>
      if c = '0' then some (0, cs)
      else if isDigitChar c then
        let (ds, r) := takeDigits cs
        some (digitsToNat (c.toNat - 48) ds, r)
      else none

/-- Opening brace character, written numerically. -/
def lbraceChar : Char := Char.ofNat 123

/-- Closing brace character, written numerically. -/
def rbraceChar : Char := Char.ofNat 125

mutual
/-- Recursive-descent model of JSON.parse on the integral fragment: one
value, leading whitespace allowed, returning the remaining input.  The fuel
only bounds recursion depth; parseJson passes more fuel than any input can
consume. -/
def parseValue : Nat → List Char → Option (JsonValue × List Char)
  | 0, _ => none
  | fuel + 1, s =>
      match skipWs s with
      | [] => none
      | c :: r =>
          if c = lbraceChar then
            match skipWs r with
            | [] => none
            | c2 :: r2 =>
                if c2 = rbraceChar then some (.obj [], r2)
                else
                  match parseMembers fuel (c2 :: r2) with
                  | some (fs, r3) => some (.obj fs, r3)
                  | none => none
          else if c = '[' then
            match skipWs r with
            | [] => none
            | c2 :: r2 =>
                if c2 = ']' then some (.arr [], r2)
                else
                  match parseItems fuel (c2 :: r2) with
                  | some (xs, r3) => some (.arr xs, r3)
                  | none => none
          else if c = '"' then
            match parseStringBody r with
            | some (cs, r2) => some (.str (String.mk cs), r2)
            | none => none
          else if c = 't' then
            match r with
            | 'r' :: 'u' :: 'e' :: r2 => some (.bool true, r2)
            | _ => none
          else if c = 'f' then
            match r with
            | 'a' :: 'l' :: 's' :: 'e' :: r2 => some (.bool false, r2)
            | _ => none
          else if c = 'n' then
            match r with
            | 'u' :: 'l' :: 'l' :: r2 => some (.null, r2)
            | _ => none
          else if c = '-' then
            match parseNumAfterSign r with
            | some (n, r2) => some (.num (-(n : Int)), r2)
            | none => none
          else if isDigitChar c then
            match parseNumAfterSign (c :: r) with
            | some (n, r2) => some (.num (n : Int), r2)
            | none => none
          else none

/-- One or more members of a non-empty object, consuming the closing
brace. -/
def parseMembers : Nat → List Char → Option (List (String × JsonValue) × List Char)
  | 0, _ => none
  | fuel + 1, s =>
      match skipWs s with
      | [] => none
      | c :: r =>
          if c = '"' then
            match parseStringBody r with
            | some (kcs, r1) =>
                (match skipWs r1 with
                 | [] => none
                 | c2 :: r2 =>
                     if c2 = ':' then
                       match parseValue fuel r2 with
                       | some (v, r3) =>
                           (match skipWs r3 with
                            | [] => none
                            | c3 :: r4 =>
                                if c3 = ',' then
                                  match parseMembers fuel r4 with
                                  | some (fs, r5) => some ((String.mk kcs, v) :: fs, r5)
                                  | none => none
                                else if c3 = rbraceChar then
                                  some ([(String.mk kcs, v)], r4)
                                else none)
                       | none => none
                     else none)
            | none => none
          else none

/-- One or more items of a non-empty array, consuming the closing
bracket. -/
def parseItems : Nat → List Char → Option (List JsonValue × List Char)
  | 0, _ => none
  | fuel + 1, s =>
      match parseValue fuel s with
      | some (v, r) =>
          (match skipWs r with
           | [] => none
           | c :: r2 =>
               if c = ',' then
                 match parseItems fuel r2 with
                 | some (xs, r3) => some (v :: xs, r3)
                 | none => none
               else if c = ']' then some ([v], r2)
               else none)
      | none => none
end

/-- JSON.parse model: parse one value and require only whitespace after it.
The fuel 2*length+2 dominates the recursion depth of any input. -/
def parseJson (s : String) : Except String JsonValue :=
  match parseValue (2 * s.length + 2) s.data with
  | some (v, rest) =>
      match skipWs rest with
      | [] => .ok v
      | _ => .error "Unexpected non-whitespace character after JSON data"
  | none => .error "Unexpected token in JSON input"

/-- validateAndSave with the submitted text passed explicitly (the source
reads it from the edit textarea when present, else from
reconstructJsonFromEditLines; the DOM surface is outside the model). -/
def validateAndSave (st : ViewerState) (jsonText : String) : ViewerState :=
  match parseJson jsonText with
  | .ok jsonData =>
      let formatted := stringifyPretty jsonData 0
      let st1 := { st with rawJsonText := formatted, textareaContent := formatted }
      let st2 := parseAndDisplay st1 jsonData
      { st2 with
        isEditMode := false
        validationError := ""
        hasUnsavedChanges := false
        isValidJson := true
        editLines := []
        editAllLines := []
        successMessage := "JSON validated and saved successfully!" }
  | .error msg =>
      { st with validationError := "Invalid JSON: " ++ msg, isValidJson := false }

/-- Tag-stripping state machine underlying getPlainTextContent: characters
between < and > are markup, the rest is the plain text. -/
def stripTagsGo : Bool → List Char → List Char
  | _, [] => []
  | true, c :: cs => if c = '>' then stripTagsGo false cs else stripTagsGo true cs
  | false, c :: cs => if c = '<' then stripTagsGo true cs else c :: stripTagsGo false cs

/-- getPlainTextContent: the plain text of a markup-bearing line content. -/
def stripTags (s : String) : String :=
  String.mk (stripTagsGo false s.data)

/-- Ids met walking the parentId chain toward the root by repeated lookup in
the flat list (the ancestor walk of the projector, without its collapse
test); the fuel is instantiated with the list length. -/
def ancestorIds (lines : List JsonLine) : Option Nat → Nat → List Nat
  | none, _ => []
  | some _, 0 => []
  | some p, fuel + 1 =>
      match findById lines p with
      | some pl => p :: ancestorIds lines pl.parentId fuel
      | none => [p]

/-- Blank component state, as after construction. -/
def emptyState : ViewerState :=
  { allLines := [], displayLines := [], rawJsonText := "", textareaContent := ""
    isEditMode := false, validationError := "", editLines := [], editAllLines := []
    hasUnsavedChanges := false, isValidJson := true, successMessage := "" }

/-- The specification's walkthrough input, the parsed form of the text
written as open brace, "a": 1, "b": [2, 3], close brace. -/
def exScenario : JsonValue :=
  .obj [("a", .num 1), ("b", .arr [.num 2, .num 3])]

/-- Display state right after loading the walkthrough input. -/
def stScenario : ViewerState := parseAndDisplay emptyState exScenario

/-- Edit state for a one-field object. -/
def stEditOne : ViewerState := parseEditLines emptyState (.obj [("a", .num 1)])

/-- State with both a display model (the walkthrough input) and an edit
model of the same value; line id 0 opens the root object in both. -/
def stBoth : ViewerState := parseEditLines stScenario exScenario

/-- Display state for an object whose single field has the empty string as
its key, with an empty array as its value. -/
def stEmptyKey : ViewerState := parseAndDisplay emptyState (.obj [("", .arr [])])

mutual
/-- Character-level text of a value as the edit flattener renders it at a
nesting level, without the key prefix or trailing comma of its own line. -/
def valueChars (v : JsonValue) (level : Nat) : List Char :=
  match v with
  | .obj [] => lbraceChar :: '\n' :: ((indentStr level).data ++ [rbraceChar])
  | .obj fs =>
      lbraceChar :: '\n' ::
        (membersChars fs (level + 1) ++ '\n' ::
          ((indentStr level).data ++ [rbraceChar]))
  | .arr [] => '[' :: '\n' :: ((indentStr level).data ++ [']'])
  | .arr xs =>
      '[' :: '\n' ::
        (itemsChars xs (level + 1) ++ '\n' :: ((indentStr level).data ++ [']']))
  | v => (stringifyScalar v).data

/-- Character-level text of the member lines of a non-empty object, joined
by newlines. -/
def membersChars : List (String × JsonValue) → Nat → List Char
  | [], _ => []
  | [(k, v)], level =>
      (indentStr level).data ++ ((editKeyPart (some k)).data ++ valueChars v level)
  | (k, v) :: rest, level =>
      (indentStr level).data ++
        ((editKeyPart (some k)).data ++ (valueChars v level ++ [','])) ++
        '\n' :: membersChars rest level

/-- Character-level text of the item lines of a non-empty array, joined by
newlines. -/
def itemsChars : List JsonValue → Nat → List Char
  | [], _ => []
  | [v], level => (indentStr level).data ++ valueChars v level
  | v :: rest, level =>
      (indentStr level).data ++ (valueChars v level ++ [',']) ++
        '\n' :: itemsChars rest level
end

mutual
/-- Recursion budget sufficient for the value parser on this value. -/
def fuelF : JsonValue → Nat
  | .obj fs => 1 + fuelM fs
  | .arr xs => 1 + fuelI xs
  | _ => 1

/-- Recursion budget sufficient for the member parser on these fields. -/
def fuelM : List (String × JsonValue) → Nat
  | [] => 0
  | (_, v) :: rest => 1 + fuelF v + fuelM rest

/-- Recursion budget sufficient for the item parser on these items. -/
def fuelI : List JsonValue → Nat
  | [] => 0
  | v :: rest => 1 + fuelF v + fuelI rest
end

/-- True when the input does not start with a decimal digit, so a digit run
ending right before it is maximal. -/
def nonDigitStartB : List Char → Bool
  | [] => true
  | c :: _ => !isDigitChar c

/-- Scalar test on values (string, number, boolean, null). -/
def isScalarB : JsonValue → Bool
  | .arr _ => false
  | .obj _ => false
  | _ => true

/-- A character that needs no JSON escaping: not a quote, not a backslash,
not a control character. -/
def cleanCharB (ch : Char) : Bool :=
  !(ch = '"' || ch = '\\' || decide (ch.toNat < 32))

/-- A string whose characters all survive raw interpolation into a JSON
string literal. -/
def cleanStrB (s : String) : Bool :=
  s.data.all cleanCharB

mutual
/-- All object keys of the value, at every depth, survive raw interpolation
(no quotes, backslashes or control characters). -/
def cleanKeysB : JsonValue → Bool
  | .obj fs => cleanFieldsB fs
  | .arr xs => cleanItemsB xs
  | _ => true

/-- Key cleanliness over object fields. -/
def cleanFieldsB : List (String × JsonValue) → Bool
  | [] => true
  | (k, v) :: rest => cleanStrB k && cleanKeysB v && cleanFieldsB rest

/-- Key cleanliness over array items. -/
def cleanItemsB : List JsonValue → Bool
  | [] => true
  | v :: rest => cleanKeysB v && cleanItemsB rest
end

/-- All characters are JSON whitespace. -/
def allWsB (s : List Char) : Bool :=
  s.all isWsChar

/-- Join line texts with newlines, at the character level. -/
def joinNL : List String → List Char
  | [] => []
  | [l] => l.data
  | l :: ls => l.data ++ '\n' :: joinNL ls

/-- The structural fields of a display line: everything the tree-shape
invariants of the flattener speak about (content and presentation fields
are irrelevant to them). -/
structure LineSig where
  id : Nat
  parentId : Option Nat
  level : Nat
  isClosing : Bool
  hasToggle : Bool
  deriving Repr, DecidableEq

/-- Structural view of a display line. -/
def lineSig (l : JsonLine) : LineSig :=
  { id := l.id, parentId := l.parentId, level := l.level,
    isClosing := l.isClosing, hasToggle := l.hasToggle }

/-- Every container-open line of the block has exactly one closing line:
it carries the open line's id as parent, sits at the open line's level,
appears at a strictly larger id, and the parent links of the block place a
line's id in the half-open interval between open and close exactly when its
parent lies in the corresponding interval (so the ids strictly between open
and close, together with the close, are exactly the open line's subtree). -/
def closedBelow (S : List LineSig) : Prop :=
  ∀ o ∈ S, o.hasToggle = true → ∃ cl, cl ∈ S ∧ cl.isClosing = true ∧
    cl.parentId = some o.id ∧ cl.level = o.level ∧ o.id < cl.id ∧
    (∀ x ∈ S, x.isClosing = true → x.parentId = some o.id → x = cl) ∧
    (∀ x ∈ S, ∀ p, x.parentId = some p →
      ((o.id ≤ p ∧ p < cl.id) ↔ (o.id < x.id ∧ x.id ≤ cl.id)))

/-- Structural invariant of one buildLines block: the counter advances by
the block length, ids stay in the counter window and increase along the
block, the head line carries the passed id, parent and level and is not
closing, every other line's parent is an earlier open line of the block at
the right level (closing lines at the parent's level, others one deeper),
and container-opens are closed exactly once. -/
def MasterB (S : List LineSig) (c c' : Nat) (pid : Option Nat) (level : Nat) :
    Prop :=
  c' = c + S.length ∧
  (∀ s ∈ S, c ≤ s.id ∧ s.id < c') ∧
  List.Pairwise (fun a b => a < b) (S.map fun s => s.id) ∧
  (∃ tg T, S = ⟨c, pid, level, false, tg⟩ :: T) ∧
  (∀ s ∈ S, ¬ s.id = c → ∃ p ps, s.parentId = some p ∧ c ≤ p ∧ p < s.id ∧
      ps ∈ S ∧ ps.id = p ∧ ps.isClosing = false ∧ ps.hasToggle = true ∧
      (s.isClosing = true → s.level = ps.level) ∧
      (s.isClosing = false → s.level = ps.level + 1)) ∧
  closedBelow S

/-- Structural invariant of a children block (object or array): like
MasterB, but the block has no single head; the lines whose parent is the
enclosing container's id are exactly the non-closing child heads at the
passed level, and every other line's parent is an earlier open line inside
the block. -/
def MasterC (S : List LineSig) (c c' : Nat) (pid level : Nat) : Prop :=
  c' = c + S.length ∧
  (∀ s ∈ S, c ≤ s.id ∧ s.id < c') ∧
  List.Pairwise (fun a b => a < b) (S.map fun s => s.id) ∧
  (∀ s ∈ S, ∃ p, s.parentId = some p ∧ p < s.id ∧
      ((p = pid ∧ s.isClosing = false ∧ s.level = level) ∨
       (c ≤ p ∧ ∃ ps, ps ∈ S ∧ ps.id = p ∧ ps.isClosing = false ∧
          ps.hasToggle = true ∧
          (s.isClosing = true → s.level = ps.level) ∧
          (s.isClosing = false → s.level = ps.level + 1)))) ∧
  closedBelow S

/-- A line with its display line number cleared: two lines with the same
shape agree on everything the model computes except the running numbering
that the projector rewrites. -/
def shapeOf (l : JsonLine) : JsonLine :=
  { l with lineNumber := 0 }

/-- The fields visibility depends on: id, parent link and collapsed flag. -/
def visOf (l : JsonLine) : Nat × Option Nat × Bool :=
  (l.id, l.parentId, l.isCollapsed)

/-- The fields the ancestor walk depends on: id and parent link. -/
def pairOf (l : JsonLine) : Nat × Option Nat :=
  (l.id, l.parentId)

/-- C6 counterexample: the walkthrough input flattens to 7 lines (open
object, scalar a, open array b, scalars 2 and 3, close bracket, close
brace), not 6 as claimed. -/
theorem C6_cex_not_six_lines : ¬ (flattenDisplay exScenario).length = 6 := by
  decide

/-- C6 (amended): the walkthrough input flattens to 7 lines with matching
open/close pairing; collapsing the array's open line (id 2) hides its two
scalar children and its closing line, leaving lines 0, 1, 2, 6 visible, and
the open line's plain-text content becomes the indented summary
"b": [...] // 2 items. -/
theorem C6_scenario_seven_lines_collapse :
    (flattenDisplay exScenario).length = 7 ∧
    (flattenDisplay exScenario).map
        (fun l => (l.id, l.parentId, l.level, l.hasToggle, l.isClosing)) =
      [(0, none, 0, true, false), (1, some 0, 1, false, false),
       (2, some 0, 1, true, false), (3, some 2, 2, false, false),
       (4, some 2, 2, false, false), (5, some 2, 1, false, true),
       (6, some 0, 0, false, true)] ∧
    (toggleCollapse stScenario 2).displayLines.map (fun l => l.id) = [0, 1, 2, 6] ∧
    (findById (toggleCollapse stScenario 2).allLines 2).map
        (fun l => stripTags l.content) = some "  \"b\": [...] // 2 items" := by
  decide

/-- C8: when the submitted text fails to parse, validateAndSave surfaces the
parser's message prefixed with Invalid JSON and changes nothing else: the
authoritative text, the display line model and the edit line model are all
exactly as before, and the result is the input state with only
validationError and isValidJson updated. -/
theorem C8_save_error_is_noop (st : ViewerState) (s msg : String)
    (h : parseJson s = .error msg) :
    (validateAndSave st s).validationError = "Invalid JSON: " ++ msg ∧
    (validateAndSave st s).rawJsonText = st.rawJsonText ∧
    (validateAndSave st s).textareaContent = st.textareaContent ∧
    (validateAndSave st s).allLines = st.allLines ∧
    (validateAndSave st s).displayLines = st.displayLines ∧
    (validateAndSave st s).editAllLines = st.editAllLines ∧
    (validateAndSave st s).editLines = st.editLines ∧
    validateAndSave st s =
      { st with validationError := "Invalid JSON: " ++ msg, isValidJson := false } := by
  simp [validateAndSave, h]

/-- C8 witness: a lone opening brace fails to parse and leaves the loaded
walkthrough state untouched apart from the error fields. -/
theorem C8_save_error_witness :
    (validateAndSave stScenario "\x7b").validationError =
      "Invalid JSON: " ++ "Unexpected token in JSON input" ∧
    (validateAndSave stScenario "\x7b").rawJsonText = stScenario.rawJsonText ∧
    (validateAndSave stScenario "\x7b").textareaContent = stScenario.textareaContent ∧
    (validateAndSave stScenario "\x7b").allLines = stScenario.allLines ∧
    (validateAndSave stScenario "\x7b").displayLines = stScenario.displayLines ∧
    (validateAndSave stScenario "\x7b").editAllLines = stScenario.editAllLines ∧
    (validateAndSave stScenario "\x7b").editLines = stScenario.editLines ∧
    validateAndSave stScenario "\x7b" =
      { stScenario with
        validationError := "Invalid JSON: " ++ "Unexpected token in JSON input"
        isValidJson := false } :=
  C8_save_error_is_noop stScenario "\x7b" "Unexpected token in JSON input" rfl

/-- C9: toggling an id that matches no line, or a line that is not a
container-open line, is a no-op in both variants: the state (hence every
line's isCollapsed flag and content) is returned unchanged, and no error
channel exists to raise. -/
theorem C9_toggle_guard_noop (st : ViewerState) (i : Nat)
    (hd : ((findById st.allLines i).all fun l => !l.hasToggle) = true)
    (he : ((findById st.editAllLines i).all fun l => !l.hasToggle) = true) :
    toggleCollapse st i = st ∧ toggleEditCollapse st i = st := by
  constructor
  · unfold toggleCollapse
    cases hf : findById st.allLines i with
    | none => rfl
    | some l =>
        rw [hf] at hd
        simp [Option.all_some] at hd
        simp [hd]
  · unfold toggleEditCollapse
    cases hf : findById st.editAllLines i with
    | none => rfl
    | some l =>
        rw [hf] at he
        simp [Option.all_some] at he
        simp [he]

/-- C1 counterexample: object keys are interpolated raw into the edit line
text, so a key containing a quote reconstructs to invalid JSON and the
round trip fails for the one-field object with key a-quote-b. -/
theorem C1_cex_dirty_key :
    reconstructJsonFromEditLines (flattenEdit (.obj [("a\"b", .num 1)])) =
      "\x7b\n  \"a\"b\": 1\n\x7d" ∧
    parseJson "\x7b\n  \"a\"b\": 1\n\x7d" =
      .error "Unexpected token in JSON input" ∧
    ¬ parseJson (reconstructJsonFromEditLines (flattenEdit (.obj [("a\"b", .num 1)]))) =
        .ok (.obj [("a\"b", .num 1)]) := by
  refine ⟨rfl, rfl, ?_⟩
  rw [show parseJson (reconstructJsonFromEditLines (flattenEdit (.obj [("a\"b", .num 1)]))) =
        .error "Unexpected token in JSON input" from rfl]
  exact fun h => Except.noConfusion h

/-- C2 counterexample: the display flattener interpolates string scalars
without escaping, so the rendered literal of the string a-quote-b is the
five characters quote a quote b quote, which is not a JSON string literal
(parsing it back does not return the value). -/
theorem C2_cex_display_unescaped :
    (flattenDisplay (.str "a\"b")).map (fun l => stripTags l.content) = ["\"a\"b\""] ∧
    parseJson "\"a\"b\"" =
      .error "Unexpected non-whitespace character after JSON data" ∧
    ¬ parseJson "\"a\"b\"" = .ok (.str "a\"b") := by
  refine ⟨by decide, rfl, ?_⟩
  rw [show parseJson "\"a\"b\"" =
        .error "Unexpected non-whitespace character after JSON data" from rfl]
  exact fun h => Except.noConfusion h

/-- C3 counterexample: in the flat sequence of the empty object, the closing
line has depth 0 but its parentId chain (one step, to the open line) has
length 1, so depth does not equal the chain length for every line. -/
theorem C3_cex_closing_line_depth :
    ((flattenDisplay (.obj [])).map fun l =>
        (l.level, l.isClosing,
          (ancestorIds (flattenDisplay (.obj [])) l.parentId
            (flattenDisplay (.obj [])).length).length)) = [(0, false, 0), (0, true, 1)] ∧
    ¬ ∀ l ∈ flattenDisplay (.obj []),
        l.level =
          (ancestorIds (flattenDisplay (.obj [])) l.parentId
            (flattenDisplay (.obj [])).length).length := by
  decide

/-- C7 counterexample: in the edit variant, toggling the expanded
container-open line of the one-field object flips its collapsed flag but
leaves its content the bare opening brace - no summary form (marker plus
child-count comment) is written. -/
theorem C7_cex_edit_toggle_keeps_content :
    (findById stEditOne.editAllLines 0).map (fun l => (l.content, l.isCollapsed)) =
      some ("\x7b", false) ∧
    (findById (toggleEditCollapse stEditOne 0).editAllLines 0).map
        (fun l => (l.content, l.isCollapsed)) = some ("\x7b", true) := by
  decide

/-- C10 counterexample: toggling the container-open line of the empty-keyed
field twice is not the identity: the toggle rewrite tests the key for
truthiness, so the empty-string key's prefix is dropped from the restored
content and even the visible projection differs from the original. -/
theorem C10_cex_empty_key :
    ¬ (toggleCollapse (toggleCollapse stEmptyKey 1) 1).displayLines =
        stEmptyKey.displayLines ∧
    (findById stEmptyKey.allLines 1).map (fun l => l.content) =
      some ("  " ++ spanWrap "key" "\"\"" ++ spanWrap "colon" ": " ++
        spanWrap "bracket" "[") ∧
    (findById (toggleCollapse (toggleCollapse stEmptyKey 1) 1).allLines 1).map
        (fun l => l.content) = some ("  " ++ spanWrap "bracket" "[") := by
  decide

/-- The projection pass only rewrites lineNumber fields: the contents of the
full list are unchanged. -/
theorem projectGo_fst_map_content (L : List JsonLine) :
    ∀ (ls : List JsonLine) (n : Nat),
      ((projectGo L ls n).1.map fun l => l.content) = ls.map fun l => l.content := by
  intro ls
  induction ls with
  | nil => intro n; rfl
  | cons l ls ih =>
      intro n
      by_cases h : isVisible L l = true <;> simp [projectGo, h, ih]

/-- Replacing one line with a content-preserving rewrite preserves the
content sequence. -/
theorem replaceFirstById_map_content (i : Nat) (f : JsonLine → JsonLine)
    (hf : ∀ l, (f l).content = l.content) :
    ∀ ls : List JsonLine,
      ((replaceFirstById i f ls).map fun l => l.content) = ls.map fun l => l.content := by
  intro ls
  induction ls with
  | nil => rfl
  | cons l ls ih =>
      by_cases h : (l.id == i) = true <;> simp [replaceFirstById, h, ih, hf]

/-- C7 (amended): in the display variant, toggling a container-open line
while expanded replaces its content with the summary form (indentation,
then the key prefix when the key is present and non-empty, then a collapsed
container marker, then an inline comment showing childCount with the noun
properties for objects or items for arrays), toggling while collapsed
restores the plain opening form, and the projection is re-run; in the edit
variant, toggling only flips isCollapsed and re-runs the projection - no
line's content changes. -/
theorem C7_toggle_rewrites (st : ViewerState) (i : Nat) (ld le : JsonLine)
    (hd : findById st.allLines i = some ld) (htd : ld.hasToggle = true)
    (he : findById st.editAllLines i = some le) (hte : le.hasToggle = true) :
    toggleCollapse st i =
      { st with
        allLines := (projectLines (replaceFirstById i toggleLine st.allLines)).1
        displayLines := (projectLines (replaceFirstById i toggleLine st.allLines)).2 } ∧
    (toggleLine ld).isCollapsed = !ld.isCollapsed ∧
    (ld.isCollapsed = false → ld.isObject = true →
      (toggleLine ld).content =
        indentStr ld.level ++ keyPartToggle ld.originalKey ++
          "<span class=\"bracket\">\x7b...\x7d</span>" ++ " " ++
          ("<span class=\"comment\">" ++ ("// " ++ toString ld.childCount ++
            " properties") ++ "</span>")) ∧
    (ld.isCollapsed = false → ld.isObject = false → ld.isArray = true →
      (toggleLine ld).content =
        indentStr ld.level ++ keyPartToggle ld.originalKey ++
          "<span class=\"bracket\">[...]</span>" ++ " " ++
          ("<span class=\"comment\">" ++ ("// " ++ toString ld.childCount ++
            " items") ++ "</span>")) ∧
    (ld.isCollapsed = true → ld.isObject = true →
      (toggleLine ld).content =
        indentStr ld.level ++ keyPartToggle ld.originalKey ++
          "<span class=\"bracket\">\x7b</span>") ∧
    (ld.isCollapsed = true → ld.isObject = false → ld.isArray = true →
      (toggleLine ld).content =
        indentStr ld.level ++ keyPartToggle ld.originalKey ++
          "<span class=\"bracket\">[</span>") ∧
    toggleEditCollapse st i =
      { st with
        editAllLines := (projectLines (replaceFirstById i
          (fun l0 => { l0 with isCollapsed := !l0.isCollapsed }) st.editAllLines)).1
        editLines := (projectLines (replaceFirstById i
          (fun l0 => { l0 with isCollapsed := !l0.isCollapsed }) st.editAllLines)).2 } ∧
    ((toggleEditCollapse st i).editAllLines.map fun l => l.content) =
      st.editAllLines.map fun l => l.content := by
  refine ⟨?_, ?_, ?_, ?_, ?_, ?_, ?_, ?_⟩
  · simp [toggleCollapse, hd, htd]
  · cases hC : ld.isCollapsed <;> cases hO : ld.isObject <;> cases hA : ld.isArray <;>
      simp [toggleLine, hC, hO, hA]
  · intro hc ho
    simp [toggleLine, hc, ho, collapsedObjContent, spanWrap]
  · intro hc ho ha
    simp [toggleLine, hc, ho, ha, collapsedArrContent, spanWrap]
  · intro hc ho
    simp [toggleLine, hc, ho, expandedObjContent, spanWrap]
  · intro hc ho ha
    simp [toggleLine, hc, ho, ha, expandedArrContent, spanWrap]
  · simp [toggleEditCollapse, he, hte]
  · rw [show (toggleEditCollapse st i).editAllLines =
        (projectLines (replaceFirstById i
          (fun l0 => { l0 with isCollapsed := !l0.isCollapsed }) st.editAllLines)).1 by
      simp [toggleEditCollapse, he, hte]]
    rw [projectLines, projectGo_fst_map_content]
    exact replaceFirstById_map_content i
      (fun l0 => { l0 with isCollapsed := !l0.isCollapsed }) (fun l => rfl)
      st.editAllLines

/-- C7 witness: both models of the walkthrough value loaded; toggling line 0
in each variant exercises the rewrite equations at a concrete state. -/
theorem C7_toggle_rewrites_witness :
    toggleCollapse stBoth 0 =
      { stBoth with
        allLines := (projectLines (replaceFirstById 0 toggleLine stBoth.allLines)).1
        displayLines := (projectLines (replaceFirstById 0 toggleLine stBoth.allLines)).2 } ∧
    ((toggleEditCollapse stBoth 0).editAllLines.map fun l => l.content) =
      stBoth.editAllLines.map fun l => l.content := by
  have h := C7_toggle_rewrites stBoth 0
    { id := 0, content := spanWrap "bracket" "\x7b", level := 0, hasToggle := true,
      isCollapsed := false, parentId := none, lineNumber := 1, isClosing := false,
      originalKey := none, isArray := false, isObject := true, childCount := 2 }
    { id := 0, content := "\x7b", level := 0, hasToggle := true,
      isCollapsed := false, parentId := none, lineNumber := 1, isClosing := false,
      originalKey := none, isArray := false, isObject := true, childCount := 2 }
    (by decide) (by decide) (by decide) (by decide)
  exact ⟨h.1, h.2.2.2.2.2.2.2⟩

/-- Char.ofNat below the surrogate range converts back to the same code. -/
theorem toNat_ofNat_small (n : Nat) (h : n < 55296) : (Char.ofNat n).toNat = n := by
  rw [Char.ofNat, dif_pos (Or.inl h)]
  simp [Char.ofNatAux, Char.toNat, UInt32.toNat]

/-- The digit printer ignores the exact budget as long as it is enough. -/
theorem natCharsFuel_congr : ∀ (n f₁ f₂ : Nat), n < f₁ → n < f₂ →
    natCharsFuel f₁ n = natCharsFuel f₂ n := by
  intro n
  induction n using Nat.strong_induction_on with
  | _ n ih =>
      intro f₁ f₂ h₁ h₂
      cases f₁ with
      | zero => omega
      | succ f₁ =>
          cases f₂ with
          | zero => omega
          | succ f₂ =>
              simp only [natCharsFuel]
              by_cases h : n < 10
              · simp [h]
              · simp only [h, if_false]
                rw [ih (n / 10) (Nat.div_lt_self (by omega) (by omega)) f₁ f₂
                  (by omega) (by omega)]

/-- Digit printer, one-digit case. -/
theorem natChars_lt10 (n : Nat) (h : n < 10) :
    natChars n = [Char.ofNat (48 + n)] := by
  simp [natChars, natCharsFuel, h]

/-- Digit printer, recursive case. -/
theorem natChars_ge10 (n : Nat) (h : 10 ≤ n) :
    natChars n = natChars (n / 10) ++ [Char.ofNat (48 + n % 10)] := by
  rw [natChars, natChars, natCharsFuel]
  simp only [show ¬ n < 10 by omega, if_false]
  rw [natCharsFuel_congr (n / 10) n (n / 10 + 1)
    (Nat.div_lt_self (by omega) (by omega)) (by omega)]

/-- Digit characters printed for a number really are digits. -/
theorem natChars_all_digits : ∀ n, ∀ c ∈ natChars n, isDigitChar c = true := by
  intro n
  induction n using Nat.strong_induction_on with
  | _ n ih =>
      by_cases h : n < 10
      · rw [natChars_lt10 n h]
        intro c hc
        simp at hc
        subst hc
        simp [isDigitChar, toNat_ofNat_small (48 + n) (by omega)]
        omega
      · rw [natChars_ge10 n (by omega)]
        intro c hc
        rcases List.mem_append.mp hc with h1 | h2
        · exact ih (n / 10) (Nat.div_lt_self (by omega) (by omega)) c h1
        · simp at h2
          subst h2
          simp [isDigitChar, toNat_ofNat_small (48 + n % 10) (by omega)]
          omega

/-- The digit printer never returns the empty list. -/
theorem natChars_ne_nil (n : Nat) : ¬ natChars n = [] := by
  by_cases h : n < 10
  · rw [natChars_lt10 n h]
    simp
  · rw [natChars_ge10 n (by omega)]
    simp

/-- The printed form of a positive number does not start with the digit 0. -/
theorem natChars_head_ne_zero : ∀ n, 1 ≤ n → ∀ c cs, natChars n = c :: cs →
    ¬ c = '0' := by
  intro n
  induction n using Nat.strong_induction_on with
  | _ n ih =>
      intro hn c cs heq hzero
      by_cases h : n < 10
      · rw [natChars_lt10 n h] at heq
        have hc : c = Char.ofNat (48 + n) := by
          exact (List.cons.injEq .. ▸ heq.symm).1
        have := congrArg Char.toNat (hc ▸ hzero)
        rw [toNat_ofNat_small (48 + n) (by omega)] at this
        simp at this
        omega
      · rw [natChars_ge10 n (by omega)] at heq
        rcases hrec : natChars (n / 10) with _ | ⟨c', cs'⟩
        · exact natChars_ne_nil (n / 10) hrec
        · rw [hrec] at heq
          simp only [List.cons_append, List.cons.injEq] at heq
          exact ih (n / 10) (Nat.div_lt_self (by omega) (by omega))
            (Nat.le_div_iff_mul_le (by omega) |>.mpr (by omega)) c' cs' hrec
            (heq.1 ▸ hzero)

/-- Digit folding across an append. -/
theorem digitsToNat_append : ∀ (xs ys : List Char) (acc : Nat),
    digitsToNat acc (xs ++ ys) = digitsToNat (digitsToNat acc xs) ys := by
  intro xs
  induction xs with
  | nil => intro ys acc; rfl
  | cons x xs ih =>
      intro ys acc
      rw [List.cons_append]
      rw [show digitsToNat acc (x :: (xs ++ ys))
            = digitsToNat (acc * 10 + (x.toNat - 48)) (xs ++ ys) from rfl]
      rw [show digitsToNat acc (x :: xs)
            = digitsToNat (acc * 10 + (x.toNat - 48)) xs from rfl]
      exact ih ys _

/-- Folding the printed digits of n onto an accumulator. -/
theorem digitsToNat_natChars : ∀ n acc,
    digitsToNat acc (natChars n) = acc * 10 ^ (natChars n).length + n := by
  intro n
  induction n using Nat.strong_induction_on with
  | _ n ih =>
      intro acc
      by_cases h : n < 10
      · rw [natChars_lt10 n h]
        rw [show ∀ a, digitsToNat a [Char.ofNat (48 + n)]
              = a * 10 + ((Char.ofNat (48 + n)).toNat - 48) from fun a => rfl]
        rw [toNat_ofNat_small (48 + n) (by omega)]
        rw [List.length_singleton, pow_one]
        omega
      · rw [natChars_ge10 n (by omega), digitsToNat_append]
        rw [ih (n / 10) (Nat.div_lt_self (by omega) (by omega)) acc]
        rw [show ∀ a, digitsToNat a [Char.ofNat (48 + n % 10)]
              = a * 10 + ((Char.ofNat (48 + n % 10)).toNat - 48) from fun a => rfl]
        rw [toNat_ofNat_small (48 + n % 10) (by omega)]
        rw [List.length_append, List.length_singleton, pow_succ, ← Nat.mul_assoc]
        generalize acc * 10 ^ (natChars (n / 10)).length = q
        omega

/-- A maximal digit run is split off unchanged. -/
theorem takeDigits_of_digits : ∀ (ds rest : List Char),
    (∀ c ∈ ds, isDigitChar c = true) → nonDigitStartB rest = true →
    takeDigits (ds ++ rest) = (ds, rest) := by
  intro ds
  induction ds with
  | nil =>
      intro rest _ hrest
      cases rest with
      | nil => rfl
      | cons c cs =>
          simp [nonDigitStartB] at hrest
          simp [takeDigits, hrest]
  | cons d ds ih =>
      intro rest hds hrest
      have hd : isDigitChar d = true := hds d (by simp)
      simp [takeDigits, hd, ih rest (fun c hc => hds c (by simp [hc])) hrest]

/-- The number parser inverts the digit printer on any maximal digit run. -/
theorem parseNumAfterSign_natChars (n : Nat) (rest : List Char)
    (hrest : nonDigitStartB rest = true) :
    parseNumAfterSign (natChars n ++ rest) = some (n, rest) := by
  by_cases h0 : n = 0
  · subst h0
    rw [natChars_lt10 0 (by omega)]
    simp [parseNumAfterSign, show Char.ofNat 48 = '0' from rfl]
  · rcases hrec : natChars n with _ | ⟨c, cs⟩
    · exact absurd hrec (natChars_ne_nil n)
    · have hc : isDigitChar c = true :=
        natChars_all_digits n c (by rw [hrec]; simp)
      have hcz : ¬ c = '0' := natChars_head_ne_zero n (by omega) c cs hrec
      have hcs : ∀ x ∈ cs, isDigitChar x = true := fun x hx =>
        natChars_all_digits n x (by rw [hrec]; simp [hx])
      simp only [hrec, List.cons_append, parseNumAfterSign, hcz, if_false, hc,
        if_true]
      rw [takeDigits_of_digits cs rest hcs hrest]
      have hval2 : digitsToNat (c.toNat - 48) cs = n := by
        have hval : digitsToNat 0 (natChars n) = n := by
          rw [digitsToNat_natChars n 0]
          simp
        rw [hrec] at hval
        rw [show digitsToNat 0 (c :: cs)
              = digitsToNat (0 * 10 + (c.toNat - 48)) cs from rfl] at hval
        rw [show 0 * 10 + (c.toNat - 48) = c.toNat - 48 by omega] at hval
        exact hval
      show some (digitsToNat (c.toNat - 48) cs, rest) = some (n, rest)
      rw [hval2]

/-- A digit head rules out every other dispatch branch of the value parser
and whitespace. -/
theorem digit_char_props (c : Char) (h : isDigitChar c = true) :
    ¬ c = lbraceChar ∧ ¬ c = '[' ∧ ¬ c = '"' ∧ ¬ c = 't' ∧ ¬ c = 'f' ∧
    ¬ c = 'n' ∧ ¬ c = '-' ∧ isWsChar c = false := by
  refine ⟨?_, ?_, ?_, ?_, ?_, ?_, ?_, ?_⟩
  · intro heq; subst heq; exact absurd h (by decide)
  · intro heq; subst heq; exact absurd h (by decide)
  · intro heq; subst heq; exact absurd h (by decide)
  · intro heq; subst heq; exact absurd h (by decide)
  · intro heq; subst heq; exact absurd h (by decide)
  · intro heq; subst heq; exact absurd h (by decide)
  · intro heq; subst heq; exact absurd h (by decide)
  · simp only [isWsChar, Bool.or_eq_false_iff, decide_eq_false_iff_not]
    refine ⟨⟨⟨?_, ?_⟩, ?_⟩, ?_⟩ <;>
      (intro heq; subst heq; exact absurd h (by decide))

/-- Skipping whitespace before a non-whitespace head is the identity. -/
theorem skipWs_not_ws (c : Char) (r : List Char) (h : isWsChar c = false) :
    skipWs (c :: r) = c :: r := by
  simp [skipWs, h]

/-- Hexadecimal digits round-trip through the printer. -/
theorem hexVal_hexDigitChar : ∀ m, m < 16 → hexVal? (hexDigitChar m) = some m := by
  decide

/-- Unfolding of the string-body parser at an ordinary character. -/
theorem parseStringBody_raw_eq (c : Char) (T : List Char) (h1 : ¬ c = '"')
    (h2 : ¬ c = '\\') (h3 : ¬ c.toNat < 32) :
    parseStringBody (c :: T) =
      (match parseStringBody T with
       | some (s, r) => some (c :: s, r)
       | none => none) := by
  rw [parseStringBody.eq_def]
  split
  · rename_i heq
    exact absurd heq (by simp)
  · rename_i heq
    cases heq
    exact absurd rfl h1
  · rename_i heq
    cases heq
    exact absurd rfl h2
  · rename_i heq
    cases heq
    exact absurd rfl h2
  · rename_i heq
    cases heq
    exact absurd rfl h2
  · rename_i heq
    cases heq
    simp [h3]

/-- A low code point's hexadecimal escape digits decode back to it. -/
theorem hexQuad_low (t : Nat) (h : t < 32) :
    hexQuad? '0' '0' (hexDigitChar (t / 16)) (hexDigitChar (t % 16)) = some t := by
  rw [hexQuad?, hexVal_hexDigitChar (t / 16) (by omega),
    hexVal_hexDigitChar (t % 16) (by omega)]
  rw [show hexVal? '0' = some 0 from rfl]
  show some (((0 * 16 + 0) * 16 + t / 16) * 16 + t % 16) = some t
  congr 1
  omega

/-- The string-literal parser inverts JSON.stringify escaping: the escaped
interior followed by a closing quote parses back to the original characters,
leaving the rest of the input. -/
theorem parseStringBody_escape : ∀ (cs rest : List Char),
    parseStringBody ((cs.map escapeChar).flatten ++ '"' :: rest) = some (cs, rest) := by
  intro cs
  induction cs with
  | nil => intro rest; rfl
  | cons c cs ih =>
      intro rest
      simp only [List.map_cons, List.flatten_cons, List.append_assoc]
      by_cases h1 : c = '"'
      · subst h1
        rw [show escapeChar '"' = ['\\', '"'] from rfl]
        rw [List.cons_append, List.cons_append, List.nil_append]
        show (match parseStringBody ((cs.map escapeChar).flatten ++ '"' :: rest) with
              | some (s, r) => some ('"' :: s, r)
              | none => none) = some ('"' :: cs, rest)
        rw [ih rest]
      · by_cases h2 : c = '\\'
        · subst h2
          rw [show escapeChar '\\' = ['\\', '\\'] from rfl]
          rw [List.cons_append, List.cons_append, List.nil_append]
          show (match parseStringBody ((cs.map escapeChar).flatten ++ '"' :: rest) with
                | some (s, r) => some ('\\' :: s, r)
                | none => none) = some ('\\' :: cs, rest)
          rw [ih rest]
        · by_cases h3 : c = Char.ofNat 8
          · subst h3
            rw [show escapeChar (Char.ofNat 8) = ['\\', 'b'] from rfl]
            rw [List.cons_append, List.cons_append, List.nil_append]
            show (match parseStringBody ((cs.map escapeChar).flatten ++ '"' :: rest) with
                  | some (s, r) => some (Char.ofNat 8 :: s, r)
                  | none => none) = some (Char.ofNat 8 :: cs, rest)
            rw [ih rest]
          · by_cases h4 : c = Char.ofNat 9
            · subst h4
              rw [show escapeChar (Char.ofNat 9) = ['\\', 't'] from rfl]
              rw [List.cons_append, List.cons_append, List.nil_append]
              show (match parseStringBody ((cs.map escapeChar).flatten ++ '"' :: rest) with
                    | some (s, r) => some (Char.ofNat 9 :: s, r)
                    | none => none) = some (Char.ofNat 9 :: cs, rest)
              rw [ih rest]
            · by_cases h5 : c = Char.ofNat 10
              · subst h5
                rw [show escapeChar (Char.ofNat 10) = ['\\', 'n'] from rfl]
                rw [List.cons_append, List.cons_append, List.nil_append]
                show (match parseStringBody ((cs.map escapeChar).flatten ++ '"' :: rest) with
                      | some (s, r) => some (Char.ofNat 10 :: s, r)
                      | none => none) = some (Char.ofNat 10 :: cs, rest)
                rw [ih rest]
              · by_cases h6 : c = Char.ofNat 12
                · subst h6
                  rw [show escapeChar (Char.ofNat 12) = ['\\', 'f'] from rfl]
                  rw [List.cons_append, List.cons_append, List.nil_append]
                  show (match parseStringBody ((cs.map escapeChar).flatten ++ '"' :: rest) with
                        | some (s, r) => some (Char.ofNat 12 :: s, r)
                        | none => none) = some (Char.ofNat 12 :: cs, rest)
                  rw [ih rest]
                · by_cases h7 : c = Char.ofNat 13
                  · subst h7
                    rw [show escapeChar (Char.ofNat 13) = ['\\', 'r'] from rfl]
                    rw [List.cons_append, List.cons_append, List.nil_append]
                    show (match parseStringBody ((cs.map escapeChar).flatten ++ '"' :: rest) with
                          | some (s, r) => some (Char.ofNat 13 :: s, r)
                          | none => none) = some (Char.ofNat 13 :: cs, rest)
                    rw [ih rest]
                  · by_cases h8 : c.toNat < 32
                    · rw [show escapeChar c = ['\\', 'u', '0', '0',
                          hexDigitChar (c.toNat / 16), hexDigitChar (c.toNat % 16)] by
                        simp [escapeChar, h1, h2, h3, h4, h5, h6, h7, h8]]
                      simp only [List.cons_append, List.nil_append]
                      show (match hexQuad? '0' '0' (hexDigitChar (c.toNat / 16))
                              (hexDigitChar (c.toNat % 16)) with
                            | some n =>
                                match parseStringBody
                                    ((cs.map escapeChar).flatten ++ '"' :: rest) with
                                | some (s, r) => some (Char.ofNat n :: s, r)
                                | none => none
                            | none => none) = some (c :: cs, rest)
                      rw [hexQuad_low c.toNat h8, ih rest]
                      show some (Char.ofNat c.toNat :: cs, rest) = some (c :: cs, rest)
                      rw [Char.ofNat_toNat]
                    · rw [show escapeChar c = [c] by
                        simp [escapeChar, h1, h2, h3, h4, h5, h6, h7, h8]]
                      simp only [List.cons_append, List.nil_append]
                      rw [parseStringBody_raw_eq c _ h1 h2 h8, ih rest]

/-- One-step unfolding of the value parser at a non-whitespace head. -/
theorem parseValue_cons (fuel : Nat) (c : Char) (r : List Char)
    (hws : isWsChar c = false) :
    parseValue (fuel + 1) (c :: r) =
      (if c = lbraceChar then
        match skipWs r with
        | [] => none
        | c2 :: r2 =>
            if c2 = rbraceChar then some (.obj [], r2)
            else
              match parseMembers fuel (c2 :: r2) with
              | some (fs, r3) => some (.obj fs, r3)
              | none => none
      else if c = '[' then
        match skipWs r with
        | [] => none
        | c2 :: r2 =>
            if c2 = ']' then some (.arr [], r2)
            else
              match parseItems fuel (c2 :: r2) with
              | some (xs, r3) => some (.arr xs, r3)
              | none => none
      else if c = '"' then
        match parseStringBody r with
        | some (cs, r2) => some (.str (String.mk cs), r2)
        | none => none
      else if c = 't' then
        match r with
        | 'r' :: 'u' :: 'e' :: r2 => some (.bool true, r2)
        | _ => none
      else if c = 'f' then
        match r with
        | 'a' :: 'l' :: 's' :: 'e' :: r2 => some (.bool false, r2)
        | _ => none
      else if c = 'n' then
        match r with
        | 'u' :: 'l' :: 'l' :: r2 => some (.null, r2)
        | _ => none
      else if c = '-' then
        match parseNumAfterSign r with
        | some (n, r2) => some (.num (-(n : Int)), r2)
        | none => none
      else if isDigitChar c then
        match parseNumAfterSign (c :: r) with
        | some (n, r2) => some (.num (n : Int), r2)
        | none => none
      else none) := by
  have hskip : skipWs (c :: r) = c :: r := skipWs_not_ws c r hws
  calc parseValue (fuel + 1) (c :: r)
      = (match skipWs (c :: r) with
         | [] => none
         | c :: r =>
            if c = lbraceChar then
              match skipWs r with
              | [] => none
              | c2 :: r2 =>
                  if c2 = rbraceChar then some (.obj [], r2)
                  else
                    match parseMembers fuel (c2 :: r2) with
                    | some (fs, r3) => some (.obj fs, r3)
                    | none => none
            else if c = '[' then
              match skipWs r with
              | [] => none
              | c2 :: r2 =>
                  if c2 = ']' then some (.arr [], r2)
                  else
                    match parseItems fuel (c2 :: r2) with
                    | some (xs, r3) => some (.arr xs, r3)
                    | none => none
            else if c = '"' then
              match parseStringBody r with
              | some (cs, r2) => some (.str (String.mk cs), r2)
              | none => none
            else if c = 't' then
              match r with
              | 'r' :: 'u' :: 'e' :: r2 => some (.bool true, r2)
              | _ => none
            else if c = 'f' then
              match r with
              | 'a' :: 'l' :: 's' :: 'e' :: r2 => some (.bool false, r2)
              | _ => none
            else if c = 'n' then
              match r with
              | 'u' :: 'l' :: 'l' :: r2 => some (.null, r2)
              | _ => none
            else if c = '-' then
              match parseNumAfterSign r with
              | some (n, r2) => some (.num (-(n : Int)), r2)
              | none => none
            else if isDigitChar c then
              match parseNumAfterSign (c :: r) with
              | some (n, r2) => some (.num (n : Int), r2)
              | none => none
            else none) := rfl
    _ = _ := by rw [hskip]

/-- The value parser accepts any scalar rendered by JSON.stringify, leaving
the rest of the input (which must not continue a digit run). -/
theorem parseValue_scalar (v : JsonValue) (hs : isScalarB v = true) (fuel : Nat)
    (rest : List Char) (hrest : nonDigitStartB rest = true) :
    parseValue (fuel + 1) ((stringifyScalar v).data ++ rest) = some (v, rest) := by
  cases v with
  | null => rfl
  | bool b => cases b <;> rfl
  | arr items => exact absurd hs (by simp [isScalarB])
  | obj fields => exact absurd hs (by simp [isScalarB])
  | str s =>
      show parseValue (fuel + 1)
        (("\"" ++ escapeString s ++ "\"").data ++ rest) = some (.str s, rest)
      rw [show ("\"" ++ escapeString s ++ "\"").data
            = '"' :: ((s.data.map escapeChar).flatten ++ ['"']) by
        simp [escapeString, String.data_append]]
      rw [List.cons_append, List.append_assoc]
      rw [parseValue_cons fuel '"' _ (by decide)]
      rw [if_neg (by decide), if_neg (by decide), if_pos rfl]
      rw [show ['"'] ++ rest = '"' :: rest from rfl]
      rw [parseStringBody_escape s.data rest]
  | num n =>
      show parseValue (fuel + 1)
        ((String.mk (intChars n)).data ++ rest) = some (.num n, rest)
      rw [show (String.mk (intChars n)).data = intChars n from rfl]
      rw [intChars]
      by_cases hneg : n < 0
      · rw [if_pos hneg, List.cons_append]
        rw [parseValue_cons fuel '-' _ (by decide)]
        rw [if_neg (by decide), if_neg (by decide), if_neg (by decide),
          if_neg (by decide), if_neg (by decide), if_neg (by decide), if_pos rfl]
        rw [parseNumAfterSign_natChars n.natAbs rest hrest]
        show some (JsonValue.num (-(n.natAbs : Int)), rest)
          = some (JsonValue.num n, rest)
        have : -(n.natAbs : Int) = n := by omega
        rw [this]
      · rw [if_neg hneg]
        rcases hrec : natChars n.natAbs with _ | ⟨c, cs⟩
        · exact absurd hrec (natChars_ne_nil _)
        · have hdig : isDigitChar c = true :=
            natChars_all_digits n.natAbs c (by rw [hrec]; simp)
          obtain ⟨p1, p2, p3, p4, p5, p6, p7, p8⟩ := digit_char_props c hdig
          rw [List.cons_append]
          rw [parseValue_cons fuel c _ p8]
          rw [if_neg p1, if_neg p2, if_neg p3, if_neg p4, if_neg p5, if_neg p6,
            if_neg p7, if_pos hdig]
          rw [← List.cons_append, ← hrec]
          rw [parseNumAfterSign_natChars n.natAbs rest hrest]
          show some (JsonValue.num (n.natAbs : Int), rest)
            = some (JsonValue.num n, rest)
          have : (n.natAbs : Int) = n := by omega
          rw [this]

/-- Clean characters parse back unchanged from an unescaped literal body. -/
theorem parseStringBody_raw_chars : ∀ (cs rest : List Char),
    (∀ ch ∈ cs, cleanCharB ch = true) →
    parseStringBody (cs ++ '"' :: rest) = some (cs, rest) := by
  intro cs
  induction cs with
  | nil => intro rest _; rfl
  | cons c cs ih =>
      intro rest hcl
      have hc := hcl c (by simp)
      simp only [cleanCharB, Bool.not_eq_true', Bool.or_eq_false_iff,
        decide_eq_false_iff_not] at hc
      rw [List.cons_append, parseStringBody_raw_eq c _ hc.1.1 hc.1.2 hc.2]
      rw [ih rest (fun x hx => hcl x (by simp [hx]))]

/-- JSON.parse accepts every scalar literal JSON.stringify produces. -/
theorem parseJson_scalar (v : JsonValue) (hs : isScalarB v = true) :
    parseJson (stringifyScalar v) = .ok v := by
  unfold parseJson
  have h := parseValue_scalar v hs (2 * (stringifyScalar v).length + 1) [] rfl
  rw [List.append_nil] at h
  rw [show 2 * (stringifyScalar v).length + 2
        = (2 * (stringifyScalar v).length + 1) + 1 from rfl]
  rw [h]
  rfl

/-- C2 (amended): every scalar flattens to exactly one line in both
variants; the edit variant's literal (JSON.stringify) follows the JSON
scalar grammar - parsing it back returns the value - while the display
variant interpolates strings raw (quotes unescaped), so its literal follows
the grammar only when the string needs no escaping. -/
theorem C2_scalar_one_line_grammar (v : JsonValue) (hs : isScalarB v = true)
    (key : Option String) (level : Nat) (pid : Option Nat) (c0 : Nat)
    (isLast : Bool) :
    (buildLines v key level pid c0).1.length = 1 ∧
    (buildEditLines v key level pid isLast c0).1.length = 1 ∧
    parseJson (stringifyScalar v) = .ok v ∧
    (∀ s, v = .str s → scalarSpanText v =
      spanWrap "value-string" ("\"" ++ s ++ "\"")) ∧
    (∀ s, v = .str s → cleanStrB s = true →
      parseJson ("\"" ++ s ++ "\"") = .ok v) := by
  refine ⟨?_, ?_, parseJson_scalar v hs, ?_, ?_⟩
  · cases v <;> first | rfl | exact absurd hs (by simp [isScalarB])
  · cases v <;> first | rfl | exact absurd hs (by simp [isScalarB])
  · intro s hv
    subst hv
    rfl
  · intro s hv hclean
    subst hv
    unfold parseJson
    have hdata : ("\"" ++ s ++ "\"").data = '"' :: (s.data ++ '"' :: []) := by
      simp [String.data_append]
    rw [hdata]
    rw [show 2 * ("\"" ++ s ++ "\"").length + 2
          = (2 * ("\"" ++ s ++ "\"").length + 1) + 1 from rfl]
    rw [parseValue_cons _ '"' _ (by decide)]
    rw [if_neg (by decide), if_neg (by decide), if_pos rfl]
    rw [parseStringBody_raw_chars s.data []
      (by simpa [cleanStrB, List.all_eq_true] using hclean)]
    rfl

/-- C2 witness: the string scalar hi, rendered at the root with no key. -/
theorem C2_scalar_witness :
    (buildLines (.str "hi") none 0 none 0).1.length = 1 ∧
    (buildEditLines (.str "hi") none 0 none true 0).1.length = 1 ∧
    parseJson (stringifyScalar (.str "hi")) = .ok (.str "hi") ∧
    (∀ s, JsonValue.str "hi" = .str s → scalarSpanText (.str "hi") =
      spanWrap "value-string" ("\"" ++ s ++ "\"")) ∧
    (∀ s, JsonValue.str "hi" = .str s → cleanStrB s = true →
      parseJson ("\"" ++ s ++ "\"") = .ok (.str "hi")) :=
  C2_scalar_one_line_grammar (.str "hi") (by decide) none 0 none 0 true

/-- Leading whitespace is skipped through an append. -/
theorem skipWs_append_allWs : ∀ (ws x : List Char), allWsB ws = true →
    skipWs (ws ++ x) = skipWs x := by
  intro ws
  induction ws with
  | nil => intro x _; rfl
  | cons c cs ih =>
      intro x hws
      simp only [allWsB, List.all_cons, Bool.and_eq_true] at hws
      rw [List.cons_append]
      rw [show skipWs (c :: (cs ++ x)) = if isWsChar c then skipWs (cs ++ x)
            else c :: (cs ++ x) from rfl]
      rw [if_pos hws.1]
      exact ih x (by simp [allWsB, hws.2])

/-- The head surviving a whitespace skip is not whitespace. -/
theorem skipWs_head_not_ws : ∀ (x : List Char) (c : Char) (r : List Char),
    skipWs x = c :: r → isWsChar c = false := by
  intro x
  induction x with
  | nil => intro c r h; exact absurd h (by simp [skipWs])
  | cons d ds ih =>
      intro c r h
      rw [show skipWs (d :: ds) = if isWsChar d then skipWs ds else d :: ds
            from rfl] at h
      by_cases hd : isWsChar d = true
      · rw [if_pos hd] at h
        exact ih c r h
      · rw [if_neg (by simpa using hd)] at h
        cases h
        simpa using hd

/-- One-step unfolding of the value parser with remaining budget. -/
theorem parseValue_succ (fuel : Nat) (s : List Char) :
    parseValue (fuel + 1) s =
      (match skipWs s with
       | [] => none
       | c :: r =>
          if c = lbraceChar then
            match skipWs r with
            | [] => none
            | c2 :: r2 =>
                if c2 = rbraceChar then some (.obj [], r2)
                else
                  match parseMembers fuel (c2 :: r2) with
                  | some (fs, r3) => some (.obj fs, r3)
                  | none => none
          else if c = '[' then
            match skipWs r with
            | [] => none
            | c2 :: r2 =>
                if c2 = ']' then some (.arr [], r2)
                else
                  match parseItems fuel (c2 :: r2) with
                  | some (xs, r3) => some (.arr xs, r3)
                  | none => none
          else if c = '"' then
            match parseStringBody r with
            | some (cs, r2) => some (.str (String.mk cs), r2)
            | none => none
          else if c = 't' then
            match r with
            | 'r' :: 'u' :: 'e' :: r2 => some (.bool true, r2)
            | _ => none
          else if c = 'f' then
            match r with
            | 'a' :: 'l' :: 's' :: 'e' :: r2 => some (.bool false, r2)
            | _ => none
          else if c = 'n' then
            match r with
            | 'u' :: 'l' :: 'l' :: r2 => some (.null, r2)
            | _ => none
          else if c = '-' then
            match parseNumAfterSign r with
            | some (n, r2) => some (.num (-(n : Int)), r2)
            | none => none
          else if isDigitChar c then
            match parseNumAfterSign (c :: r) with
            | some (n, r2) => some (.num (n : Int), r2)
            | none => none
          else none) := rfl

/-- One-step unfolding of the member parser with remaining budget. -/
theorem parseMembers_succ (fuel : Nat) (s : List Char) :
    parseMembers (fuel + 1) s =
      (match skipWs s with
       | [] => none
       | c :: r =>
          if c = '"' then
            match parseStringBody r with
            | some (kcs, r1) =>
                (match skipWs r1 with
                 | [] => none
                 | c2 :: r2 =>
                     if c2 = ':' then
                       match parseValue fuel r2 with
                       | some (v, r3) =>
                           (match skipWs r3 with
                            | [] => none
                            | c3 :: r4 =>
                                if c3 = ',' then
                                  match parseMembers fuel r4 with
                                  | some (fs, r5) => some ((String.mk kcs, v) :: fs, r5)
                                  | none => none
                                else if c3 = rbraceChar then
                                  some ([(String.mk kcs, v)], r4)
                                else none)
                       | none => none
                     else none)
            | none => none
          else none) := rfl

/-- One-step unfolding of the item parser with remaining budget. -/
theorem parseItems_succ (fuel : Nat) (s : List Char) :
    parseItems (fuel + 1) s =
      (match parseValue fuel s with
       | some (v, r) =>
           (match skipWs r with
            | [] => none
            | c :: r2 =>
                if c = ',' then
                  match parseItems fuel r2 with
                  | some (xs, r3) => some (v :: xs, r3)
                  | none => none
                else if c = ']' then some ([v], r2)
                else none)
       | none => none) := rfl

/-- The value parser ignores leading whitespace. -/
theorem parseValue_ws (fuel : Nat) (ws x : List Char) (hws : allWsB ws = true) :
    parseValue (fuel + 1) (ws ++ x) = parseValue (fuel + 1) x := by
  rw [parseValue_succ, parseValue_succ, skipWs_append_allWs ws x hws]

/-- The member parser ignores leading whitespace. -/
theorem parseMembers_ws (fuel : Nat) (ws x : List Char) (hws : allWsB ws = true) :
    parseMembers (fuel + 1) (ws ++ x) = parseMembers (fuel + 1) x := by
  rw [parseMembers_succ, parseMembers_succ, skipWs_append_allWs ws x hws]

/-- Unfolding of the newline join on a cons with non-empty tail. -/
theorem joinNL_cons_ne (l : String) (ls : List String) (h : ¬ ls = []) :
    joinNL (l :: ls) = l.data ++ '\n' :: joinNL ls := by
  cases ls with
  | nil => exact absurd rfl h
  | cons b bs => rfl

/-- The newline join distributes over an append of non-empty halves. -/
theorem joinNL_append : ∀ (A B : List String), ¬ A = [] → ¬ B = [] →
    joinNL (A ++ B) = joinNL A ++ '\n' :: joinNL B := by
  intro A
  induction A with
  | nil => intro B h _; exact absurd rfl h
  | cons a A ih =>
      intro B _ hB
      cases A with
      | nil =>
          rw [List.singleton_append, joinNL_cons_ne a B hB]
          rfl
      | cons a2 A2 =>
          rw [List.cons_append, joinNL_cons_ne a _ (by simp),
            joinNL_cons_ne a (a2 :: A2) (by simp), ih B (by simp) hB,
            List.append_assoc]
          rfl

/-- Helper equation of String.intercalate, at the character level. -/
theorem intercalate_go_data : ∀ (ls : List String) (acc : String),
    (String.intercalate.go acc "\n" ls).data = joinNL (acc :: ls) := by
  intro ls
  induction ls with
  | nil => intro acc; rfl
  | cons b ls ih =>
      intro acc
      rw [show String.intercalate.go acc "\n" (b :: ls)
            = String.intercalate.go (acc ++ "\n" ++ b) "\n" ls from rfl]
      rw [ih (acc ++ "\n" ++ b)]
      cases ls with
      | nil => simp [joinNL, String.data_append]
      | cons c2 ls2 =>
          rw [joinNL_cons_ne (acc ++ "\n" ++ b) (c2 :: ls2) (by simp)]
          rw [joinNL_cons_ne acc (b :: c2 :: ls2) (by simp)]
          rw [joinNL_cons_ne b (c2 :: ls2) (by simp)]
          simp [String.data_append]

/-- Newline intercalation at the character level. -/
theorem intercalate_data : ∀ ls : List String,
    (String.intercalate "\n" ls).data = joinNL ls := by
  intro ls
  cases ls with
  | nil => rfl
  | cons a ls => exact intercalate_go_data ls a

mutual
/-- The edit flattener always pushes at least one line per value. -/
theorem buildEditLines_ne_nil : ∀ (v : JsonValue) (key : Option String)
    (level : Nat) (pid : Option Nat) (isLast : Bool) (c : Nat),
    ¬ (buildEditLines v key level pid isLast c).1 = [] := by
  intro v key level pid isLast c h
  cases v with
  | obj fields => exact List.noConfusion h
  | arr items => exact List.noConfusion h
  | str s => exact List.noConfusion h
  | num n => exact List.noConfusion h
  | bool b => exact List.noConfusion h
  | null => exact List.noConfusion h

/-- The edit flattener pushes at least one line per non-empty field list. -/
theorem buildEditFields_ne_nil : ∀ (fs : List (String × JsonValue))
    (level pid c : Nat), ¬ fs = [] →
    ¬ (buildEditFields fs level pid c).1 = [] := by
  intro fs level pid c hne h
  cases fs with
  | nil => exact absurd rfl hne
  | cons f rest =>
      rw [show (buildEditFields (f :: rest) level pid c).1
            = (buildEditLines f.2 (some f.1) level (some pid) rest.isEmpty c).1 ++
              (buildEditFields rest level pid
                (buildEditLines f.2 (some f.1) level (some pid) rest.isEmpty c).2).1
          from rfl] at h
      rcases List.append_eq_nil.mp h with ⟨h1, _⟩
      exact buildEditLines_ne_nil f.2 (some f.1) level (some pid) rest.isEmpty c h1

/-- The edit flattener pushes at least one line per non-empty item list. -/
theorem buildEditItems_ne_nil : ∀ (xs : List JsonValue)
    (level pid c : Nat), ¬ xs = [] →
    ¬ (buildEditItems xs level pid c).1 = [] := by
  intro xs level pid c hne h
  cases xs with
  | nil => exact absurd rfl hne
  | cons x rest =>
      rw [show (buildEditItems (x :: rest) level pid c).1
            = (buildEditLines x none level (some pid) rest.isEmpty c).1 ++
              (buildEditItems rest level pid
                (buildEditLines x none level (some pid) rest.isEmpty c).2).1
          from rfl] at h
      rcases List.append_eq_nil.mp h with ⟨h1, _⟩
      exact buildEditLines_ne_nil x none level (some pid) rest.isEmpty c h1
end

/-- Opening brace character written via its code. -/
theorem lbraceChar_eq : lbraceChar = '\x7b' := by decide

/-- Closing brace character written via its code. -/
theorem rbraceChar_eq : rbraceChar = '\x7d' := by decide

/-- Mapping content over a non-empty line list is non-empty. -/
theorem map_content_ne_nil (L : List JsonLine) (h : ¬ L = []) :
    ¬ (L.map fun l => l.content) = [] := by
  cases L with
  | nil => exact absurd rfl h
  | cons a as => simp

mutual
/-- The newline join of a value's edit lines is its character-level text:
indentation, key prefix, value text, then the trailing separator when the
value is not its container's last child. -/
theorem editText_value : ∀ (v : JsonValue) (key : Option String) (level : Nat)
    (pid : Option Nat) (isLast : Bool) (c : Nat),
    joinNL ((buildEditLines v key level pid isLast c).1.map fun l => l.content)
      = (indentStr level).data ++ ((editKeyPart key).data ++
          (valueChars v level ++ if isLast then [] else [','])) := by
  intro v key level pid isLast c
  cases v with
  | str s =>
      show (indentStr level ++ editKeyPart key ++ stringifyScalar (.str s) ++
          (if isLast then "" else ",")).data = _
      cases isLast <;> simp [String.data_append, valueChars]
  | num n =>
      show (indentStr level ++ editKeyPart key ++ stringifyScalar (.num n) ++
          (if isLast then "" else ",")).data = _
      cases isLast <;> simp [String.data_append, valueChars]
  | bool b =>
      show (indentStr level ++ editKeyPart key ++ stringifyScalar (.bool b) ++
          (if isLast then "" else ",")).data = _
      cases isLast <;> simp [String.data_append, valueChars]
  | null =>
      show (indentStr level ++ editKeyPart key ++ stringifyScalar .null ++
          (if isLast then "" else ",")).data = _
      cases isLast <;> simp [String.data_append, valueChars]
  | obj fields =>
      cases fields with
      | nil =>
          show (indentStr level ++ editKeyPart key ++ "\x7b").data ++
              '\n' :: (indentStr level ++ "\x7d" ++ (if isLast then "" else ",")).data
            = _
          cases isLast <;>
            simp [String.data_append, valueChars, lbraceChar_eq, rbraceChar_eq]
      | cons f rest =>
          have hch : ¬ (buildEditFields (f :: rest) (level + 1) c (c + 1)).1 = [] :=
            buildEditFields_ne_nil (f :: rest) (level + 1) c (c + 1) (by simp)
          rw [show (buildEditLines (.obj (f :: rest)) key level pid isLast c).1
                = { id := c, content := indentStr level ++ editKeyPart key ++ "\x7b",
                    level, hasToggle := true, isCollapsed := false, parentId := pid,
                    lineNumber := 0, isClosing := false, originalKey := key,
                    isArray := false, isObject := true,
                    childCount := (f :: rest).length } ::
                  ((buildEditFields (f :: rest) (level + 1) c (c + 1)).1 ++
                    [{ id := (buildEditFields (f :: rest) (level + 1) c (c + 1)).2,
                       content := indentStr level ++ "\x7d" ++
                         (if isLast then "" else ","),
                       level, hasToggle := false, isCollapsed := false,
                       parentId := some c, lineNumber := 0, isClosing := true,
                       originalKey := none, isArray := false, isObject := false,
                       childCount := 0 }]) from rfl]
          rw [List.map_cons, List.map_append, List.map_singleton]
          rw [joinNL_cons_ne _ _ (by simp)]
          rw [joinNL_append _ _ (map_content_ne_nil _ hch) (by simp)]
          rw [editText_fields (f :: rest) (level + 1) c (c + 1) (by simp)]
          show _ = (indentStr level).data ++ ((editKeyPart key).data ++
            (valueChars (.obj (f :: rest)) level ++ if isLast then [] else [',']))
          rw [show valueChars (.obj (f :: rest)) level
                = lbraceChar :: '\n' ::
                    (membersChars (f :: rest) (level + 1) ++ '\n' ::
                      ((indentStr level).data ++ [rbraceChar])) from rfl]
          show joinNL [indentStr level ++ editKeyPart key ++ "\x7b"] ++
              '\n' :: (membersChars (f :: rest) (level + 1) ++
                '\n' :: joinNL [indentStr level ++ "\x7d" ++
                  (if isLast then "" else ",")]) = _
          cases isLast <;>
            simp [joinNL, String.data_append, lbraceChar_eq, rbraceChar_eq]
  | arr items =>
      cases items with
      | nil =>
          show (indentStr level ++ editKeyPart key ++ "[").data ++
              '\n' :: (indentStr level ++ "]" ++ (if isLast then "" else ",")).data
            = _
          cases isLast <;> simp [String.data_append, valueChars]
      | cons x rest =>
          have hch : ¬ (buildEditItems (x :: rest) (level + 1) c (c + 1)).1 = [] :=
            buildEditItems_ne_nil (x :: rest) (level + 1) c (c + 1) (by simp)
          rw [show (buildEditLines (.arr (x :: rest)) key level pid isLast c).1
                = { id := c, content := indentStr level ++ editKeyPart key ++ "[",
                    level, hasToggle := true, isCollapsed := false, parentId := pid,
                    lineNumber := 0, isClosing := false, originalKey := key,
                    isArray := true, isObject := false,
                    childCount := (x :: rest).length } ::
                  ((buildEditItems (x :: rest) (level + 1) c (c + 1)).1 ++
                    [{ id := (buildEditItems (x :: rest) (level + 1) c (c + 1)).2,
                       content := indentStr level ++ "]" ++
                         (if isLast then "" else ","),
                       level, hasToggle := false, isCollapsed := false,
                       parentId := some c, lineNumber := 0, isClosing := true,
                       originalKey := none, isArray := false, isObject := false,
                       childCount := 0 }]) from rfl]
          rw [List.map_cons, List.map_append, List.map_singleton]
          rw [joinNL_cons_ne _ _ (by simp)]
          rw [joinNL_append _ _ (map_content_ne_nil _ hch) (by simp)]
          rw [editText_items (x :: rest) (level + 1) c (c + 1) (by simp)]
          show _ = (indentStr level).data ++ ((editKeyPart key).data ++
            (valueChars (.arr (x :: rest)) level ++ if isLast then [] else [',']))
          rw [show valueChars (.arr (x :: rest)) level
                = '[' :: '\n' ::
                    (itemsChars (x :: rest) (level + 1) ++ '\n' ::
                      ((indentStr level).data ++ [']'])) from rfl]
          show joinNL [indentStr level ++ editKeyPart key ++ "["] ++
              '\n' :: (itemsChars (x :: rest) (level + 1) ++
                '\n' :: joinNL [indentStr level ++ "]" ++
                  (if isLast then "" else ",")]) = _
          cases isLast <;> simp [joinNL, String.data_append]

/-- The newline join of a non-empty field list's edit lines is its member
text. -/
theorem editText_fields : ∀ (fs : List (String × JsonValue)) (level pid c : Nat),
    ¬ fs = [] →
    joinNL ((buildEditFields fs level pid c).1.map fun l => l.content)
      = membersChars fs level := by
  intro fs level pid c hne
  cases fs with
  | nil => exact absurd rfl hne
  | cons f rest =>
      cases rest with
      | nil =>
          rw [show (buildEditFields [f] level pid c).1
                = (buildEditLines f.2 (some f.1) level (some pid) true c).1 ++ []
              from rfl]
          rw [List.append_nil]
          rw [editText_value f.2 (some f.1) level (some pid) true c]
          rw [show membersChars [f] level
                = (indentStr level).data ++
                    ((editKeyPart (some f.1)).data ++ valueChars f.2 level) from rfl]
          simp
      | cons f2 rest2 =>
          rw [show (buildEditFields (f :: f2 :: rest2) level pid c).1
                = (buildEditLines f.2 (some f.1) level (some pid) false c).1 ++
                  (buildEditFields (f2 :: rest2) level pid
                    (buildEditLines f.2 (some f.1) level (some pid) false c).2).1
              from rfl]
          rw [List.map_append]
          rw [joinNL_append _ _
            (map_content_ne_nil _
              (buildEditLines_ne_nil f.2 (some f.1) level (some pid) false c))
            (map_content_ne_nil _
              (buildEditFields_ne_nil (f2 :: rest2) level pid _ (by simp)))]
          rw [editText_value f.2 (some f.1) level (some pid) false c]
          rw [editText_fields (f2 :: rest2) level pid _ (by simp)]
          rw [show membersChars (f :: f2 :: rest2) level
                = (indentStr level).data ++
                    ((editKeyPart (some f.1)).data ++ (valueChars f.2 level ++ [','])) ++
                    '\n' :: membersChars (f2 :: rest2) level from rfl]
          simp

/-- The newline join of a non-empty item list's edit lines is its item
text. -/
theorem editText_items : ∀ (xs : List JsonValue) (level pid c : Nat),
    ¬ xs = [] →
    joinNL ((buildEditItems xs level pid c).1.map fun l => l.content)
      = itemsChars xs level := by
  intro xs level pid c hne
  cases xs with
  | nil => exact absurd rfl hne
  | cons x rest =>
      cases rest with
      | nil =>
          rw [show (buildEditItems [x] level pid c).1
                = (buildEditLines x none level (some pid) true c).1 ++ []
              from rfl]
          rw [List.append_nil]
          rw [editText_value x none level (some pid) true c]
          rw [show itemsChars [x] level
                = (indentStr level).data ++ valueChars x level from rfl]
          simp [editKeyPart]
      | cons x2 rest2 =>
          rw [show (buildEditItems (x :: x2 :: rest2) level pid c).1
                = (buildEditLines x none level (some pid) false c).1 ++
                  (buildEditItems (x2 :: rest2) level pid
                    (buildEditLines x none level (some pid) false c).2).1
              from rfl]
          rw [List.map_append]
          rw [joinNL_append _ _
            (map_content_ne_nil _
              (buildEditLines_ne_nil x none level (some pid) false c))
            (map_content_ne_nil _
              (buildEditItems_ne_nil (x2 :: rest2) level pid _ (by simp)))]
          rw [editText_value x none level (some pid) false c]
          rw [editText_items (x2 :: rest2) level pid _ (by simp)]
          rw [show itemsChars (x :: x2 :: rest2) level
                = (indentStr level).data ++ (valueChars x level ++ [',']) ++
                    '\n' :: itemsChars (x2 :: rest2) level from rfl]
          simp [editKeyPart]
end

/-- Skipping whitespace is idempotent. -/
theorem skipWs_idem : ∀ x : List Char, skipWs (skipWs x) = skipWs x := by
  intro x
  induction x with
  | nil => rfl
  | cons c cs ih =>
      rw [show skipWs (c :: cs) = if isWsChar c then skipWs cs else c :: cs from rfl]
      by_cases h : isWsChar c = true
      · rw [if_pos h]
        exact ih
      · rw [if_neg (by simpa using h)]
        rw [skipWs_not_ws c cs (by simpa using h)]

/-- Indentation is all whitespace. -/
theorem indentStr_allWs : ∀ level, allWsB (indentStr level).data = true := by
  intro level
  induction level with
  | zero => rfl
  | succ l ih =>
      rw [show indentStr (l + 1) = "  " ++ indentStr l from rfl]
      simp only [String.data_append]
      simpa [allWsB, isWsChar] using ih

/-- The key prefix of an edit line, at the character level. -/
theorem editKeyPart_data (k : String) :
    (editKeyPart (some k)).data = '"' :: (k.data ++ ['"', ':', ' ']) := by
  simp [editKeyPart, String.data_append]

/-- The value parser only depends on its input up to leading whitespace. -/
theorem parseValue_skipWs_congr (fuel : Nat) (I J : List Char)
    (h : skipWs I = skipWs J) :
    parseValue (fuel + 1) I = parseValue (fuel + 1) J := by
  rw [parseValue_succ, parseValue_succ, h]

/-- The member text of a non-empty field list starts, after whitespace,
with the opening quote of the first key. -/
theorem membersChars_head (fs : List (String × JsonValue)) (level : Nat)
    (T : List Char) (hne : ¬ fs = []) :
    ∃ Z, skipWs (membersChars fs level ++ T) = '"' :: Z := by
  cases fs with
  | nil => exact absurd rfl hne
  | cons f rest =>
      cases rest with
      | nil =>
          rw [show membersChars [f] level
                = (indentStr level).data ++
                    ((editKeyPart (some f.1)).data ++ valueChars f.2 level) from rfl]
          rw [List.append_assoc, skipWs_append_allWs _ _ (indentStr_allWs level)]
          rw [editKeyPart_data]
          rw [List.cons_append, List.cons_append]
          exact ⟨_, skipWs_not_ws '"' _ (by decide)⟩
      | cons f2 rest2 =>
          rw [show membersChars (f :: f2 :: rest2) level
                = (indentStr level).data ++
                    ((editKeyPart (some f.1)).data ++ (valueChars f.2 level ++ [','])) ++
                    '\n' :: membersChars (f2 :: rest2) level from rfl]
          rw [List.append_assoc, List.append_assoc,
            skipWs_append_allWs _ _ (indentStr_allWs level)]
          rw [editKeyPart_data]
          rw [List.cons_append, List.cons_append]
          exact ⟨_, skipWs_not_ws '"' _ (by decide)⟩

/-- A value's rendered text starts with a non-whitespace character that is
not a closing bracket. -/
theorem valueChars_head (v : JsonValue) (level : Nat) :
    ∃ c Z, valueChars v level = c :: Z ∧ isWsChar c = false ∧ ¬ c = ']' := by
  cases v with
  | str s =>
      refine ⟨'"', (escapeString s).data ++ ['"'], ?_, by decide, by decide⟩
      rw [show valueChars (.str s) level = (stringifyScalar (.str s)).data from rfl]
      simp [stringifyScalar, String.data_append]
  | num n =>
      rw [show valueChars (.num n) level = intChars n from rfl, intChars]
      by_cases hn : n < 0
      · rw [if_pos hn]
        exact ⟨'-', natChars n.natAbs, rfl, by decide, by decide⟩
      · rw [if_neg hn]
        rcases hnc : natChars n.natAbs with _ | ⟨d, ds⟩
        · exact absurd hnc (natChars_ne_nil _)
        · have hd : isDigitChar d = true :=
            natChars_all_digits _ d (by rw [hnc]; simp)
          refine ⟨d, ds, rfl, (digit_char_props d hd).2.2.2.2.2.2.2, ?_⟩
          intro heq
          subst heq
          exact absurd hd (by decide)
  | bool b =>
      cases b with
      | true => exact ⟨'t', ['r', 'u', 'e'], rfl, by decide, by decide⟩
      | false => exact ⟨'f', ['a', 'l', 's', 'e'], rfl, by decide, by decide⟩
  | null => exact ⟨'n', ['u', 'l', 'l'], rfl, by decide, by decide⟩
  | obj fields =>
      cases fields with
      | nil =>
          exact ⟨lbraceChar, '\n' :: ((indentStr level).data ++ [rbraceChar]),
            rfl, by decide, by decide⟩
      | cons f0 fs0 =>
          exact ⟨lbraceChar,
            '\n' :: (membersChars (f0 :: fs0) (level + 1) ++ '\n' ::
              ((indentStr level).data ++ [rbraceChar])), rfl, by decide, by decide⟩
  | arr items =>
      cases items with
      | nil =>
          exact ⟨'[', '\n' :: ((indentStr level).data ++ [']']),
            rfl, by decide, by decide⟩
      | cons x0 xs0 =>
          exact ⟨'[',
            '\n' :: (itemsChars (x0 :: xs0) (level + 1) ++ '\n' ::
              ((indentStr level).data ++ [']'])), rfl, by decide, by decide⟩

/-- The item text of a non-empty array starts, after whitespace, with a
non-whitespace character other than the closing bracket. -/
theorem itemsChars_head (xs : List JsonValue) (level : Nat) (T : List Char)
    (hne : ¬ xs = []) :
    ∃ c Z, skipWs (itemsChars xs level ++ T) = c :: Z ∧
      isWsChar c = false ∧ ¬ c = ']' := by
  cases xs with
  | nil => exact absurd rfl hne
  | cons x rest =>
      obtain ⟨c, Z, hv, hw, hne'⟩ := valueChars_head x level
      cases rest with
      | nil =>
          refine ⟨c, Z ++ T, ?_, hw, hne'⟩
          rw [show itemsChars [x] level
                = (indentStr level).data ++ valueChars x level from rfl]
          rw [List.append_assoc, skipWs_append_allWs _ _ (indentStr_allWs level)]
          rw [hv, List.cons_append]
          exact skipWs_not_ws c (Z ++ T) hw
      | cons x2 rest2 =>
          refine ⟨c, Z ++ ',' :: '\n' :: (itemsChars (x2 :: rest2) level ++ T),
            ?_, hw, hne'⟩
          rw [show itemsChars (x :: x2 :: rest2) level
                = (indentStr level).data ++ (valueChars x level ++ [',']) ++
                    '\n' :: itemsChars (x2 :: rest2) level from rfl]
          rw [hv]
          simp only [List.append_assoc, List.cons_append, List.nil_append,
            List.singleton_append]
          rw [skipWs_append_allWs _ _ (indentStr_allWs level)]
          exact skipWs_not_ws c _ hw

/-- The non-digit-start test only inspects the head. -/
theorem nonDigitStartB_cons (c : Char) (xs : List Char) :
    nonDigitStartB (c :: xs) = !isDigitChar c := rfl

/-- A value's parser budget is at least one. -/
theorem fuelF_pos (v : JsonValue) : 1 ≤ fuelF v := by
  cases v <;> simp [fuelF]

/-- A non-empty field list's parser budget is at least one. -/
theorem fuelM_pos (fs : List (String × JsonValue)) (h : ¬ fs = []) :
    1 ≤ fuelM fs := by
  cases fs with
  | nil => exact absurd rfl h
  | cons kv rest =>
      have := fuelF_pos kv.2
      simp [fuelM]
      omega

/-- A non-empty item list's parser budget is at least one. -/
theorem fuelI_pos (xs : List JsonValue) (h : ¬ xs = []) : 1 ≤ fuelI xs := by
  cases xs with
  | nil => exact absurd rfl h
  | cons x rest =>
      have := fuelF_pos x
      simp [fuelI]
      omega

/-- With enough budget the three parsers invert the edit rendering: a value
parses back from its text after any leading whitespace; the members and
items parsers consume a rendered field or item list up to and including the
closing bracket that follows it. -/
theorem parse_edit_text (f : Nat) :
    (∀ (v : JsonValue) (level : Nat) (ws rest : List Char),
        cleanKeysB v = true → allWsB ws = true → nonDigitStartB rest = true →
        fuelF v ≤ f →
        parseValue f (ws ++ (valueChars v level ++ rest)) = some (v, rest)) ∧
    (∀ (fs : List (String × JsonValue)) (level : Nat) (wsc rest I : List Char),
        ¬ fs = [] → cleanFieldsB fs = true → allWsB wsc = true →
        fuelM fs ≤ f →
        skipWs I = skipWs (membersChars fs level ++
          '\n' :: (wsc ++ rbraceChar :: rest)) →
        parseMembers f I = some (fs, rest)) ∧
    (∀ (xs : List JsonValue) (level : Nat) (wsc rest I : List Char),
        ¬ xs = [] → cleanItemsB xs = true → allWsB wsc = true →
        fuelI xs ≤ f →
        skipWs I = skipWs (itemsChars xs level ++ '\n' :: (wsc ++ ']' :: rest)) →
        parseItems f I = some (xs, rest)) := by
  induction f using Nat.strong_induction_on with
  | _ f ih =>
  refine ⟨?_, ?_, ?_⟩
  · -- value parser
    intro v level ws rest hclean hws hrest hfuel
    obtain ⟨f', rfl⟩ : ∃ f', f = f' + 1 :=
      ⟨f - 1, by have := fuelF_pos v; omega⟩
    rw [parseValue_ws f' ws _ hws]
    cases v with
    | str s => exact parseValue_scalar (.str s) rfl f' rest hrest
    | num n => exact parseValue_scalar (.num n) rfl f' rest hrest
    | bool b => exact parseValue_scalar (.bool b) rfl f' rest hrest
    | null => exact parseValue_scalar .null rfl f' rest hrest
    | obj fields =>
        cases fields with
        | nil =>
            rw [show valueChars (.obj []) level ++ rest
                  = lbraceChar ::
                      ('\n' :: ((indentStr level).data ++ (rbraceChar :: rest)))
                from by
              rw [show valueChars (.obj []) level
                    = lbraceChar :: '\n' ::
                        ((indentStr level).data ++ [rbraceChar]) from rfl]
              simp]
            rw [parseValue_cons f' lbraceChar _ (by decide)]
            rw [if_pos rfl]
            rw [show skipWs ('\n' :: ((indentStr level).data ++ (rbraceChar :: rest)))
                  = skipWs ((indentStr level).data ++ (rbraceChar :: rest)) from rfl]
            rw [skipWs_append_allWs _ _ (indentStr_allWs level)]
            rw [skipWs_not_ws rbraceChar rest (by decide)]
            rfl
        | cons f0 fs0 =>
            have hcleanf : cleanFieldsB (f0 :: fs0) = true := hclean
            rw [show valueChars (.obj (f0 :: fs0)) level ++ rest
                  = lbraceChar ::
                      ('\n' :: (membersChars (f0 :: fs0) (level + 1) ++
                        '\n' :: ((indentStr level).data ++ (rbraceChar :: rest))))
                from by
              rw [show valueChars (.obj (f0 :: fs0)) level
                    = lbraceChar :: '\n' ::
                        (membersChars (f0 :: fs0) (level + 1) ++ '\n' ::
                          ((indentStr level).data ++ [rbraceChar])) from rfl]
              simp]
            rw [parseValue_cons f' lbraceChar _ (by decide)]
            rw [if_pos rfl]
            obtain ⟨Z, hZ⟩ := membersChars_head (f0 :: fs0) (level + 1)
              ('\n' :: ((indentStr level).data ++ (rbraceChar :: rest))) (by simp)
            rw [show skipWs ('\n' :: (membersChars (f0 :: fs0) (level + 1) ++
                  '\n' :: ((indentStr level).data ++ (rbraceChar :: rest))))
                  = skipWs (membersChars (f0 :: fs0) (level + 1) ++
                      '\n' :: ((indentStr level).data ++ (rbraceChar :: rest)))
                from rfl]
            rw [hZ]
            simp only []
            rw [if_neg (show ¬ ('"' : Char) = rbraceChar by decide)]
            rw [(ih f' (by omega)).2.1 (f0 :: fs0) (level + 1)
              (indentStr level).data rest ('"' :: Z) (by simp) hcleanf
              (indentStr_allWs level) (by simp [fuelF] at hfuel; omega)
              (by rw [skipWs_not_ws '"' Z (by decide)]; exact hZ.symm)]
    | arr items =>
        cases items with
        | nil =>
            rw [show valueChars (.arr []) level ++ rest
                  = '[' :: ('\n' :: ((indentStr level).data ++ (']' :: rest)))
                from by
              rw [show valueChars (.arr []) level
                    = '[' :: '\n' :: ((indentStr level).data ++ [']']) from rfl]
              simp]
            rw [parseValue_cons f' '[' _ (by decide)]
            rw [if_neg (by decide), if_pos rfl]
            rw [show skipWs ('\n' :: ((indentStr level).data ++ (']' :: rest)))
                  = skipWs ((indentStr level).data ++ (']' :: rest)) from rfl]
            rw [skipWs_append_allWs _ _ (indentStr_allWs level)]
            rw [skipWs_not_ws ']' rest (by decide)]
            rfl
        | cons x0 xs0 =>
            have hcleani : cleanItemsB (x0 :: xs0) = true := hclean
            rw [show valueChars (.arr (x0 :: xs0)) level ++ rest
                  = '[' ::
                      ('\n' :: (itemsChars (x0 :: xs0) (level + 1) ++
                        '\n' :: ((indentStr level).data ++ (']' :: rest))))
                from by
              rw [show valueChars (.arr (x0 :: xs0)) level
                    = '[' :: '\n' ::
                        (itemsChars (x0 :: xs0) (level + 1) ++ '\n' ::
                          ((indentStr level).data ++ [']'])) from rfl]
              simp]
            rw [parseValue_cons f' '[' _ (by decide)]
            rw [if_neg (by decide), if_pos rfl]
            obtain ⟨c2, Z, hZ, hw2, hne2⟩ := itemsChars_head (x0 :: xs0) (level + 1)
              ('\n' :: ((indentStr level).data ++ (']' :: rest))) (by simp)
            rw [show skipWs ('\n' :: (itemsChars (x0 :: xs0) (level + 1) ++
                  '\n' :: ((indentStr level).data ++ (']' :: rest))))
                  = skipWs (itemsChars (x0 :: xs0) (level + 1) ++
                      '\n' :: ((indentStr level).data ++ (']' :: rest)))
                from rfl]
            rw [hZ]
            simp only []
            rw [if_neg hne2]
            rw [(ih f' (by omega)).2.2 (x0 :: xs0) (level + 1)
              (indentStr level).data rest (c2 :: Z) (by simp) hcleani
              (indentStr_allWs level) (by simp [fuelF] at hfuel; omega)
              (by rw [skipWs_not_ws c2 Z hw2, hZ])]
  · -- member parser
    intro fs level wsc rest I hne hclean hws hfuel hI
    obtain ⟨f', rfl⟩ : ∃ f', f = f' + 1 :=
      ⟨f - 1, by have := fuelM_pos fs hne; omega⟩
    cases fs with
    | nil => exact absurd rfl hne
    | cons kv rest0 =>
        obtain ⟨k, v⟩ := kv
        simp only [cleanFieldsB, Bool.and_eq_true] at hclean
        obtain ⟨⟨hck, hcv⟩, hcr⟩ := hclean
        have hkmem : ∀ ch ∈ k.data, cleanCharB ch = true := by
          simpa [cleanStrB, List.all_eq_true] using hck
        rw [parseMembers_succ, hI]
        cases rest0 with
        | nil =>
            rw [show membersChars [(k, v)] level ++
                  '\n' :: (wsc ++ rbraceChar :: rest)
                  = (indentStr level).data ++
                      ('"' :: (k.data ++ ('"' :: ':' :: ' ' ::
                        (valueChars v level ++
                          '\n' :: (wsc ++ rbraceChar :: rest)))))
                from by
              rw [show membersChars [(k, v)] level
                    = (indentStr level).data ++
                        ((editKeyPart (some k)).data ++ valueChars v level)
                  from rfl, editKeyPart_data]
              simp]
            rw [skipWs_append_allWs _ _ (indentStr_allWs level)]
            rw [skipWs_not_ws '"' _ (by decide)]
            simp only []
            rw [if_pos trivial]
            rw [parseStringBody_raw_chars k.data _ hkmem]
            simp only []
            rw [show skipWs (':' :: ' ' ::
                  (valueChars v level ++ '\n' :: (wsc ++ rbraceChar :: rest)))
                  = ':' :: ' ' ::
                      (valueChars v level ++ '\n' :: (wsc ++ rbraceChar :: rest))
                from rfl]
            simp only []
            rw [if_pos trivial]
            rw [show ' ' :: (valueChars v level ++ '\n' :: (wsc ++ rbraceChar :: rest))
                  = [' '] ++ (valueChars v level ++
                      '\n' :: (wsc ++ rbraceChar :: rest)) from rfl]
            rw [(ih f' (by omega)).1 v level [' ']
              ('\n' :: (wsc ++ rbraceChar :: rest)) hcv (by decide)
              (by rw [nonDigitStartB_cons]; decide)
              (by simp [fuelM] at hfuel; omega)]
            simp only []
            rw [show skipWs ('\n' :: (wsc ++ rbraceChar :: rest))
                  = skipWs (wsc ++ rbraceChar :: rest) from rfl]
            rw [skipWs_append_allWs _ _ hws]
            rw [skipWs_not_ws rbraceChar rest (by decide)]
            simp only []
            rw [if_neg (show ¬ rbraceChar = ',' by decide), if_pos trivial]
        | cons kv2 rest2 =>
            rw [show membersChars ((k, v) :: kv2 :: rest2) level ++
                  '\n' :: (wsc ++ rbraceChar :: rest)
                  = (indentStr level).data ++
                      ('"' :: (k.data ++ ('"' :: ':' :: ' ' ::
                        (valueChars v level ++ ',' ::
                          ('\n' :: (membersChars (kv2 :: rest2) level ++
                            '\n' :: (wsc ++ rbraceChar :: rest)))))))
                from by
              rw [show membersChars ((k, v) :: kv2 :: rest2) level
                    = (indentStr level).data ++
                        ((editKeyPart (some k)).data ++
                          (valueChars v level ++ [','])) ++
                        '\n' :: membersChars (kv2 :: rest2) level
                  from rfl, editKeyPart_data]
              simp]
            rw [skipWs_append_allWs _ _ (indentStr_allWs level)]
            rw [skipWs_not_ws '"' _ (by decide)]
            simp only []
            rw [if_pos trivial]
            rw [parseStringBody_raw_chars k.data _ hkmem]
            simp only []
            rw [show skipWs (':' :: ' ' ::
                  (valueChars v level ++ ',' ::
                    ('\n' :: (membersChars (kv2 :: rest2) level ++
                      '\n' :: (wsc ++ rbraceChar :: rest)))))
                  = ':' :: ' ' ::
                      (valueChars v level ++ ',' ::
                        ('\n' :: (membersChars (kv2 :: rest2) level ++
                          '\n' :: (wsc ++ rbraceChar :: rest)))) from rfl]
            simp only []
            rw [if_pos trivial]
            rw [show ' ' :: (valueChars v level ++ ',' ::
                  ('\n' :: (membersChars (kv2 :: rest2) level ++
                    '\n' :: (wsc ++ rbraceChar :: rest))))
                  = [' '] ++ (valueChars v level ++ ',' ::
                      ('\n' :: (membersChars (kv2 :: rest2) level ++
                        '\n' :: (wsc ++ rbraceChar :: rest)))) from rfl]
            rw [(ih f' (by omega)).1 v level [' ']
              (',' :: ('\n' :: (membersChars (kv2 :: rest2) level ++
                '\n' :: (wsc ++ rbraceChar :: rest)))) hcv (by decide)
              (by rw [nonDigitStartB_cons]; decide)
              (by simp [fuelM] at hfuel; omega)]
            simp only []
            rw [show skipWs (',' :: ('\n' :: (membersChars (kv2 :: rest2) level ++
                  '\n' :: (wsc ++ rbraceChar :: rest))))
                  = ',' :: ('\n' :: (membersChars (kv2 :: rest2) level ++
                      '\n' :: (wsc ++ rbraceChar :: rest))) from rfl]
            simp only []
            rw [if_pos trivial]
            rw [(ih f' (by omega)).2.1 (kv2 :: rest2) level wsc rest
              ('\n' :: (membersChars (kv2 :: rest2) level ++
                '\n' :: (wsc ++ rbraceChar :: rest))) (by simp) hcr hws
              (by simp [fuelM] at hfuel ⊢; omega)
              (by
                rw [show skipWs ('\n' :: (membersChars (kv2 :: rest2) level ++
                      '\n' :: (wsc ++ rbraceChar :: rest)))
                      = skipWs (membersChars (kv2 :: rest2) level ++
                          '\n' :: (wsc ++ rbraceChar :: rest)) from rfl])]
  · -- item parser
    intro xs level wsc rest I hne hclean hws hfuel hI
    obtain ⟨f', rfl⟩ : ∃ f', f = f' + 1 :=
      ⟨f - 1, by have := fuelI_pos xs hne; omega⟩
    cases xs with
    | nil => exact absurd rfl hne
    | cons x rest0 =>
        simp only [cleanItemsB, Bool.and_eq_true] at hclean
        obtain ⟨hcx, hcr⟩ := hclean
        obtain ⟨f'', rfl⟩ : ∃ f'', f' = f'' + 1 :=
          ⟨f' - 1, by
            have := fuelF_pos x
            simp [fuelI] at hfuel
            omega⟩
        rw [parseItems_succ]
        cases rest0 with
        | nil =>
            rw [parseValue_skipWs_congr f'' I
              ((indentStr level).data ++ (valueChars x level ++
                '\n' :: (wsc ++ ']' :: rest)))
              (by
                rw [hI]
                rw [show itemsChars [x] level
                      = (indentStr level).data ++ valueChars x level from rfl]
                simp)]
            rw [(ih (f'' + 1) (by omega)).1 x level (indentStr level).data
              ('\n' :: (wsc ++ ']' :: rest)) hcx (indentStr_allWs level)
              (by rw [nonDigitStartB_cons]; decide)
              (by simp [fuelI] at hfuel; omega)]
            simp only []
            rw [show skipWs ('\n' :: (wsc ++ ']' :: rest))
                  = skipWs (wsc ++ ']' :: rest) from rfl]
            rw [skipWs_append_allWs _ _ hws]
            rw [skipWs_not_ws ']' rest (by decide)]
            simp only []
            rw [if_neg (show ¬ (']' : Char) = ',' by decide), if_pos trivial]
        | cons x2 rest2 =>
            rw [parseValue_skipWs_congr f'' I
              ((indentStr level).data ++ (valueChars x level ++
                ',' :: ('\n' :: (itemsChars (x2 :: rest2) level ++
                  '\n' :: (wsc ++ ']' :: rest)))))
              (by
                rw [hI]
                rw [show itemsChars (x :: x2 :: rest2) level
                      = (indentStr level).data ++
                          (valueChars x level ++ [',']) ++
                          '\n' :: itemsChars (x2 :: rest2) level from rfl]
                simp)]
            rw [(ih (f'' + 1) (by omega)).1 x level (indentStr level).data
              (',' :: ('\n' :: (itemsChars (x2 :: rest2) level ++
                '\n' :: (wsc ++ ']' :: rest)))) hcx (indentStr_allWs level)
              (by rw [nonDigitStartB_cons]; decide)
              (by simp [fuelI] at hfuel; omega)]
            simp only []
            rw [show skipWs (',' :: ('\n' :: (itemsChars (x2 :: rest2) level ++
                  '\n' :: (wsc ++ ']' :: rest))))
                  = ',' :: ('\n' :: (itemsChars (x2 :: rest2) level ++
                      '\n' :: (wsc ++ ']' :: rest))) from rfl]
            simp only []
            rw [if_pos trivial]
            rw [(ih (f'' + 1) (by omega)).2.2 (x2 :: rest2) level wsc rest
              ('\n' :: (itemsChars (x2 :: rest2) level ++
                '\n' :: (wsc ++ ']' :: rest))) (by simp) hcr hws
              (by simp [fuelI] at hfuel ⊢; omega)
              (by
                rw [show skipWs ('\n' :: (itemsChars (x2 :: rest2) level ++
                      '\n' :: (wsc ++ ']' :: rest)))
                      = skipWs (itemsChars (x2 :: rest2) level ++
                          '\n' :: (wsc ++ ']' :: rest)) from rfl])]

mutual
/-- The value parser's budget for a value is within its rendered length. -/
theorem fuelF_le : ∀ (v : JsonValue) (level : Nat),
    fuelF v ≤ (valueChars v level).length + 1 := by
  intro v level
  cases v with
  | str s => exact Nat.le_add_left 1 _
  | num n => exact Nat.le_add_left 1 _
  | bool b => exact Nat.le_add_left 1 _
  | null => exact Nat.le_add_left 1 _
  | obj fields =>
      cases fields with
      | nil => exact Nat.le_add_left 1 _
      | cons f0 fs0 =>
          have ihm := fuelM_le (f0 :: fs0) (level + 1)
          rw [show valueChars (.obj (f0 :: fs0)) level
                = lbraceChar :: '\n' ::
                    (membersChars (f0 :: fs0) (level + 1) ++ '\n' ::
                      ((indentStr level).data ++ [rbraceChar])) from rfl]
          simp only [fuelF, List.length_cons, List.length_append]
          omega
  | arr items =>
      cases items with
      | nil => exact Nat.le_add_left 1 _
      | cons x0 xs0 =>
          have ihi := fuelI_le (x0 :: xs0) (level + 1)
          rw [show valueChars (.arr (x0 :: xs0)) level
                = '[' :: '\n' ::
                    (itemsChars (x0 :: xs0) (level + 1) ++ '\n' ::
                      ((indentStr level).data ++ [']'])) from rfl]
          simp only [fuelF, List.length_cons, List.length_append]
          omega

/-- The member parser's budget for a field list is within its rendered
length. -/
theorem fuelM_le : ∀ (fs : List (String × JsonValue)) (level : Nat),
    fuelM fs ≤ (membersChars fs level).length + 2 := by
  intro fs level
  cases fs with
  | nil => exact Nat.zero_le _
  | cons kv rest =>
      obtain ⟨k, v⟩ := kv
      have ihf := fuelF_le v level
      cases rest with
      | nil =>
          rw [show membersChars [(k, v)] level
                = (indentStr level).data ++
                    ((editKeyPart (some k)).data ++ valueChars v level) from rfl]
          simp only [fuelM, List.length_append]
          omega
      | cons kv2 rest2 =>
          have ihm := fuelM_le (kv2 :: rest2) level
          rw [show membersChars ((k, v) :: kv2 :: rest2) level
                = (indentStr level).data ++
                    ((editKeyPart (some k)).data ++ (valueChars v level ++ [','])) ++
                    '\n' :: membersChars (kv2 :: rest2) level from rfl]
          simp only [fuelM, List.length_append, List.length_cons] at ihm ⊢
          omega

/-- The item parser's budget for an item list is within its rendered
length. -/
theorem fuelI_le : ∀ (xs : List JsonValue) (level : Nat),
    fuelI xs ≤ (itemsChars xs level).length + 2 := by
  intro xs level
  cases xs with
  | nil => exact Nat.zero_le _
  | cons x rest =>
      have ihf := fuelF_le x level
      cases rest with
      | nil =>
          rw [show itemsChars [x] level
                = (indentStr level).data ++ valueChars x level from rfl]
          simp only [fuelI, List.length_append]
          omega
      | cons x2 rest2 =>
          have ihi := fuelI_le (x2 :: rest2) level
          rw [show itemsChars (x :: x2 :: rest2) level
                = (indentStr level).data ++ (valueChars x level ++ [',']) ++
                    '\n' :: itemsChars (x2 :: rest2) level from rfl]
          simp only [fuelI, List.length_append, List.length_cons] at ihi ⊢
          omega
end

/-- The reconstructed text of the edit flattening is exactly the character
rendering of the value at level 0. -/
theorem reconstruct_flattenEdit_data (v : JsonValue) :
    (reconstructJsonFromEditLines (flattenEdit v)).data = valueChars v 0 := by
  rw [show reconstructJsonFromEditLines (flattenEdit v)
        = String.intercalate "\n" ((buildEditLines v none 0 none true 0).1.map
            fun l => l.content) from rfl]
  rw [intercalate_data]
  rw [editText_value v none 0 none true 0]
  simp [editKeyPart, indentStr]

/-- C1 (amended): round-trip holds for every value whose object keys are
clean (no quote, backslash, control character, or other character that
JSON.stringify would escape): flattening into edit lines, joining the line
contents with newlines, and parsing yields the original value.  The
cleanliness hypothesis is necessary: parseEditLines interpolates keys into
line text without escaping, and C1_cex_dirty_key shows the round trip
failing on the key consisting of a-quote-b. -/
theorem C1_clean_key_roundtrip (v : JsonValue) (h : cleanKeysB v = true) :
    parseJson (reconstructJsonFromEditLines (flattenEdit v)) = .ok v := by
  have hdata := reconstruct_flattenEdit_data v
  have hlen : (reconstructJsonFromEditLines (flattenEdit v)).length
      = (valueChars v 0).length := by
    rw [show (reconstructJsonFromEditLines (flattenEdit v)).length
          = (reconstructJsonFromEditLines (flattenEdit v)).data.length from rfl]
    rw [hdata]
  have hP := (parse_edit_text (2 * (valueChars v 0).length + 2)).1 v 0 [] [] h rfl
    rfl (by have := fuelF_le v 0; omega)
  simp only [List.nil_append, List.append_nil] at hP
  unfold parseJson
  rw [hlen, hdata, hP]
  rfl

/-- C1 witness: the clean-key round trip applied to the walkthrough value
from the spec. -/
theorem C1_clean_key_roundtrip_witness :
    cleanKeysB exScenario = true ∧
    parseJson (reconstructJsonFromEditLines (flattenEdit exScenario))
      = .ok exScenario :=
  ⟨by decide, C1_clean_key_roundtrip exScenario (by decide)⟩

/-- Appending the comma span only rewrites content: the structural view is
unchanged. -/
theorem appendCommaLast_map_sig (s : String) : ∀ ls : List JsonLine,
    (appendCommaLast s ls).map lineSig = ls.map lineSig := by
  intro ls
  induction ls with
  | nil => rfl
  | cons l ls ih =>
      cases ls with
      | nil => rfl
      | cons l2 ls2 =>
          rw [show appendCommaLast s (l :: l2 :: ls2)
                = l :: appendCommaLast s (l2 :: ls2) from rfl]
          simp only [List.map_cons]
          rw [ih]
          simp

/-- Structural view of an object block: open line, children view, close
line. -/
theorem buildLines_obj_sig (fields : List (String × JsonValue))
    (key : Option String) (level : Nat) (pid : Option Nat) (c : Nat) :
    ((buildLines (.obj fields) key level pid c).1.map lineSig
      = ⟨c, pid, level, false, true⟩ ::
          ((buildObjChildren fields (level + 1) c (c + 1)).1.map lineSig ++
            [⟨(buildObjChildren fields (level + 1) c (c + 1)).2, some c, level,
              true, false⟩])) ∧
    (buildLines (.obj fields) key level pid c).2
      = (buildObjChildren fields (level + 1) c (c + 1)).2 + 1 := by
  constructor
  · simp only [buildLines]
    simp [lineSig]
  · simp only [buildLines]

/-- Structural view of an array block: open line, children view, close
line. -/
theorem buildLines_arr_sig (items : List JsonValue) (key : Option String)
    (level : Nat) (pid : Option Nat) (c : Nat) :
    ((buildLines (.arr items) key level pid c).1.map lineSig
      = ⟨c, pid, level, false, true⟩ ::
          ((buildArrChildren items (level + 1) c (c + 1)).1.map lineSig ++
            [⟨(buildArrChildren items (level + 1) c (c + 1)).2, some c, level,
              true, false⟩])) ∧
    (buildLines (.arr items) key level pid c).2
      = (buildArrChildren items (level + 1) c (c + 1)).2 + 1 := by
  constructor
  · simp only [buildLines]
    simp [lineSig]
  · simp only [buildLines]

/-- Structural view of a non-final children step in an object block. -/
theorem buildObjChildren_cons_sig (k : String) (v : JsonValue)
    (r2 : String × JsonValue) (rest2 : List (String × JsonValue))
    (level pid c : Nat) :
    ((buildObjChildren ((k, v) :: r2 :: rest2) level pid c).1.map lineSig
      = (buildLines v (some k) level (some pid) c).1.map lineSig ++
        (buildObjChildren (r2 :: rest2) level pid
          (buildLines v (some k) level (some pid) c).2).1.map lineSig) ∧
    (buildObjChildren ((k, v) :: r2 :: rest2) level pid c).2
      = (buildObjChildren (r2 :: rest2) level pid
          (buildLines v (some k) level (some pid) c).2).2 := by
  constructor
  · simp only [buildObjChildren]
    rw [List.map_append, appendCommaLast_map_sig]
  · simp only [buildObjChildren]

/-- Structural view of a non-final children step in an array block. -/
theorem buildArrChildren_cons_sig (v : JsonValue) (r2 : JsonValue)
    (rest2 : List JsonValue) (level pid c : Nat) :
    ((buildArrChildren (v :: r2 :: rest2) level pid c).1.map lineSig
      = (buildLines v none level (some pid) c).1.map lineSig ++
        (buildArrChildren (r2 :: rest2) level pid
          (buildLines v none level (some pid) c).2).1.map lineSig) ∧
    (buildArrChildren (v :: r2 :: rest2) level pid c).2
      = (buildArrChildren (r2 :: rest2) level pid
          (buildLines v none level (some pid) c).2).2 := by
  constructor
  · simp only [buildArrChildren]
    rw [List.map_append, appendCommaLast_map_sig]
  · simp only [buildArrChildren]

/-- The one-line block of a scalar satisfies the block invariant. -/
theorem masterB_scalar (S : List LineSig) (c c' : Nat) (pid : Option Nat)
    (level : Nat) (hS : S = [⟨c, pid, level, false, false⟩])
    (hc' : c' = c + 1) : MasterB S c c' pid level := by
  subst hS
  subst hc'
  unfold MasterB closedBelow
  refine ⟨by simp, ?_, by simp, ⟨false, [], rfl⟩, ?_, ?_⟩
  · intro s hs
    simp only [List.mem_singleton] at hs
    subst hs
    exact ⟨Nat.le_refl c, Nat.lt_succ_self c⟩
  · intro s hs hne
    simp only [List.mem_singleton] at hs
    subst hs
    exact absurd rfl hne
  · intro o ho htg
    simp only [List.mem_singleton] at ho
    subst ho
    exact Bool.noConfusion htg

/-- The empty children block satisfies the children invariant. -/
theorem masterC_nil (c pid level : Nat) :
    MasterC ([] : List LineSig) c c pid level := by
  unfold MasterC closedBelow
  simp

/-- A single-child block satisfies the children invariant: its head is the
child at the surrounding container's parent id, everything else is internal
to the block. -/
theorem masterC_of_masterB (S : List LineSig) (c c' pid level : Nat)
    (hB : MasterB S c c' (some pid) level) (hpid : pid < c) :
    MasterC S c c' pid level := by
  unfold MasterB at hB
  obtain ⟨h1, h2, h3, ⟨tg, T, hhead⟩, h5, h6⟩ := hB
  unfold MasterC
  refine ⟨h1, h2, h3, ?_, h6⟩
  intro s hs
  rw [hhead] at hs
  rcases List.mem_cons.mp hs with rfl | hsT
  · exact ⟨pid, rfl, hpid, Or.inl ⟨rfl, rfl, rfl⟩⟩
  · have hid : ¬ s.id = c := by
      rw [hhead] at h3
      simp only [List.map_cons] at h3
      have h := (List.pairwise_cons.mp h3).1 s.id (List.mem_map_of_mem _ hsT)
      have h' : c < s.id := h
      omega
    obtain ⟨p, ps, hp, hcp, hplt, hpsmem, hpsid, hpscl, hpstg, hcll, hncll⟩ :=
      h5 s (by rw [hhead]; exact List.mem_cons_of_mem _ hsT) hid
    exact ⟨p, hp, hplt,
      Or.inr ⟨hcp, ps, hpsmem, hpsid, hpscl, hpstg, hcll, hncll⟩⟩

/-- A child block followed by the remaining children block satisfies the
children invariant. -/
theorem masterC_append (S1 S2 : List LineSig) (c c1 c2 pid level : Nat)
    (hB : MasterB S1 c c1 (some pid) level) (hC : MasterC S2 c1 c2 pid level)
    (hpid : pid < c) : MasterC (S1 ++ S2) c c2 pid level := by
  have hB' := hB
  unfold MasterB at hB'
  obtain ⟨b1, b2, b3, ⟨tg, T, hhead⟩, b5, b6⟩ := hB'
  unfold closedBelow at b6
  unfold MasterC at hC
  obtain ⟨d1, d2, d3, d4, d6⟩ := hC
  unfold closedBelow at d6
  have hlen1 : 1 ≤ S1.length := by rw [hhead]; simp
  have hcb : ∀ s ∈ S1, ¬ s.id = c → ∃ p ps, s.parentId = some p ∧
      c ≤ p ∧ p < s.id ∧ ps ∈ S1 ∧ ps.id = p ∧ ps.isClosing = false ∧
      ps.hasToggle = true ∧ (s.isClosing = true → s.level = ps.level) ∧
      (s.isClosing = false → s.level = ps.level + 1) := b5
  have hheadmem : ∀ s ∈ S1, s.id = c →
      s = (⟨c, some pid, level, false, tg⟩ : LineSig) := by
    intro s hs hid
    rw [hhead] at hs
    rcases List.mem_cons.mp hs with rfl | hsT
    · rfl
    · exfalso
      rw [hhead] at b3
      simp only [List.map_cons] at b3
      have h := (List.pairwise_cons.mp b3).1 s.id (List.mem_map_of_mem _ hsT)
      have h' : c < s.id := h
      omega
  unfold MasterC closedBelow
  refine ⟨?_, ?_, ?_, ?_, ?_⟩
  · simp only [List.length_append]
    omega
  · intro s hs
    rcases List.mem_append.mp hs with hs1 | hs2
    · obtain ⟨ha, hb⟩ := b2 s hs1
      exact ⟨ha, by omega⟩
    · obtain ⟨ha, hb⟩ := d2 s hs2
      exact ⟨by omega, hb⟩
  · rw [List.map_append, List.pairwise_append]
    refine ⟨b3, d3, ?_⟩
    intro a ha b hb
    obtain ⟨sa, hsa, rfl⟩ := List.mem_map.mp ha
    obtain ⟨sb, hsb, rfl⟩ := List.mem_map.mp hb
    obtain ⟨_, ha2⟩ := b2 sa hsa
    obtain ⟨hb1, _⟩ := d2 sb hsb
    omega
  · intro s hs
    rcases List.mem_append.mp hs with hs1 | hs2
    · by_cases hid : s.id = c
      · have h := hheadmem s hs1 hid
        subst h
        exact ⟨pid, rfl, hpid, Or.inl ⟨rfl, rfl, rfl⟩⟩
      · obtain ⟨p, ps, hp, hcp, hplt, hpsmem, hpsid, hpscl, hpstg, hcll,
          hncll⟩ := hcb s hs1 hid
        exact ⟨p, hp, hplt, Or.inr ⟨hcp, ps, List.mem_append_left _ hpsmem,
          hpsid, hpscl, hpstg, hcll, hncll⟩⟩
    · obtain ⟨p, hp, hplt, hcase⟩ := d4 s hs2
      rcases hcase with ⟨hppid, hncl, hlev⟩ |
        ⟨hcp, ps, hpsmem, hpsid, hpscl, hpstg, hcll, hncll⟩
      · exact ⟨p, hp, hplt, Or.inl ⟨hppid, hncl, hlev⟩⟩
      · exact ⟨p, hp, hplt, Or.inr ⟨by omega, ps,
          List.mem_append_right _ hpsmem, hpsid, hpscl, hpstg, hcll, hncll⟩⟩
  · intro o ho htg
    rcases List.mem_append.mp ho with ho1 | ho2
    · obtain ⟨cl, hclmem, hclcl, hclp, hcll, hcllt, huniq, hiff⟩ :=
        b6 o ho1 htg
      obtain ⟨hoa, hob⟩ := b2 o ho1
      obtain ⟨hca, hcbnd⟩ := b2 cl hclmem
      refine ⟨cl, List.mem_append_left _ hclmem, hclcl, hclp, hcll, hcllt,
        ?_, ?_⟩
      · intro x hx hxcl hxp
        rcases List.mem_append.mp hx with hx1 | hx2
        · exact huniq x hx1 hxcl hxp
        · exfalso
          obtain ⟨p, hp, hplt, hcase⟩ := d4 x hx2
          have hpo : p = o.id := by
            rw [hp] at hxp
            exact Option.some.inj hxp
          rcases hcase with ⟨hppid, hxncl, _⟩ | ⟨hc1p, _⟩
          · rw [hxncl] at hxcl
            exact Bool.noConfusion hxcl
          · omega
      · intro x hx p hxp
        rcases List.mem_append.mp hx with hx1 | hx2
        · exact hiff x hx1 p hxp
        · obtain ⟨p', hp', hplt', hcase⟩ := d4 x hx2
          have hpp : p' = p := by
            rw [hp'] at hxp
            exact Option.some.inj hxp
          subst hpp
          obtain ⟨hxa, hxb⟩ := d2 x hx2
          constructor
          · rintro ⟨hh1, hh2⟩
            exfalso
            rcases hcase with ⟨rfl, _, _⟩ | ⟨hc1p, _⟩
            · omega
            · omega
          · rintro ⟨hh1, hh2⟩
            exfalso
            omega
    · obtain ⟨cl, hclmem, hclcl, hclp, hcll, hcllt, huniq, hiff⟩ :=
        d6 o ho2 htg
      obtain ⟨hoa, hob⟩ := d2 o ho2
      obtain ⟨hca, hcbnd⟩ := d2 cl hclmem
      refine ⟨cl, List.mem_append_right _ hclmem, hclcl, hclp, hcll, hcllt,
        ?_, ?_⟩
      · intro x hx hxcl hxp
        rcases List.mem_append.mp hx with hx1 | hx2
        · exfalso
          by_cases hid : x.id = c
          · have h := hheadmem x hx1 hid
            subst h
            exact Bool.noConfusion hxcl
          · obtain ⟨p, ps, hp, hcp, hplt, _, _, _, _, _, _⟩ := hcb x hx1 hid
            have hpo : p = o.id := by
              rw [hp] at hxp
              exact Option.some.inj hxp
            obtain ⟨_, hxb⟩ := b2 x hx1
            omega
        · exact huniq x hx2 hxcl hxp
      · intro x hx p hxp
        rcases List.mem_append.mp hx with hx1 | hx2
        · obtain ⟨hxa, hxb⟩ := b2 x hx1
          obtain ⟨hca2, _⟩ := d2 cl hclmem
          have hplow : p < c1 := by
            by_cases hid : x.id = c
            · have h := hheadmem x hx1 hid
              subst h
              have hpp : pid = p := Option.some.inj hxp
              omega
            · obtain ⟨p', ps, hp', _, hplt', _, _, _, _, _, _⟩ :=
                hcb x hx1 hid
              have hpp : p' = p := by
                rw [hp'] at hxp
                exact Option.some.inj hxp
              omega
          constructor
          · rintro ⟨hh1, hh2⟩
            exfalso
            omega
          · rintro ⟨hh1, hh2⟩
            exfalso
            omega
        · exact hiff x hx2 p hxp

/-- Wrapping a children block between an open line and its close line
satisfies the block invariant. -/
theorem masterB_container (CH : List LineSig) (c c1 : Nat) (pid : Option Nat)
    (level : Nat) (hC : MasterC CH (c + 1) c1 c (level + 1))
    (hpid : ∀ q, pid = some q → q < c) :
    MasterB (⟨c, pid, level, false, true⟩ ::
      (CH ++ [⟨c1, some c, level, true, false⟩])) c (c1 + 1) pid level := by
  unfold MasterC at hC
  obtain ⟨hc1, hbnd, hpw, hpar, hcb⟩ := hC
  unfold closedBelow at hcb
  unfold MasterB closedBelow
  have hcc1 : c + 1 ≤ c1 := by omega
  refine ⟨?_, ?_, ?_, ⟨true, _, rfl⟩, ?_, ?_⟩
  · simp only [List.length_cons, List.length_append, List.length_nil]
    omega
  · intro s hs
    simp only [List.mem_cons, List.mem_append, List.mem_singleton, List.not_mem_nil, or_false] at hs
    rcases hs with rfl | hs | rfl
    · exact ⟨Nat.le_refl c, (show c < c1 + 1 by omega)⟩
    · obtain ⟨ha, hb⟩ := hbnd s hs
      exact ⟨by omega, by omega⟩
    · exact ⟨(by omega : c ≤ c1), (by omega : c1 < c1 + 1)⟩
  · simp only [List.map_cons, List.map_append, List.map_nil]
    rw [List.pairwise_cons]
    constructor
    · intro b hb
      simp only [List.mem_append, List.mem_map, List.mem_cons,
        List.not_mem_nil, or_false] at hb
      rcases hb with ⟨s, hs, rfl⟩ | hb1
      · obtain ⟨ha, _⟩ := hbnd s hs
        show c < s.id
        omega
      · have hb1' : b = c1 := hb1
        show c < b
        omega
    · rw [List.pairwise_append]
      refine ⟨hpw, by simp, ?_⟩
      intro a ha b hb
      obtain ⟨s, hs, rfl⟩ := List.mem_map.mp ha
      simp only [List.mem_cons, List.not_mem_nil, or_false] at hb
      have hb1' : b = c1 := hb
      obtain ⟨_, hb2⟩ := hbnd s hs
      show s.id < b
      omega
  · intro s hs hne
    simp only [List.mem_cons, List.mem_append, List.mem_singleton, List.not_mem_nil, or_false] at hs
    rcases hs with rfl | hs | rfl
    · exact absurd rfl hne
    · obtain ⟨p, hp, hplt, hcase⟩ := hpar s hs
      rcases hcase with ⟨hppid, hncl, hlev⟩ |
        ⟨hcp, ps, hpsmem, hpsid, hpscl, hpstg, hcll, hncll⟩
      · refine ⟨p, ⟨c, pid, level, false, true⟩, hp, (by omega : c ≤ p), hplt,
          List.mem_cons_self _ _, hppid.symm, rfl, rfl, ?_, ?_⟩
        · intro hcl
          rw [hncl] at hcl
          exact Bool.noConfusion hcl
        · intro _
          exact hlev
      · exact ⟨p, ps, hp, by omega, hplt,
          List.mem_cons_of_mem _ (List.mem_append_left _ hpsmem), hpsid,
          hpscl, hpstg, hcll, hncll⟩
    · refine ⟨c, ⟨c, pid, level, false, true⟩, rfl, Nat.le_refl c,
        (by omega : c < c1), List.mem_cons_self _ _, rfl, rfl, rfl, ?_, ?_⟩
      · intro _
        rfl
      · intro hcl
        exact Bool.noConfusion hcl
  · intro o ho htg
    simp only [List.mem_cons, List.mem_append, List.mem_singleton, List.not_mem_nil, or_false] at ho
    rcases ho with rfl | ho | rfl
    · refine ⟨⟨c1, some c, level, true, false⟩,
        List.mem_cons_of_mem _ (List.mem_append_right _ (by simp)),
        rfl, rfl, rfl, (by omega : c < c1), ?_, ?_⟩
      · intro x hx hxcl hxp
        simp only [List.mem_cons, List.mem_append, List.mem_singleton, List.not_mem_nil, or_false] at hx
        rcases hx with rfl | hx | rfl
        · exact Bool.noConfusion hxcl
        · exfalso
          obtain ⟨p, hp, hplt, hcase⟩ := hpar x hx
          have hpc : p = c := by
            rw [hp] at hxp
            exact Option.some.inj hxp
          rcases hcase with ⟨hppid, hxncl, _⟩ | ⟨hcp, _⟩
          · rw [hxncl] at hxcl
            exact Bool.noConfusion hxcl
          · omega
        · rfl
      · intro x hx p hxp
        simp only [List.mem_cons, List.mem_append, List.mem_singleton, List.not_mem_nil, or_false] at hx
        rcases hx with rfl | hx | rfl
        · have hpc := hpid p hxp
          constructor
          · rintro ⟨hh1, _⟩
            exfalso
            have hh1' : c ≤ p := hh1
            omega
          · rintro ⟨hh1, _⟩
            exfalso
            have hh1' : c < c := hh1
            omega
        · obtain ⟨p', hp', hplt', hcase⟩ := hpar x hx
          have hpp : p' = p := by
            rw [hp'] at hxp
            exact Option.some.inj hxp
          obtain ⟨hxa, hxb⟩ := hbnd x hx
          constructor
          · rintro ⟨hh1, hh2⟩
            exact ⟨(show c < x.id by omega), (show x.id ≤ c1 by omega)⟩
          · rintro ⟨hh1, hh2⟩
            rcases hcase with ⟨hppid, _, _⟩ | ⟨hcp, _⟩
            · exact ⟨(show c ≤ p by omega), (show p < c1 by omega)⟩
            · exact ⟨(show c ≤ p by omega), (show p < c1 by omega)⟩
        · have hpc : c = p := Option.some.inj hxp
          subst hpc
          constructor
          · rintro ⟨hh1, hh2⟩
            exact ⟨(show c < c1 by omega), Nat.le_refl c1⟩
          · rintro ⟨hh1, hh2⟩
            exact ⟨Nat.le_refl c, (show c < c1 by omega)⟩
    · obtain ⟨cl, hclmem, hclcl, hclp, hcll, hcllt, huniq, hiff⟩ :=
        hcb o ho htg
      obtain ⟨hol, hou⟩ := hbnd o ho
      obtain ⟨hcla, hclb⟩ := hbnd cl hclmem
      refine ⟨cl, List.mem_cons_of_mem _ (List.mem_append_left _ hclmem),
        hclcl, hclp, hcll, hcllt, ?_, ?_⟩
      · intro x hx hxcl hxp
        simp only [List.mem_cons, List.mem_append, List.mem_singleton, List.not_mem_nil, or_false] at hx
        rcases hx with rfl | hx | rfl
        · exact Bool.noConfusion hxcl
        · exact huniq x hx hxcl hxp
        · exfalso
          have h : c = o.id := Option.some.inj hxp
          omega
      · intro x hx p hxp
        simp only [List.mem_cons, List.mem_append, List.mem_singleton, List.not_mem_nil, or_false] at hx
        rcases hx with rfl | hx | rfl
        · have hpc := hpid p hxp
          constructor
          · rintro ⟨hh1, _⟩
            exfalso
            have hh1' : o.id ≤ p := hh1
            omega
          · rintro ⟨hh1, _⟩
            exfalso
            have hh1' : o.id < c := hh1
            omega
        · exact hiff x hx p hxp
        · have hpc : c = p := Option.some.inj hxp
          constructor
          · rintro ⟨hh1, _⟩
            exfalso
            have hh1' : o.id ≤ p := hh1
            omega
          · rintro ⟨_, hh2⟩
            exfalso
            have hh2' : c1 ≤ cl.id := hh2
            omega
    · exact Bool.noConfusion htg

mutual
/-- Every block built by the display flattener satisfies the structural
block invariant. -/
theorem buildLines_master : ∀ (v : JsonValue) (key : Option String)
    (level : Nat) (pid : Option Nat) (c : Nat), (∀ q, pid = some q → q < c) →
    MasterB ((buildLines v key level pid c).1.map lineSig) c
      ((buildLines v key level pid c).2) pid level := by
  intro v key level pid c hpid
  cases v with
  | str s =>
      exact masterB_scalar _ c _ pid level
        (by simp only [buildLines]; simp [lineSig]) (by simp only [buildLines])
  | num n =>
      exact masterB_scalar _ c _ pid level
        (by simp only [buildLines]; simp [lineSig]) (by simp only [buildLines])
  | bool b =>
      exact masterB_scalar _ c _ pid level
        (by simp only [buildLines]; simp [lineSig]) (by simp only [buildLines])
  | null =>
      exact masterB_scalar _ c _ pid level
        (by simp only [buildLines]; simp [lineSig]) (by simp only [buildLines])
  | obj fields =>
      have hd := buildLines_obj_sig fields key level pid c
      rw [hd.1, hd.2]
      exact masterB_container _ c _ pid level
        (buildObjChildren_master fields (level + 1) c (c + 1) (by omega)) hpid
  | arr items =>
      have hd := buildLines_arr_sig items key level pid c
      rw [hd.1, hd.2]
      exact masterB_container _ c _ pid level
        (buildArrChildren_master items (level + 1) c (c + 1) (by omega)) hpid

/-- Every object children block satisfies the children invariant. -/
theorem buildObjChildren_master : ∀ (fs : List (String × JsonValue))
    (level pid c : Nat), pid < c →
    MasterC ((buildObjChildren fs level pid c).1.map lineSig) c
      ((buildObjChildren fs level pid c).2) pid level := by
  intro fs level pid c hpid
  match fs with
  | [] => exact masterC_nil c pid level
  | [(k, v)] =>
      rw [show buildObjChildren [(k, v)] level pid c
            = buildLines v (some k) level (some pid) c from rfl]
      exact masterC_of_masterB _ c _ pid level
        (buildLines_master v (some k) level (some pid) c
          (by intro q hq; cases hq; exact hpid)) hpid
  | (k, v) :: r2 :: rest2 =>
      have hd := buildObjChildren_cons_sig k v r2 rest2 level pid c
      rw [hd.1, hd.2]
      have hB := buildLines_master v (some k) level (some pid) c
        (by intro q hq; cases hq; exact hpid)
      have hB' := hB
      unfold MasterB at hB'
      obtain ⟨h1, _, _, ⟨tg, T, hhead⟩, _, _⟩ := hB'
      have hlen : 1 ≤ ((buildLines v (some k) level (some pid) c).1.map
          lineSig).length := by
        rw [hhead]
        simp
      have hc1 : pid < (buildLines v (some k) level (some pid) c).2 := by
        omega
      exact masterC_append _ _ c _ _ pid level hB
        (buildObjChildren_master (r2 :: rest2) level pid
          (buildLines v (some k) level (some pid) c).2 hc1) hpid

/-- Every array children block satisfies the children invariant. -/
theorem buildArrChildren_master : ∀ (xs : List JsonValue)
    (level pid c : Nat), pid < c →
    MasterC ((buildArrChildren xs level pid c).1.map lineSig) c
      ((buildArrChildren xs level pid c).2) pid level := by
  intro xs level pid c hpid
  match xs with
  | [] => exact masterC_nil c pid level
  | [v] =>
      rw [show buildArrChildren [v] level pid c
            = buildLines v none level (some pid) c from rfl]
      exact masterC_of_masterB _ c _ pid level
        (buildLines_master v none level (some pid) c
          (by intro q hq; cases hq; exact hpid)) hpid
  | v :: r2 :: rest2 =>
      have hd := buildArrChildren_cons_sig v r2 rest2 level pid c
      rw [hd.1, hd.2]
      have hB := buildLines_master v none level (some pid) c
        (by intro q hq; cases hq; exact hpid)
      have hB' := hB
      unfold MasterB at hB'
      obtain ⟨h1, _, _, ⟨tg, T, hhead⟩, _, _⟩ := hB'
      have hlen : 1 ≤ ((buildLines v none level (some pid) c).1.map
          lineSig).length := by
        rw [hhead]
        simp
      have hc1 : pid < (buildLines v none level (some pid) c).2 := by
        omega
      exact masterC_append _ _ c _ _ pid level hB
        (buildArrChildren_master (r2 :: rest2) level pid
          (buildLines v none level (some pid) c).2 hc1) hpid
end

/-- The display flattener's root block satisfies the block invariant. -/
theorem flatten_sig_master (v : JsonValue) :
    MasterB ((flattenDisplay v).map lineSig) 0
      ((buildLines v none 0 none 0).2) none 0 :=
  buildLines_master v none 0 none 0 (by intro q hq; exact Option.noConfusion hq)

/-- A lookup by id returns a line with that id. -/
theorem findById_id (L : List JsonLine) (p : Nat) (pl : JsonLine)
    (h : findById L p = some pl) : pl.id = p := by
  have h' := List.find?_some h
  simpa using h'

/-- With strictly increasing ids, lookup by a member's id returns exactly
that member. -/
theorem findById_pairwise : ∀ (L : List JsonLine),
    List.Pairwise (fun a b => a.id < b.id) L →
    ∀ pl ∈ L, findById L pl.id = some pl := by
  intro L
  induction L with
  | nil =>
      intro _ pl h
      exact absurd h (List.not_mem_nil _)
  | cons l ls ih =>
      intro hpw pl hmem
      rcases List.mem_cons.mp hmem with rfl | hmem'
      · exact List.find?_cons_of_pos _ (by simp)
      · have hlt := (List.pairwise_cons.mp hpw).1 pl hmem'
        rw [show findById (l :: ls) pl.id
              = List.find? (fun x => x.id == pl.id) (l :: ls) from rfl]
        rw [List.find?_cons_of_neg _ (by simp; omega)]
        exact ih (List.pairwise_cons.mp hpw).2 pl hmem'

/-- With strictly increasing ids, members are determined by their id. -/
theorem eq_of_mem_id : ∀ (L : List JsonLine),
    List.Pairwise (fun a b => a.id < b.id) L →
    ∀ a ∈ L, ∀ b ∈ L, a.id = b.id → a = b := by
  intro L
  induction L with
  | nil =>
      intro _ a ha
      exact absurd ha (List.not_mem_nil _)
  | cons l ls ih =>
      intro hpw a ha b hb heq
      have hpw' := List.pairwise_cons.mp hpw
      rcases List.mem_cons.mp ha with rfl | ha' <;>
        rcases List.mem_cons.mp hb with rfl | hb'
      · rfl
      · have := hpw'.1 b hb'
        omega
      · have := hpw'.1 a ha'
        omega
      · exact ih hpw'.2 a ha' b hb' heq

/-- Line-level structural facts of the display flattening: ids strictly
increase along the list and are below the length, a parentless line is the
root line (id 0, level 0, not closing), and every other line's parent
resolves by lookup to an earlier container-open line whose level is one
less (or equal, for closing lines). -/
theorem flatten_facts (v : JsonValue) :
    List.Pairwise (fun a b => a.id < b.id) (flattenDisplay v) ∧
    (∀ l ∈ flattenDisplay v, l.id < (flattenDisplay v).length) ∧
    (∀ l ∈ flattenDisplay v, l.parentId = none →
      l.id = 0 ∧ l.level = 0 ∧ l.isClosing = false) ∧
    (∀ l ∈ flattenDisplay v, ∀ p, l.parentId = some p →
      ∃ pl, findById (flattenDisplay v) p = some pl ∧
        pl ∈ flattenDisplay v ∧ pl.isClosing = false ∧ pl.hasToggle = true ∧
        p < l.id ∧ (l.isClosing = true → l.level = pl.level) ∧
        (l.isClosing = false → l.level = pl.level + 1)) := by
  have hM := flatten_sig_master v
  unfold MasterB at hM
  obtain ⟨m1, m2, m3, ⟨tg, T, hhead⟩, m5, m6⟩ := hM
  have hpw : List.Pairwise (fun a b => a.id < b.id) (flattenDisplay v) := by
    rw [List.map_map] at m3
    exact List.pairwise_map.mp m3
  have hof : ∀ l ∈ flattenDisplay v, l.id = 0 →
      lineSig l = ⟨0, none, 0, false, tg⟩ := by
    intro l hl hid
    have hs : lineSig l ∈ (flattenDisplay v).map lineSig :=
      List.mem_map_of_mem _ hl
    rw [hhead] at hs
    rcases List.mem_cons.mp hs with heq | hsT
    · exact heq
    · exfalso
      rw [hhead] at m3
      simp only [List.map_cons] at m3
      have h := (List.pairwise_cons.mp m3).1 (lineSig l).id
        (List.mem_map_of_mem _ hsT)
      have h' : 0 < l.id := h
      omega
  refine ⟨hpw, ?_, ?_, ?_⟩
  · intro l hl
    have hb := (m2 (lineSig l) (List.mem_map_of_mem _ hl)).2
    rw [m1] at hb
    have hb' : l.id < 0 + ((flattenDisplay v).map lineSig).length := hb
    simpa using hb'
  · intro l hl hnone
    have hid : l.id = 0 := by
      by_contra hne
      obtain ⟨p, ps, hp, _⟩ := m5 (lineSig l) (List.mem_map_of_mem _ hl)
        (by
          intro h
          exact hne h)
      have hp' : l.parentId = some p := hp
      rw [hnone] at hp'
      exact Option.noConfusion hp'
    have heq := hof l hl hid
    refine ⟨hid, ?_, ?_⟩
    · exact congrArg LineSig.level heq
    · exact congrArg LineSig.isClosing heq
  · intro l hl p hp
    have hid : ¬ l.id = 0 := by
      intro hid
      have heq := hof l hl hid
      have hnone : l.parentId = none := congrArg LineSig.parentId heq
      rw [hnone] at hp
      exact Option.noConfusion hp
    obtain ⟨p', ps, hp', hcp, hplt, hpsmem, hpsid, hpscl, hpstg, hcll,
      hncll⟩ := m5 (lineSig l) (List.mem_map_of_mem _ hl) (by
        intro h
        exact hid h)
    have hpp : p' = p := by
      have hp'' : l.parentId = some p' := hp'
      rw [hp] at hp''
      exact (Option.some.inj hp'').symm
    subst hpp
    obtain ⟨pl, hplmem, hpleq⟩ := List.mem_map.mp hpsmem
    have hplid : pl.id = p' := by
      have : (lineSig pl).id = p' := by rw [hpleq]; exact hpsid
      exact this
    refine ⟨pl, ?_, hplmem, ?_, ?_, ?_, ?_, ?_⟩
    · rw [show p' = pl.id from hplid.symm]
      exact findById_pairwise _ hpw pl hplmem
    · have : (lineSig pl).isClosing = false := by rw [hpleq]; exact hpscl
      exact this
    · have : (lineSig pl).hasToggle = true := by rw [hpleq]; exact hpstg
      exact this
    · exact hplt
    · intro hc
      have h1 : l.level = ps.level := hcll hc
      have h2 : (lineSig pl).level = ps.level := by rw [hpleq]
      rw [h1]
      exact h2.symm
    · intro hc
      have h1 : l.level = ps.level + 1 := hncll hc
      have h2 : (lineSig pl).level = ps.level := by rw [hpleq]
      rw [h1]
      have h2' : pl.level = ps.level := h2
      rw [h2']

/-- The ancestor chain of a line in a well-formed list has length equal to
the line's level, plus one for a closing line (whose chain starts at its
own container's open line at the same level). -/
theorem ancestorIds_length (L : List JsonLine)
    (H0 : ∀ l ∈ L, l.parentId = none → l.level = 0 ∧ l.isClosing = false)
    (H1 : ∀ l ∈ L, ∀ p, l.parentId = some p →
      ∃ pl, findById L p = some pl ∧ pl ∈ L ∧ pl.isClosing = false ∧
        p < l.id ∧ (l.isClosing = true → l.level = pl.level) ∧
        (l.isClosing = false → l.level = pl.level + 1)) :
    ∀ fuel, ∀ l ∈ L, l.id < fuel →
      (ancestorIds L l.parentId fuel).length
        = l.level + (if l.isClosing = true then 1 else 0) := by
  intro fuel
  induction fuel with
  | zero =>
      intro l _ hid
      exact absurd hid (Nat.not_lt_zero _)
  | succ fuel ih =>
      intro l hl hid
      rcases hp : l.parentId with _ | p
      · obtain ⟨hlev, hcl⟩ := H0 l hl hp
        rw [show ancestorIds L none (fuel + 1) = [] from rfl]
        rw [hlev, hcl]
        rfl
      · obtain ⟨pl, hfind, hplmem, hplcl, hplt, hcll, hncll⟩ := H1 l hl p hp
        have hplid : pl.id = p := findById_id L p pl hfind
        rw [show ancestorIds L (some p) (fuel + 1)
              = (match findById L p with
                 | some pl => p :: ancestorIds L pl.parentId fuel
                 | none => [p]) from rfl]
        rw [hfind]
        simp only [List.length_cons]
        have hrec := ih pl hplmem (by omega)
        rw [hplcl] at hrec
        simp only [Bool.false_eq_true, if_false] at hrec
        cases hbc : l.isClosing with
        | true =>
            rw [hrec, hcll hbc]
            simp
        | false =>
            rw [hrec, hncll hbc]
            simp

/-- C3 (amended): for every line of a display flattening, the length of its
parentId ancestor chain equals its depth for opening and scalar lines, and
its depth plus one for closing lines (a close line sits at its container's
level but has the container on its chain), so the claimed equality of depth
and chain length holds exactly for the non-closing lines. -/
theorem C3_depth_vs_chain (v : JsonValue) (l : JsonLine)
    (hl : l ∈ flattenDisplay v) :
    (ancestorIds (flattenDisplay v) l.parentId
        (flattenDisplay v).length).length
      = l.level + (if l.isClosing = true then 1 else 0) := by
  obtain ⟨hpw, hbound, h0, h1⟩ := flatten_facts v
  exact ancestorIds_length (flattenDisplay v)
    (fun l hl hn => ⟨(h0 l hl hn).2.1, (h0 l hl hn).2.2⟩)
    (fun l hl p hp => by
      obtain ⟨pl, hf, hm, hcl, htg, hlt, ha, hb⟩ := h1 l hl p hp
      exact ⟨pl, hf, hm, hcl, hlt, ha, hb⟩)
    (flattenDisplay v).length l hl (hbound l hl)

/-- C3 witness: the parent-chain length computed for the closing bracket
line of the walkthrough value. -/
theorem C3_depth_vs_chain_witness :
    (flattenDisplay exScenario).get ⟨5, by decide⟩ ∈ flattenDisplay exScenario ∧
    (ancestorIds (flattenDisplay exScenario)
        ((flattenDisplay exScenario).get ⟨5, by decide⟩).parentId
        (flattenDisplay exScenario).length).length
      = ((flattenDisplay exScenario).get ⟨5, by decide⟩).level +
        (if ((flattenDisplay exScenario).get ⟨5, by decide⟩).isClosing = true
          then 1 else 0) :=
  ⟨by decide, C3_depth_vs_chain exScenario _ (by decide)⟩

/-- In a well-formed list whose parent links respect the open/close
interval of a container, a line's ancestor chain contains the container's
id exactly when the line's id lies in the half-open interval from the open
line (exclusive) to its close line (inclusive). -/
theorem chain_interval (L : List JsonLine)
    (hnone : ∀ x ∈ L, x.parentId = none → x.id = 0)
    (H1 : ∀ x ∈ L, ∀ p, x.parentId = some p →
      ∃ pl, findById L p = some pl ∧ pl ∈ L ∧ p < x.id)
    (o cl : JsonLine) (holt : o.id < cl.id)
    (hS1 : ∀ x ∈ L, ∀ p, x.parentId = some p →
      ((o.id ≤ p ∧ p < cl.id) ↔ (o.id < x.id ∧ x.id ≤ cl.id)))
    (hpne : ∀ x ∈ L, ∀ p, x.parentId = some p → ¬ p = cl.id) :
    ∀ fuel, ∀ x ∈ L, x.id < fuel →
      (o.id ∈ ancestorIds L x.parentId fuel ↔
        (o.id < x.id ∧ x.id ≤ cl.id)) := by
  intro fuel
  induction fuel with
  | zero =>
      intro x _ h
      exact absurd h (Nat.not_lt_zero _)
  | succ fuel ih =>
      intro x hx hid
      rcases hp : x.parentId with _ | p
      · have hx0 := hnone x hx hp
        rw [show ancestorIds L none (fuel + 1) = [] from rfl]
        simp only [List.not_mem_nil, false_iff]
        rintro ⟨hh1, _⟩
        rw [hx0] at hh1
        exact absurd hh1 (Nat.not_lt_zero _)
      · obtain ⟨pl, hfind, hplmem, hplt⟩ := H1 x hx p hp
        have hplid : pl.id = p := findById_id L p pl hfind
        rw [show ancestorIds L (some p) (fuel + 1)
              = (match findById L p with
                 | some pl => p :: ancestorIds L pl.parentId fuel
                 | none => [p]) from rfl]
        rw [hfind]
        by_cases hpo : p = o.id
        · refine iff_of_true ?_ ?_
          · rw [List.mem_cons]
            exact Or.inl hpo.symm
          · exact (hS1 x hx p hp).mp (by rw [hpo]; exact ⟨Nat.le_refl _, holt⟩)
        · rw [List.mem_cons]
          have hmemtail := ih pl hplmem (by omega)
          have hpcl := hpne x hx p hp
          constructor
          · rintro (heq | hmem)
            · exact absurd heq.symm hpo
            · obtain ⟨h1, h2⟩ := hmemtail.mp hmem
              exact (hS1 x hx p hp).mp ⟨by omega, by omega⟩
          · intro hrhs
            right
            apply hmemtail.mpr
            obtain ⟨h1, h2⟩ := (hS1 x hx p hp).mpr hrhs
            exact ⟨by omega, by omega⟩

/-- C4: every container-open line of a display flattening has exactly one
matching close line: it is closing, carries the open line's id as parentId,
sits at the same depth, appears later (ids strictly increase along the
list), is the unique closing line with that parentId, and the lines whose
ancestor chain passes through the open line are exactly the lines strictly
between open and close together with the close itself, so the close comes
immediately after the last line of the open line's subtree. -/
theorem C4_unique_close (v : JsonValue) (o : JsonLine)
    (ho : o ∈ flattenDisplay v) (htg : o.hasToggle = true) :
    List.Pairwise (fun a b => a.id < b.id) (flattenDisplay v) ∧
    ∃ cl, cl ∈ flattenDisplay v ∧ cl.isClosing = true ∧
      cl.parentId = some o.id ∧ cl.level = o.level ∧ o.id < cl.id ∧
      (∀ x ∈ flattenDisplay v, x.isClosing = true →
        x.parentId = some o.id → x = cl) ∧
      (∀ x ∈ flattenDisplay v,
        (o.id ∈ ancestorIds (flattenDisplay v) x.parentId
            (flattenDisplay v).length) ↔ (o.id < x.id ∧ x.id ≤ cl.id)) := by
  obtain ⟨hpw, hbound, h0, h1⟩ := flatten_facts v
  have hM := flatten_sig_master v
  unfold MasterB at hM
  obtain ⟨m1, m2, m3, hhead, m5, m6⟩ := hM
  unfold closedBelow at m6
  obtain ⟨clS, hclSmem, hclScl, hclSp, hclSl, hclSlt, huniqS, hiffS⟩ :=
    m6 (lineSig o) (List.mem_map_of_mem _ ho) htg
  obtain ⟨cl, hclmem, hcleq⟩ := List.mem_map.mp hclSmem
  have hclid : clS.id = cl.id := by
    rw [← hcleq]
    rfl
  have hclcl : cl.isClosing = true := by
    have h : (lineSig cl).isClosing = true := by rw [hcleq]; exact hclScl
    exact h
  have hclp : cl.parentId = some o.id := by
    have h : (lineSig cl).parentId = some (lineSig o).id := by
      rw [hcleq]; exact hclSp
    exact h
  have hcll : cl.level = o.level := by
    have h : (lineSig cl).level = (lineSig o).level := by
      rw [hcleq]; exact hclSl
    exact h
  have holt : o.id < cl.id := by
    have h : o.id < clS.id := hclSlt
    omega
  refine ⟨hpw, cl, hclmem, hclcl, hclp, hcll, holt, ?_, ?_⟩
  · intro x hx hxcl hxp
    have hxS := huniqS (lineSig x) (List.mem_map_of_mem _ hx) hxcl hxp
    have hxid : x.id = cl.id := by
      have h : x.id = clS.id := congrArg LineSig.id hxS
      omega
    exact eq_of_mem_id _ hpw x hx cl hclmem hxid
  · have hpne : ∀ x ∈ flattenDisplay v, ∀ p, x.parentId = some p →
        ¬ p = cl.id := by
      intro x hx p hxp hpeq
      obtain ⟨pl, hf, hm, hplcl, _, _, _, _⟩ := h1 x hx p hxp
      have hplid : pl.id = p := findById_id _ p pl hf
      have : pl = cl := eq_of_mem_id _ hpw pl hm cl hclmem (by omega)
      rw [this] at hplcl
      rw [hclcl] at hplcl
      exact Bool.noConfusion hplcl
    intro x hx
    exact chain_interval (flattenDisplay v)
      (fun x hx hn => (h0 x hx hn).1)
      (fun x hx p hxp => by
        obtain ⟨pl, hf, hm, _, _, hlt, _, _⟩ := h1 x hx p hxp
        exact ⟨pl, hf, hm, hlt⟩)
      o cl holt
      (fun x hx p hxp => by
        have h := hiffS (lineSig x) (List.mem_map_of_mem _ hx) p hxp
        rw [hclid] at h
        exact h)
      hpne (flattenDisplay v).length x hx (hbound x hx)

/-- C4 witness: the matching close of the array-open line in the
walkthrough value. -/
theorem C4_unique_close_witness :
    ((flattenDisplay exScenario).get ⟨2, by decide⟩ ∈ flattenDisplay exScenario ∧
      ((flattenDisplay exScenario).get ⟨2, by decide⟩).hasToggle = true) ∧
    (List.Pairwise (fun a b => a.id < b.id) (flattenDisplay exScenario) ∧
    ∃ cl, cl ∈ flattenDisplay exScenario ∧ cl.isClosing = true ∧
      cl.parentId = some ((flattenDisplay exScenario).get ⟨2, by decide⟩).id ∧
      cl.level = ((flattenDisplay exScenario).get ⟨2, by decide⟩).level ∧
      ((flattenDisplay exScenario).get ⟨2, by decide⟩).id < cl.id ∧
      (∀ x ∈ flattenDisplay exScenario, x.isClosing = true →
        x.parentId = some ((flattenDisplay exScenario).get ⟨2, by decide⟩).id →
        x = cl) ∧
      (∀ x ∈ flattenDisplay exScenario,
        (((flattenDisplay exScenario).get ⟨2, by decide⟩).id ∈
            ancestorIds (flattenDisplay exScenario) x.parentId
              (flattenDisplay exScenario).length) ↔
          (((flattenDisplay exScenario).get ⟨2, by decide⟩).id < x.id ∧
            x.id ≤ cl.id))) :=
  ⟨⟨by decide, by decide⟩,
    C4_unique_close exScenario _ (by decide) (by decide)⟩

/-- Shape-equal lists agree on the visibility fields. -/
theorem map_visOf_of_shapeOf (L1 L2 : List JsonLine)
    (h : L1.map shapeOf = L2.map shapeOf) : L1.map visOf = L2.map visOf := by
  have h1 : L1.map visOf = (L1.map shapeOf).map visOf := by
    rw [List.map_map]
    rfl
  have h2 : L2.map visOf = (L2.map shapeOf).map visOf := by
    rw [List.map_map]
    rfl
  rw [h1, h2, h]

/-- Visibility-equal lists agree on the walk fields. -/
theorem map_pairOf_of_visOf (L1 L2 : List JsonLine)
    (h : L1.map visOf = L2.map visOf) : L1.map pairOf = L2.map pairOf := by
  have h1 : L1.map pairOf = (L1.map visOf).map (fun t => (t.1, t.2.1)) := by
    rw [List.map_map]
    rfl
  have h2 : L2.map pairOf = (L2.map visOf).map (fun t => (t.1, t.2.1)) := by
    rw [List.map_map]
    rfl
  rw [h1, h2, h]

/-- The toggle rewrite keeps the line's id. -/
theorem toggleLine_id (l : JsonLine) : (toggleLine l).id = l.id := by
  cases l
  simp only [toggleLine]
  split <;> (try split) <;> (try split) <;> rfl

/-- The toggle rewrite keeps the line's parent link. -/
theorem toggleLine_parentId (l : JsonLine) :
    (toggleLine l).parentId = l.parentId := by
  cases l
  simp only [toggleLine]
  split <;> (try split) <;> (try split) <;> rfl

/-- The toggle rewrite keeps the line's toggle flag. -/
theorem toggleLine_hasToggle (l : JsonLine) :
    (toggleLine l).hasToggle = l.hasToggle := by
  cases l
  simp only [toggleLine]
  split <;> (try split) <;> (try split) <;> rfl

/-- The toggle rewrite flips the collapsed flag. -/
theorem toggleLine_isCollapsed (l : JsonLine) :
    (toggleLine l).isCollapsed = !l.isCollapsed := by
  cases l
  simp only [toggleLine]
  split <;> (try split) <;> (try split) <;> rfl

/-- The toggle rewrite commutes with clearing the line number. -/
theorem toggleLine_shapeOf (l : JsonLine) :
    shapeOf (toggleLine l) = toggleLine (shapeOf l) := by
  cases l
  simp only [toggleLine, shapeOf, collapsedObjContent, collapsedArrContent,
    expandedObjContent, expandedArrContent]
  split <;> (try split) <;> (try split) <;> rfl

/-- The visibility view of a toggled line. -/
theorem toggleLine_visOf (l : JsonLine) :
    visOf (toggleLine l) = (l.id, l.parentId, !l.isCollapsed) := by
  rw [show visOf (toggleLine l)
        = ((toggleLine l).id, (toggleLine l).parentId,
            (toggleLine l).isCollapsed) from rfl]
  rw [toggleLine_id, toggleLine_parentId, toggleLine_isCollapsed]

/-- Unfolding of lookup on a cons. -/
theorem findById_cons (l0 : JsonLine) (ls : List JsonLine) (i : Nat) :
    findById (l0 :: ls) i
      = if l0.id == i then some l0 else findById ls i := by
  rw [show findById (l0 :: ls) i
        = List.find? (fun x => x.id == i) (l0 :: ls) from rfl]
  rw [List.find?_cons]
  by_cases h : (l0.id == i) = true
  · simp [h]
  · simp [h]
    rfl

/-- Replacement preserves list length. -/
theorem replaceFirstById_length (i : Nat) (f : JsonLine → JsonLine) :
    ∀ L : List JsonLine, (replaceFirstById i f L).length = L.length := by
  intro L
  induction L with
  | nil => rfl
  | cons l ls ih =>
      rw [show replaceFirstById i f (l :: ls)
            = if l.id == i then f l :: ls else l :: replaceFirstById i f ls
          from rfl]
      by_cases h : (l.id == i) = true
      · rw [if_pos h]
        rfl
      · rw [if_neg h]
        simp [ih]

/-- Replacing twice at the same id composes the replacement functions,
provided the function keeps ids. -/
theorem replaceFirstById_comp (i : Nat) (f g : JsonLine → JsonLine)
    (hf : ∀ l, (f l).id = l.id) :
    ∀ L : List JsonLine,
      replaceFirstById i g (replaceFirstById i f L)
        = replaceFirstById i (fun l => g (f l)) L := by
  intro L
  induction L with
  | nil => rfl
  | cons l ls ih =>
      rw [show replaceFirstById i f (l :: ls)
            = if l.id == i then f l :: ls else l :: replaceFirstById i f ls
          from rfl]
      by_cases h : (l.id == i) = true
      · rw [if_pos h]
        rw [show replaceFirstById i g (f l :: ls)
              = if (f l).id == i then g (f l) :: ls
                else f l :: replaceFirstById i g ls from rfl]
        rw [hf l, if_pos h]
        rw [show replaceFirstById i (fun l => g (f l)) (l :: ls)
              = if l.id == i then g (f l) :: ls
                else l :: replaceFirstById i (fun l => g (f l)) ls from rfl]
        rw [if_pos h]
      · rw [if_neg h]
        rw [show replaceFirstById i g (l :: replaceFirstById i f ls)
              = if l.id == i then g l :: replaceFirstById i f ls
                else l :: replaceFirstById i g (replaceFirstById i f ls)
            from rfl]
        rw [if_neg h]
        rw [show replaceFirstById i (fun l => g (f l)) (l :: ls)
              = if l.id == i then g (f l) :: ls
                else l :: replaceFirstById i (fun l => g (f l)) ls from rfl]
        rw [if_neg h, ih]

/-- Replacing by a function that fixes the found line is a no-op. -/
theorem replaceFirstById_fix (i : Nat) (f : JsonLine → JsonLine) :
    ∀ L : List JsonLine, ∀ l, findById L i = some l → f l = l →
      replaceFirstById i f L = L := by
  intro L
  induction L with
  | nil =>
      intro l h
      exact Option.noConfusion h
  | cons l0 ls ih =>
      intro l h hfix
      rw [show replaceFirstById i f (l0 :: ls)
            = if l0.id == i then f l0 :: ls else l0 :: replaceFirstById i f ls
          from rfl]
      by_cases hh : (l0.id == i) = true
      · rw [if_pos hh]
        have hl : l = l0 := by
          rw [findById_cons, if_pos hh] at h
          exact (Option.some.inj h).symm
        rw [hl] at hfix
        rw [hfix]
      · rw [if_neg hh]
        have h' : findById ls i = some l := by
          rw [findById_cons, if_neg hh] at h
          exact h
        rw [ih l h' hfix]

/-- Lookup in a replaced list finds the replaced line, when the function
keeps ids. -/
theorem findById_replaceFirstById (i : Nat) (f : JsonLine → JsonLine)
    (hf : ∀ l, (f l).id = l.id) :
    ∀ L : List JsonLine, ∀ l, findById L i = some l →
      findById (replaceFirstById i f L) i = some (f l) := by
  intro L
  induction L with
  | nil =>
      intro l h
      exact Option.noConfusion h
  | cons l0 ls ih =>
      intro l h
      rw [show replaceFirstById i f (l0 :: ls)
            = if l0.id == i then f l0 :: ls else l0 :: replaceFirstById i f ls
          from rfl]
      by_cases hh : (l0.id == i) = true
      · rw [if_pos hh]
        have hl : l = l0 := by
          rw [findById_cons, if_pos hh] at h
          exact (Option.some.inj h).symm
        subst hl
        rw [findById_cons, if_pos (by rw [hf l]; exact hh)]
      · rw [if_neg hh]
        have h' : findById ls i = some l := by
          rw [findById_cons, if_neg hh] at h
          exact h
        rw [findById_cons, if_neg hh]
        exact ih l h'

/-- Lookups in lists that agree on ids and parent links produce the same
parent link. -/
theorem findById_pair_congr : ∀ (L1 L2 : List JsonLine),
    L1.map pairOf = L2.map pairOf → ∀ p,
    (findById L1 p).map (fun l => l.parentId)
      = (findById L2 p).map (fun l => l.parentId) := by
  intro L1
  induction L1 with
  | nil =>
      intro L2 h p
      cases L2 with
      | nil => rfl
      | cons b l2 => exact absurd h (by simp)
  | cons a l1 ih =>
      intro L2 h p
      cases L2 with
      | nil => exact absurd h (by simp)
      | cons b l2 =>
          simp only [List.map_cons, List.cons.injEq] at h
          obtain ⟨hab, htl⟩ := h
          have hid : a.id = b.id := congrArg Prod.fst hab
          have hpid : a.parentId = b.parentId :=
            congrArg (fun t => t.2) hab
          rw [findById_cons, findById_cons, hid]
          by_cases hh : (b.id == p) = true
          · rw [if_pos hh, if_pos hh]
            simp [hpid]
          · rw [if_neg hh, if_neg hh]
            exact ih l2 htl p

/-- Lookups in shape-equal lists produce shape-equal results. -/
theorem findById_shape_congr : ∀ (L1 L2 : List JsonLine),
    L1.map shapeOf = L2.map shapeOf → ∀ p,
    (findById L1 p).map shapeOf = (findById L2 p).map shapeOf := by
  intro L1
  induction L1 with
  | nil =>
      intro L2 h p
      cases L2 with
      | nil => rfl
      | cons b l2 => exact absurd h (by simp)
  | cons a l1 ih =>
      intro L2 h p
      cases L2 with
      | nil => exact absurd h (by simp)
      | cons b l2 =>
          simp only [List.map_cons, List.cons.injEq] at h
          obtain ⟨hab, htl⟩ := h
          have hid' := congrArg JsonLine.id hab
          have hid : a.id = b.id := hid'
          rw [findById_cons, findById_cons, hid]
          by_cases hh : (b.id == p) = true
          · rw [if_pos hh, if_pos hh]
            simp [hab]
          · rw [if_neg hh, if_neg hh]
            exact ih l2 htl p

/-- Ancestor chains only depend on ids and parent links. -/
theorem ancestorIds_congr (L1 L2 : List JsonLine)
    (h : L1.map pairOf = L2.map pairOf) :
    ∀ fuel pid, ancestorIds L1 pid fuel = ancestorIds L2 pid fuel := by
  intro fuel
  induction fuel with
  | zero =>
      intro pid
      cases pid <;> rfl
  | succ fuel ih =>
      intro pid
      cases pid with
      | none => rfl
      | some p =>
          have hf := findById_pair_congr L1 L2 h p
          rw [show ancestorIds L1 (some p) (fuel + 1)
                = (match findById L1 p with
                   | some pl => p :: ancestorIds L1 pl.parentId fuel
                   | none => [p]) from rfl]
          rw [show ancestorIds L2 (some p) (fuel + 1)
                = (match findById L2 p with
                   | some pl => p :: ancestorIds L2 pl.parentId fuel
                   | none => [p]) from rfl]
          rcases h1 : findById L1 p with _ | pl1 <;>
            rcases h2 : findById L2 p with _ | pl2
          · rfl
          · rw [h1, h2] at hf
            exact absurd hf (by simp)
          · rw [h1, h2] at hf
            exact absurd hf (by simp)
          · rw [h1, h2] at hf
            have hf' : pl1.parentId = pl2.parentId := by simpa using hf
            simp only []
            rw [hf', ih pl2.parentId]

/-- Unfolding of the collapsed-id set on a cons. -/
theorem collapsedIds_cons (l : JsonLine) (ls : List JsonLine) :
    collapsedIds (l :: ls)
      = if l.isCollapsed then l.id :: collapsedIds ls else collapsedIds ls := by
  by_cases h : l.isCollapsed = true <;> simp [collapsedIds, List.filter_cons, h]

/-- The collapsed-id set only depends on ids and collapsed flags. -/
theorem collapsedIds_congr : ∀ (L1 L2 : List JsonLine),
    L1.map visOf = L2.map visOf → collapsedIds L1 = collapsedIds L2 := by
  intro L1
  induction L1 with
  | nil =>
      intro L2 h
      cases L2 with
      | nil => rfl
      | cons b l2 => exact absurd h (by simp)
  | cons a l1 ih =>
      intro L2 h
      cases L2 with
      | nil => exact absurd h (by simp)
      | cons b l2 =>
          simp only [List.map_cons, List.cons.injEq] at h
          obtain ⟨hab, htl⟩ := h
          have hid : a.id = b.id := congrArg (fun t => t.1) hab
          have hcol : a.isCollapsed = b.isCollapsed :=
            congrArg (fun t => t.2.2) hab
          rw [collapsedIds_cons, collapsedIds_cons, hid, hcol, ih l2 htl]

/-- The hidden walk only depends on ids and parent links (for a fixed
collapsed set). -/
theorem hiddenWalk_congr (L1 L2 : List JsonLine)
    (h : L1.map pairOf = L2.map pairOf) (C : List Nat) :
    ∀ fuel pid, hiddenWalk L1 C pid fuel = hiddenWalk L2 C pid fuel := by
  intro fuel
  induction fuel with
  | zero =>
      intro pid
      cases pid <;> rfl
  | succ fuel ih =>
      intro pid
      cases pid with
      | none => rfl
      | some p =>
          have hf := findById_pair_congr L1 L2 h p
          rw [show hiddenWalk L1 C (some p) (fuel + 1)
                = (if C.contains p then true
                   else
                     match findById L1 p with
                     | some parent => hiddenWalk L1 C parent.parentId fuel
                     | none => false) from rfl]
          rw [show hiddenWalk L2 C (some p) (fuel + 1)
                = (if C.contains p then true
                   else
                     match findById L2 p with
                     | some parent => hiddenWalk L2 C parent.parentId fuel
                     | none => false) from rfl]
          by_cases hc : (C.contains p) = true
          · rw [if_pos hc, if_pos hc]
          · rw [if_neg hc, if_neg hc]
            rcases h1 : findById L1 p with _ | pl1 <;>
              rcases h2 : findById L2 p with _ | pl2
            · rfl
            · rw [h1, h2] at hf
              exact absurd hf (by simp)
            · rw [h1, h2] at hf
              exact absurd hf (by simp)
            · rw [h1, h2] at hf
              have hf' : pl1.parentId = pl2.parentId := by simpa using hf
              simp only []
              rw [hf', ih pl2.parentId]

/-- Visibility only depends on the visibility fields of the list and the
line. -/
theorem isVisible_congr (L1 L2 : List JsonLine)
    (h : L1.map visOf = L2.map visOf) (a b : JsonLine)
    (hab : visOf a = visOf b) : isVisible L1 a = isVisible L2 b := by
  unfold isVisible
  have hlen : L1.length = L2.length := by
    have h' := congrArg List.length h
    simpa using h'
  have hpid : a.parentId = b.parentId := congrArg (fun t => t.2.1) hab
  rw [hpid, hlen, collapsedIds_congr L1 L2 h,
    hiddenWalk_congr L1 L2 (map_pairOf_of_visOf _ _ h) _ _ _]

/-- Clearing the line number absorbs a line-number write. -/
theorem shapeOf_setNum (l : JsonLine) (n : Nat) :
    shapeOf { l with lineNumber := n } = shapeOf l := rfl

/-- Writing equal line numbers to shape-equal lines gives equal lines. -/
theorem setNum_eq_of_shape (a b : JsonLine) (n : Nat)
    (h : shapeOf a = shapeOf b) :
    ({ a with lineNumber := n } : JsonLine) = { b with lineNumber := n } := by
  have h1 : ({ a with lineNumber := n } : JsonLine)
      = { shapeOf a with lineNumber := n } := rfl
  rw [h1, h]
  rfl

/-- The projector's full list keeps every line's shape. -/
theorem projectGo_fst_map_shape (L : List JsonLine) :
    ∀ ls n, ((projectGo L ls n).1).map shapeOf = ls.map shapeOf := by
  intro ls
  induction ls with
  | nil => intro n; rfl
  | cons l ls ih =>
      intro n
      by_cases h : isVisible L l = true <;>
        simp [projectGo, h, ih, shapeOf_setNum]

/-- The projector's visible list is the visible filter, up to line
numbers. -/
theorem projectGo_snd_shape (L : List JsonLine) :
    ∀ ls n, ((projectGo L ls n).2).map shapeOf
      = (ls.filter (fun x => isVisible L x)).map shapeOf := by
  intro ls
  induction ls with
  | nil => intro n; rfl
  | cons l ls ih =>
      intro n
      by_cases h : isVisible L l = true <;>
        simp [projectGo, h, ih, shapeOf_setNum, List.filter_cons]

/-- The projector's visible list is reproduced exactly on shape-equal
inputs. -/
theorem projectGo_snd_congr (L1 L2 : List JsonLine)
    (hL : L1.map shapeOf = L2.map shapeOf) :
    ∀ (ls1 ls2 : List JsonLine), ls1.map shapeOf = ls2.map shapeOf →
      ∀ n, (projectGo L1 ls1 n).2 = (projectGo L2 ls2 n).2 := by
  intro ls1
  induction ls1 with
  | nil =>
      intro ls2 h n
      cases ls2 with
      | nil => rfl
      | cons b l2 => exact absurd h (by simp)
  | cons a l1 ih =>
      intro ls2 h n
      cases ls2 with
      | nil => exact absurd h (by simp)
      | cons b l2 =>
          simp only [List.map_cons, List.cons.injEq] at h
          obtain ⟨hab, htl⟩ := h
          have hvis : isVisible L1 a = isVisible L2 b :=
            isVisible_congr L1 L2 (map_visOf_of_shapeOf _ _ hL) a b
              (by
                have h1 : visOf a = visOf (shapeOf a) := rfl
                have h2 : visOf b = visOf (shapeOf b) := rfl
                rw [h1, h2, hab])
          by_cases h : isVisible L1 a = true
          · have h' : isVisible L2 b = true := by rw [← hvis]; exact h
            simp only [projectGo, h, h', if_true]
            rw [setNum_eq_of_shape a b n hab, ih l2 htl (n + 1)]
          · have h' : ¬ isVisible L2 b = true := by rw [← hvis]; exact h
            simp only [projectGo, h, h', if_false]
            rw [ih l2 htl n]
            simp [h, h']

/-- Nat equality tests commute. -/
theorem natBeq_comm (a b : Nat) : (a == b) = (b == a) := by
  by_cases h : a = b
  · rw [h]
  · have h1 : (a == b) = false := by simp [h]
    have h2 : (b == a) = false := by simp [Ne.symm h]
    rw [h1, h2]

/-- Unfolding of the membership test on a cons. -/
theorem contains_cons_beq (a : Nat) (l : List Nat) (x : Nat) :
    (a :: l).contains x = (x == a || l.contains x) := rfl

/-- The collapsed-ancestor walk succeeds exactly when some chain id is in
the collapsed set: the walk of updateDisplayLines is the ancestor-chain
test of the spec. -/
theorem hiddenWalk_iff_chain (L : List JsonLine) (C : List Nat) :
    ∀ fuel pid, hiddenWalk L C pid fuel = true ↔
      ∃ a ∈ ancestorIds L pid fuel, a ∈ C := by
  intro fuel
  induction fuel with
  | zero =>
      intro pid
      cases pid with
      | none =>
          rw [show hiddenWalk L C none 0 = false from rfl,
            show ancestorIds L none 0 = [] from rfl]
          simp
      | some p =>
          rw [show hiddenWalk L C (some p) 0 = false from rfl,
            show ancestorIds L (some p) 0 = [] from rfl]
          simp
  | succ fuel ih =>
      intro pid
      cases pid with
      | none =>
          rw [show hiddenWalk L C none (fuel + 1) = false from rfl,
            show ancestorIds L none (fuel + 1) = [] from rfl]
          simp
      | some p =>
          rw [show hiddenWalk L C (some p) (fuel + 1)
                = (if C.contains p then true
                   else
                     match findById L p with
                     | some parent => hiddenWalk L C parent.parentId fuel
                     | none => false) from rfl]
          rw [show ancestorIds L (some p) (fuel + 1)
                = (match findById L p with
                   | some pl => p :: ancestorIds L pl.parentId fuel
                   | none => [p]) from rfl]
          by_cases hc : (C.contains p) = true
          · have hpC : p ∈ C := by simpa using hc
            rw [if_pos hc]
            rcases hfd : findById L p with _ | pl <;> simp only [] <;>
              exact iff_of_true trivial ⟨p, by simp, hpC⟩
          · have hpC : ¬ p ∈ C := by
              intro hm
              exact hc (by simpa using hm)
            rw [if_neg hc]
            rcases hfd : findById L p with _ | pl <;> simp only []
            · constructor
              · intro h
                exact absurd h (by simp)
              · rintro ⟨a, ha, haC⟩
                simp only [List.mem_singleton] at ha
                subst ha
                exact absurd haC hpC
            · constructor
              · intro h
                obtain ⟨a, ha, haC⟩ := (ih pl.parentId).mp h
                exact ⟨a, List.mem_cons_of_mem _ ha, haC⟩
              · rintro ⟨a, ha, haC⟩
                rcases List.mem_cons.mp ha with rfl | ha'
                · exact absurd haC hpC
                · exact (ih pl.parentId).mpr ⟨a, ha', haC⟩

/-- Walking with one more collapsed id succeeds exactly when the old walk
succeeds or the new id lies on the chain. -/
theorem hiddenWalk_insert (L : List JsonLine) (C C' : List Nat) (i : Nat)
    (h : ∀ a, C'.contains a = (C.contains a || (a == i))) :
    ∀ fuel pid, hiddenWalk L C' pid fuel
      = (hiddenWalk L C pid fuel || (ancestorIds L pid fuel).contains i) := by
  intro fuel
  induction fuel with
  | zero =>
      intro pid
      cases pid <;> rfl
  | succ fuel ih =>
      intro pid
      cases pid with
      | none => rfl
      | some p =>
          rw [show hiddenWalk L C' (some p) (fuel + 1)
                = (if C'.contains p then true
                   else
                     match findById L p with
                     | some parent => hiddenWalk L C' parent.parentId fuel
                     | none => false) from rfl]
          rw [show hiddenWalk L C (some p) (fuel + 1)
                = (if C.contains p then true
                   else
                     match findById L p with
                     | some parent => hiddenWalk L C parent.parentId fuel
                     | none => false) from rfl]
          rw [show ancestorIds L (some p) (fuel + 1)
                = (match findById L p with
                   | some pl => p :: ancestorIds L pl.parentId fuel
                   | none => [p]) from rfl]
          rw [h p]
          by_cases hc : (C.contains p) = true
          · have hc' : p ∈ C := by simpa using hc
            rcases hfd : findById L p with _ | pl <;>
              simp [hc', contains_cons_beq]
          · by_cases hpi : (p == i) = true
            · have hpe : p = i := by simpa using hpi
              subst hpe
              rcases hfd : findById L p with _ | pl <;>
                simp [hc, contains_cons_beq]
            · have hne : ¬ i = p := by
                intro he
                rw [natBeq_comm] at hpi
                exact hpi (by simp [he])
              have hne' : ¬ p = i := fun he => hne he.symm
              rcases hfd : findById L p with _ | pl <;> simp only []
              · simp [hc, hne, hne', contains_cons_beq]
              · rw [ih pl.parentId]
                simp [hc, hne, hne', contains_cons_beq, Bool.or_assoc]

/-- The toggle rewrite keeps the walk fields. -/
theorem toggleLine_pairOf (l : JsonLine) : pairOf (toggleLine l) = pairOf l := by
  rw [show pairOf (toggleLine l)
        = ((toggleLine l).id, (toggleLine l).parentId) from rfl]
  rw [toggleLine_id, toggleLine_parentId]
  rfl

/-- Toggling twice restores the visibility fields. -/
theorem toggle_toggle_visOf (l : JsonLine) :
    visOf (toggleLine (toggleLine l)) = visOf l := by
  rw [toggleLine_visOf, toggleLine_id, toggleLine_parentId,
    toggleLine_isCollapsed, Bool.not_not]
  rfl

/-- Replacement does not change any view the replacement function
preserves. -/
theorem replaceFirstById_map_preserve {β : Type} (i : Nat)
    (f : JsonLine → JsonLine) (g : JsonLine → β)
    (hfg : ∀ x, g (f x) = g x) :
    ∀ L : List JsonLine, (replaceFirstById i f L).map g = L.map g := by
  intro L
  induction L with
  | nil => rfl
  | cons l ls ih =>
      rw [show replaceFirstById i f (l :: ls)
            = if l.id == i then f l :: ls else l :: replaceFirstById i f ls
          from rfl]
      by_cases h : (l.id == i) = true
      · rw [if_pos h]
        simp [hfg l]
      · rw [if_neg h]
        simp [ih]

/-- Replacement acts the same, up to a view, on lists equal in that view,
when the view determines ids and the function's effect on the view. -/
theorem replaceFirstById_map_congr {β : Type} (i : Nat)
    (f : JsonLine → JsonLine) (g : JsonLine → β)
    (hgid : ∀ a b, g a = g b → a.id = b.id)
    (hgf : ∀ a b, g a = g b → g (f a) = g (f b)) :
    ∀ L1 L2 : List JsonLine, L1.map g = L2.map g →
      (replaceFirstById i f L1).map g = (replaceFirstById i f L2).map g := by
  intro L1
  induction L1 with
  | nil =>
      intro L2 h
      cases L2 with
      | nil => rfl
      | cons b l2 => exact absurd h (by simp)
  | cons a l1 ih =>
      intro L2 h
      cases L2 with
      | nil => exact absurd h (by simp)
      | cons b l2 =>
          simp only [List.map_cons, List.cons.injEq] at h
          obtain ⟨hab, htl⟩ := h
          have hid : a.id = b.id := hgid a b hab
          rw [show replaceFirstById i f (a :: l1)
                = if a.id == i then f a :: l1 else a :: replaceFirstById i f l1
              from rfl]
          rw [show replaceFirstById i f (b :: l2)
                = if b.id == i then f b :: l2 else b :: replaceFirstById i f l2
              from rfl]
          rw [hid]
          by_cases hh : (b.id == i) = true
          · rw [if_pos hh, if_pos hh]
            simp only [List.map_cons]
            rw [hgf a b hab, htl]
          · rw [if_neg hh, if_neg hh]
            simp only [List.map_cons]
            rw [hab, ih l2 htl]

/-- Toggling an expanded line inserts exactly its id into the collapsed-id
set, as a membership test. -/
theorem collapsedIds_toggle_contains (i : Nat) :
    ∀ L : List JsonLine, ∀ l, findById L i = some l →
      l.isCollapsed = false → ∀ a,
      (collapsedIds (replaceFirstById i toggleLine L)).contains a
        = ((collapsedIds L).contains a || (a == i)) := by
  intro L
  induction L with
  | nil =>
      intro l h
      exact absurd h (by intro h'; exact Option.noConfusion h')
  | cons l0 ls ih =>
      intro l h hcol a
      rw [findById_cons] at h
      rw [show replaceFirstById i toggleLine (l0 :: ls)
            = if l0.id == i then toggleLine l0 :: ls
              else l0 :: replaceFirstById i toggleLine ls from rfl]
      by_cases hh : (l0.id == i) = true
      · rw [if_pos hh]
        rw [if_pos hh] at h
        have hl : l = l0 := (Option.some.inj h).symm
        subst hl
        have hid : l.id = i := by simpa using hh
        rw [collapsedIds_cons, collapsedIds_cons, toggleLine_isCollapsed,
          hcol]
        simp only [Bool.not_false, if_true, if_false]
        rw [toggleLine_id, hid, contains_cons_beq]
        rw [Bool.or_comm]
        simp
      · rw [if_neg hh]
        rw [if_neg hh] at h
        rw [collapsedIds_cons, collapsedIds_cons]
        by_cases hcl0 : l0.isCollapsed = true
        · rw [if_pos hcl0, if_pos hcl0, contains_cons_beq, contains_cons_beq]
          rw [ih l h hcol a]
          rw [Bool.or_assoc]
        · rw [if_neg hcl0, if_neg hcl0]
          exact ih l h hcol a

/-- Filters by a parent-determined predicate agree, as id sequences, on
lists that agree on ids and parent links. -/
theorem filter_map_id_congr_pair : ∀ (ls1 ls2 : List JsonLine),
    ls1.map pairOf = ls2.map pairOf → ∀ (P : Option Nat → Bool),
    ((ls1.filter (fun x => P x.parentId)).map (fun x => x.id))
      = ((ls2.filter (fun x => P x.parentId)).map (fun x => x.id)) := by
  intro ls1
  induction ls1 with
  | nil =>
      intro ls2 h P
      cases ls2 with
      | nil => rfl
      | cons b l2 => exact absurd h (by simp)
  | cons a l1 ih =>
      intro ls2 h P
      cases ls2 with
      | nil => exact absurd h (by simp)
      | cons b l2 =>
          simp only [List.map_cons, List.cons.injEq] at h
          obtain ⟨hab, htl⟩ := h
          have hid : a.id = b.id := congrArg (fun t => t.1) hab
          have hpid : a.parentId = b.parentId := congrArg (fun t => t.2) hab
          rw [List.filter_cons, List.filter_cons, hpid]
          by_cases hP : (P b.parentId) = true
          · rw [if_pos hP, if_pos hP]
            simp only [List.map_cons]
            rw [hid, ih l2 htl P]
          · rw [if_neg hP, if_neg hP]
            exact ih l2 htl P

/-- Visible filters agree, as id sequences, on lists that agree on the
visibility fields. -/
theorem filter_map_id_congr_vis (M1 M2 : List JsonLine)
    (hM : M1.map visOf = M2.map visOf) :
    ∀ (ls1 ls2 : List JsonLine), ls1.map visOf = ls2.map visOf →
    ((ls1.filter (fun x => isVisible M1 x)).map (fun x => x.id))
      = ((ls2.filter (fun x => isVisible M2 x)).map (fun x => x.id)) := by
  intro ls1
  induction ls1 with
  | nil =>
      intro ls2 h
      cases ls2 with
      | nil => rfl
      | cons b l2 => exact absurd h (by simp)
  | cons a l1 ih =>
      intro ls2 h
      cases ls2 with
      | nil => exact absurd h (by simp)
      | cons b l2 =>
          simp only [List.map_cons, List.cons.injEq] at h
          obtain ⟨hab, htl⟩ := h
          have hid : a.id = b.id := congrArg (fun t => t.1) hab
          have hvis := isVisible_congr M1 M2 hM a b hab
          rw [List.filter_cons, List.filter_cons, hvis]
          by_cases hP : (isVisible M2 b) = true
          · rw [if_pos hP, if_pos hP]
            simp only [List.map_cons]
            rw [hid, ih l2 htl]
          · rw [if_neg hP, if_neg hP]
            exact ih l2 htl

/-- Lists equal in shape are equal as id sequences. -/
theorem map_id_of_map_shape (X Y : List JsonLine)
    (h : X.map shapeOf = Y.map shapeOf) :
    X.map (fun x => x.id) = Y.map (fun x => x.id) := by
  have h1 : X.map (fun x => x.id) = (X.map shapeOf).map (fun x => x.id) := by
    rw [List.map_map]
    rfl
  have h2 : Y.map (fun x => x.id) = (Y.map shapeOf).map (fun x => x.id) := by
    rw [List.map_map]
    rfl
  rw [h1, h2, h]

/-- Lists equal in shape agree on ids and parent links. -/
theorem map_pairOf_of_shapeOf (X Y : List JsonLine)
    (h : X.map shapeOf = Y.map shapeOf) : X.map pairOf = Y.map pairOf :=
  map_pairOf_of_visOf X Y (map_visOf_of_shapeOf X Y h)

/-- Lists equal in the visibility fields are equal as id sequences. -/
theorem map_id_of_map_vis (X Y : List JsonLine)
    (h : X.map visOf = Y.map visOf) :
    X.map (fun x => x.id) = Y.map (fun x => x.id) := by
  have h1 : X.map (fun x => x.id) = (X.map visOf).map (fun t => t.1) := by
    rw [List.map_map]
    rfl
  have h2 : Y.map (fun x => x.id) = (Y.map visOf).map (fun t => t.1) := by
    rw [List.map_map]
    rfl
  rw [h1, h2, h]

/-- Unfolding of the display toggle when the guard passes. -/
theorem toggleCollapse_eq (st : ViewerState) (i : Nat) (l : JsonLine)
    (hf : findById st.allLines i = some l) (htg : l.hasToggle = true) :
    toggleCollapse st i = { st with
      allLines := (projectLines (replaceFirstById i toggleLine st.allLines)).1
      displayLines :=
        (projectLines (replaceFirstById i toggleLine st.allLines)).2 } := by
  unfold toggleCollapse
  rw [hf]
  simp only []
  rw [if_pos htg]

/-- Toggling twice restores an expanded container line completely, when its
content is the canonical expanded form that the second toggle rewrites. -/
theorem toggleLine_invol (l : JsonLine) (hcol : l.isCollapsed = false)
    (hobj : l.isObject = true → l.content = expandedObjContent l)
    (harr : l.isObject = false → l.isArray = true →
      l.content = expandedArrContent l) :
    toggleLine (toggleLine l) = l := by
  cases l with
  | mk id content level hasToggle isCollapsed parentId lineNumber isClosing
      originalKey isArray isObject childCount =>
    subst hcol
    by_cases hO : isObject = true
    · subst hO
      have hc' : content = indentStr level ++ keyPartToggle originalKey ++
          spanWrap "bracket" "\x7b" := by
        simpa [expandedObjContent] using hobj rfl
      subst hc'
      simp [toggleLine, expandedObjContent, collapsedObjContent]
    · have hO' : isObject = false := by simpa using hO
      subst hO'
      by_cases hA : isArray = true
      · subst hA
        have hc' : content = indentStr level ++ keyPartToggle originalKey ++
            spanWrap "bracket" "[" := by
          simpa [expandedArrContent] using harr rfl rfl
        subst hc'
        simp [toggleLine, expandedArrContent, collapsedArrContent]
      · have hA' : isArray = false := by simpa using hA
        subst hA'
        simp [toggleLine]

/-- C5: with a well-formed state (the toggled line exists, is a
container-open line, is currently expanded, and the stored projection is
current), visibility is exactly the no-collapsed-ancestor condition;
collapsing a container removes from the visible projection exactly the
lines whose ancestor chain contains it, keeping the rest in order; and
expanding it again restores the projection's line sequence. -/
theorem C5_collapse_visibility (st : ViewerState) (i : Nat) (l : JsonLine)
    (hf : findById st.allLines i = some l)
    (htg : l.hasToggle = true)
    (hcol : l.isCollapsed = false)
    (hproj : projectLines st.allLines = (st.allLines, st.displayLines)) :
    (∀ x ∈ st.allLines, isVisible st.allLines x = true ↔
      ∀ a ∈ ancestorIds st.allLines x.parentId st.allLines.length,
        ¬ a ∈ collapsedIds st.allLines) ∧
    ((toggleCollapse st i).displayLines.map (fun x => x.id)
      = (st.displayLines.filter (fun x =>
          !((ancestorIds st.allLines x.parentId
              st.allLines.length).contains i))).map (fun x => x.id)) ∧
    ((toggleCollapse (toggleCollapse st i) i).displayLines.map (fun x => x.id)
      = st.displayLines.map (fun x => x.id)) := by
  have hDold : st.displayLines.map shapeOf
      = ((st.allLines.filter (fun x => isVisible st.allLines x)).map
          shapeOf) := by
    have h := projectGo_snd_shape st.allLines st.allLines 1
    have hsnd : (projectLines st.allLines).2 = st.displayLines :=
      congrArg Prod.snd hproj
    have h' : ((projectLines st.allLines).2).map shapeOf
        = (st.allLines.filter (fun x => isVisible st.allLines x)).map
            shapeOf := h
    rw [hsnd] at h'
    exact h'
  have F1 : (replaceFirstById i toggleLine st.allLines).map pairOf
      = st.allLines.map pairOf :=
    replaceFirstById_map_preserve i toggleLine pairOf toggleLine_pairOf
      st.allLines
  have F2 := collapsedIds_toggle_contains i st.allLines l hf hcol
  have F3 : (replaceFirstById i toggleLine st.allLines).length
      = st.allLines.length := replaceFirstById_length i toggleLine st.allLines
  have F4 : ∀ pid,
      hiddenWalk (replaceFirstById i toggleLine st.allLines)
        (collapsedIds (replaceFirstById i toggleLine st.allLines)) pid
        (replaceFirstById i toggleLine st.allLines).length
      = (hiddenWalk st.allLines (collapsedIds st.allLines) pid
          st.allLines.length ||
        (ancestorIds st.allLines pid st.allLines.length).contains i) := by
    intro pid
    rw [hiddenWalk_congr (replaceFirstById i toggleLine st.allLines)
      st.allLines F1
      (collapsedIds (replaceFirstById i toggleLine st.allLines))
      (replaceFirstById i toggleLine st.allLines).length pid]
    rw [F3]
    exact hiddenWalk_insert st.allLines (collapsedIds st.allLines)
      (collapsedIds (replaceFirstById i toggleLine st.allLines)) i F2
      st.allLines.length pid
  refine ⟨?_, ?_, ?_⟩
  · intro x hx
    have hiff := hiddenWalk_iff_chain st.allLines (collapsedIds st.allLines)
      st.allLines.length x.parentId
    constructor
    · intro hv a ha haC
      have hw : hiddenWalk st.allLines (collapsedIds st.allLines) x.parentId
          st.allLines.length = true := hiff.mpr ⟨a, ha, haC⟩
      rw [show isVisible st.allLines x
            = !(hiddenWalk st.allLines (collapsedIds st.allLines) x.parentId
                st.allLines.length) from rfl, hw] at hv
      exact Bool.noConfusion hv
    · intro hall
      rw [show isVisible st.allLines x
            = !(hiddenWalk st.allLines (collapsedIds st.allLines) x.parentId
                st.allLines.length) from rfl]
      cases hw : hiddenWalk st.allLines (collapsedIds st.allLines) x.parentId
          st.allLines.length with
      | false => rfl
      | true =>
          obtain ⟨a, ha, haC⟩ := hiff.mp hw
          exact absurd haC (hall a ha)
  · rw [toggleCollapse_eq st i l hf htg]
    have hL1 : ((projectLines (replaceFirstById i toggleLine
        st.allLines)).2).map (fun x => x.id)
        = ((replaceFirstById i toggleLine st.allLines).filter
            (fun x => isVisible (replaceFirstById i toggleLine st.allLines)
              x)).map (fun x => x.id) :=
      map_id_of_map_shape _ _ (projectGo_snd_shape
        (replaceFirstById i toggleLine st.allLines)
        (replaceFirstById i toggleLine st.allLines) 1)
    have hfa : (replaceFirstById i toggleLine st.allLines).filter
        (fun x => isVisible (replaceFirstById i toggleLine st.allLines) x)
        = (replaceFirstById i toggleLine st.allLines).filter (fun x =>
            !(hiddenWalk st.allLines (collapsedIds st.allLines) x.parentId
                st.allLines.length ||
              (ancestorIds st.allLines x.parentId
                st.allLines.length).contains i)) := by
      apply List.filter_congr
      intro x _
      rw [show isVisible (replaceFirstById i toggleLine st.allLines) x
            = !(hiddenWalk (replaceFirstById i toggleLine st.allLines)
                (collapsedIds (replaceFirstById i toggleLine st.allLines))
                x.parentId
                (replaceFirstById i toggleLine st.allLines).length) from rfl]
      rw [F4 x.parentId]
    have hfb := filter_map_id_congr_pair
      (replaceFirstById i toggleLine st.allLines) st.allLines F1
      (fun pid => !(hiddenWalk st.allLines (collapsedIds st.allLines) pid
          st.allLines.length ||
        (ancestorIds st.allLines pid st.allLines.length).contains i))
    have hfc : st.allLines.filter (fun x =>
        !(hiddenWalk st.allLines (collapsedIds st.allLines) x.parentId
            st.allLines.length ||
          (ancestorIds st.allLines x.parentId
            st.allLines.length).contains i))
        = (st.allLines.filter (fun x => isVisible st.allLines x)).filter
            (fun x => !((ancestorIds st.allLines x.parentId
              st.allLines.length).contains i)) := by
      rw [List.filter_filter]
      apply List.filter_congr
      intro x _
      rw [show isVisible st.allLines x
            = !(hiddenWalk st.allLines (collapsedIds st.allLines) x.parentId
                st.allLines.length) from rfl]
      rw [Bool.not_or, Bool.and_comm]
    have hfd := filter_map_id_congr_pair st.displayLines
      (st.allLines.filter (fun x => isVisible st.allLines x))
      (map_pairOf_of_shapeOf _ _ hDold)
      (fun pid => !((ancestorIds st.allLines pid
          st.allLines.length).contains i))
    exact hL1.trans ((congrArg (List.map fun x => x.id) hfa).trans
      (hfb.trans ((congrArg (List.map fun x => x.id) hfc).trans hfd.symm)))
  · have hP1shape : ((projectLines (replaceFirstById i toggleLine
        st.allLines)).1).map shapeOf
        = (replaceFirstById i toggleLine st.allLines).map shapeOf :=
      projectGo_fst_map_shape (replaceFirstById i toggleLine st.allLines)
        (replaceFirstById i toggleLine st.allLines) 1
    have hfA1 : findById (replaceFirstById i toggleLine st.allLines) i
        = some (toggleLine l) :=
      findById_replaceFirstById i toggleLine toggleLine_id st.allLines l hf
    have hfsh := findById_shape_congr
      ((projectLines (replaceFirstById i toggleLine st.allLines)).1)
      (replaceFirstById i toggleLine st.allLines) hP1shape i
    rw [hfA1] at hfsh
    rcases hfp : findById ((projectLines (replaceFirstById i toggleLine
        st.allLines)).1) i with _ | l1
    · rw [hfp] at hfsh
      exact absurd hfsh (by simp)
    · rw [hfp] at hfsh
      have hl1sh : shapeOf l1 = shapeOf (toggleLine l) := by simpa using hfsh
      have hl1tg : l1.hasToggle = true := by
        have h1 : l1.hasToggle = (shapeOf l1).hasToggle := rfl
        rw [h1, hl1sh]
        have h2 : (shapeOf (toggleLine l)).hasToggle
            = (toggleLine l).hasToggle := rfl
        rw [h2, toggleLine_hasToggle]
        exact htg
      rw [toggleCollapse_eq st i l hf htg]
      rw [toggleCollapse_eq _ i l1 hfp hl1tg]
      have hA2vis : (replaceFirstById i toggleLine
          ((projectLines (replaceFirstById i toggleLine
            st.allLines)).1)).map visOf = st.allLines.map visOf := by
        have s1 : (replaceFirstById i toggleLine
            ((projectLines (replaceFirstById i toggleLine
              st.allLines)).1)).map visOf
            = (replaceFirstById i toggleLine
                (replaceFirstById i toggleLine st.allLines)).map visOf :=
          replaceFirstById_map_congr i toggleLine visOf
            (fun a b hab => congrArg (fun t => t.1) hab)
            (fun a b hab => by
              have h1 : a.id = b.id := congrArg (fun t => t.1) hab
              have h2 : a.parentId = b.parentId :=
                congrArg (fun t => t.2.1) hab
              have h3 : a.isCollapsed = b.isCollapsed :=
                congrArg (fun t => t.2.2) hab
              rw [toggleLine_visOf, toggleLine_visOf, h1, h2, h3])
            _ _ (map_visOf_of_shapeOf _ _ hP1shape)
        have s2 : (replaceFirstById i toggleLine
            (replaceFirstById i toggleLine st.allLines)).map visOf
            = (replaceFirstById i (fun x => toggleLine (toggleLine x))
                st.allLines).map visOf := by
          rw [replaceFirstById_comp i toggleLine toggleLine toggleLine_id
            st.allLines]
        have s3 : (replaceFirstById i (fun x => toggleLine (toggleLine x))
            st.allLines).map visOf = st.allLines.map visOf :=
          replaceFirstById_map_preserve i _ visOf toggle_toggle_visOf
            st.allLines
        exact s1.trans (s2.trans s3)
      have hD2 : ((projectLines (replaceFirstById i toggleLine
          ((projectLines (replaceFirstById i toggleLine
            st.allLines)).1))).2).map (fun x => x.id)
          = ((replaceFirstById i toggleLine
              ((projectLines (replaceFirstById i toggleLine
                st.allLines)).1)).filter (fun x =>
              isVisible (replaceFirstById i toggleLine
                ((projectLines (replaceFirstById i toggleLine
                  st.allLines)).1)) x)).map (fun x => x.id) :=
        map_id_of_map_shape _ _ (projectGo_snd_shape _ _ 1)
      have hFV := filter_map_id_congr_vis
        (replaceFirstById i toggleLine
          ((projectLines (replaceFirstById i toggleLine st.allLines)).1))
        st.allLines hA2vis
        (replaceFirstById i toggleLine
          ((projectLines (replaceFirstById i toggleLine st.allLines)).1))
        st.allLines hA2vis
      have hDoldid : st.displayLines.map (fun x => x.id)
          = (st.allLines.filter (fun x => isVisible st.allLines x)).map
              (fun x => x.id) :=
        map_id_of_map_shape _ _ hDold
      exact hD2.trans (hFV.trans hDoldid.symm)

/-- C5 witness: collapsing and re-expanding the array-open line of the
loaded walkthrough state. -/
theorem C5_collapse_visibility_witness :
    (findById stScenario.allLines 2
        = some (stScenario.allLines.get ⟨2, by decide⟩) ∧
      (stScenario.allLines.get ⟨2, by decide⟩).hasToggle = true ∧
      (stScenario.allLines.get ⟨2, by decide⟩).isCollapsed = false ∧
      projectLines stScenario.allLines
        = (stScenario.allLines, stScenario.displayLines)) ∧
    ((∀ x ∈ stScenario.allLines, isVisible stScenario.allLines x = true ↔
      ∀ a ∈ ancestorIds stScenario.allLines x.parentId
          stScenario.allLines.length,
        ¬ a ∈ collapsedIds stScenario.allLines) ∧
    ((toggleCollapse stScenario 2).displayLines.map (fun x => x.id)
      = (stScenario.displayLines.filter (fun x =>
          !((ancestorIds stScenario.allLines x.parentId
              stScenario.allLines.length).contains 2))).map (fun x => x.id)) ∧
    ((toggleCollapse (toggleCollapse stScenario 2) 2).displayLines.map
        (fun x => x.id)
      = stScenario.displayLines.map (fun x => x.id))) :=
  ⟨⟨by decide, by decide, by decide, by decide⟩,
    C5_collapse_visibility stScenario 2
      (stScenario.allLines.get ⟨2, by decide⟩) (by decide) (by decide)
      (by decide) (by decide)⟩

/-- C10 (amended): in the display variant, toggling the same container-open
line twice in succession restores the whole model whenever the line was
expanded with its canonical expanded content (indentation, truthy-key
prefix, opening bracket) and the stored projection was current: every
line's non-lineNumber fields (content and isCollapsed included) are exactly
as before, and the visible projection, display line numbers included, is
exactly as before.  The content hypothesis is necessary: the restored
content is rewritten from the structural fields, with the key prefix
dropped for an empty-string key (see C10_cex_empty_key). -/
theorem C10_double_toggle_display (st : ViewerState) (i : Nat) (l : JsonLine)
    (hf : findById st.allLines i = some l)
    (htg : l.hasToggle = true)
    (hcol : l.isCollapsed = false)
    (hobj : l.isObject = true → l.content = expandedObjContent l)
    (harr : l.isObject = false → l.isArray = true →
      l.content = expandedArrContent l)
    (hproj : projectLines st.allLines = (st.allLines, st.displayLines)) :
    ((toggleCollapse (toggleCollapse st i) i).allLines.map shapeOf
      = st.allLines.map shapeOf) ∧
    (toggleCollapse (toggleCollapse st i) i).displayLines
      = st.displayLines := by
  have hP1shape : ((projectLines (replaceFirstById i toggleLine
      st.allLines)).1).map shapeOf
      = (replaceFirstById i toggleLine st.allLines).map shapeOf :=
    projectGo_fst_map_shape (replaceFirstById i toggleLine st.allLines)
      (replaceFirstById i toggleLine st.allLines) 1
  have hfA1 : findById (replaceFirstById i toggleLine st.allLines) i
      = some (toggleLine l) :=
    findById_replaceFirstById i toggleLine toggleLine_id st.allLines l hf
  have hfsh := findById_shape_congr
    ((projectLines (replaceFirstById i toggleLine st.allLines)).1)
    (replaceFirstById i toggleLine st.allLines) hP1shape i
  rw [hfA1] at hfsh
  rcases hfp : findById ((projectLines (replaceFirstById i toggleLine
      st.allLines)).1) i with _ | l1
  · rw [hfp] at hfsh
    exact absurd hfsh (by simp)
  · rw [hfp] at hfsh
    have hl1sh : shapeOf l1 = shapeOf (toggleLine l) := by simpa using hfsh
    have hl1tg : l1.hasToggle = true := by
      have h1 : l1.hasToggle = (shapeOf l1).hasToggle := rfl
      rw [h1, hl1sh]
      have h2 : (shapeOf (toggleLine l)).hasToggle
          = (toggleLine l).hasToggle := rfl
      rw [h2, toggleLine_hasToggle]
      exact htg
    rw [toggleCollapse_eq st i l hf htg]
    rw [toggleCollapse_eq _ i l1 hfp hl1tg]
    have hA2sh : (replaceFirstById i toggleLine
        ((projectLines (replaceFirstById i toggleLine
          st.allLines)).1)).map shapeOf
        = st.allLines.map shapeOf := by
      have s1 : (replaceFirstById i toggleLine
          ((projectLines (replaceFirstById i toggleLine
            st.allLines)).1)).map shapeOf
          = (replaceFirstById i toggleLine
              (replaceFirstById i toggleLine st.allLines)).map shapeOf :=
        replaceFirstById_map_congr i toggleLine shapeOf
          (fun a b hab => by
            have h1 := congrArg JsonLine.id hab
            exact h1)
          (fun a b hab => by
            rw [toggleLine_shapeOf, toggleLine_shapeOf, hab])
          _ _ hP1shape
      have s2 : replaceFirstById i toggleLine
          (replaceFirstById i toggleLine st.allLines)
          = replaceFirstById i (fun x => toggleLine (toggleLine x))
              st.allLines :=
        replaceFirstById_comp i toggleLine toggleLine toggleLine_id
          st.allLines
      have s3 : replaceFirstById i (fun x => toggleLine (toggleLine x))
          st.allLines = st.allLines :=
        replaceFirstById_fix i _ st.allLines l hf
          (toggleLine_invol l hcol hobj harr)
      rw [s2, s3] at s1
      exact s1
    constructor
    · have h := projectGo_fst_map_shape
        (replaceFirstById i toggleLine
          ((projectLines (replaceFirstById i toggleLine st.allLines)).1))
        (replaceFirstById i toggleLine
          ((projectLines (replaceFirstById i toggleLine st.allLines)).1)) 1
      exact h.trans hA2sh
    · have hsnd : (projectLines st.allLines).2 = st.displayLines :=
        congrArg Prod.snd hproj
      have h := projectGo_snd_congr
        (replaceFirstById i toggleLine
          ((projectLines (replaceFirstById i toggleLine st.allLines)).1))
        st.allLines hA2sh
        (replaceFirstById i toggleLine
          ((projectLines (replaceFirstById i toggleLine st.allLines)).1))
        st.allLines hA2sh 1
      exact h.trans hsnd

/-- C10 witness: double toggle of the array-open line of the loaded
walkthrough state restores the model. -/
theorem C10_double_toggle_display_witness :
    (findById stScenario.allLines 2
        = some (stScenario.allLines.get ⟨2, by decide⟩) ∧
      (stScenario.allLines.get ⟨2, by decide⟩).hasToggle = true ∧
      (stScenario.allLines.get ⟨2, by decide⟩).isCollapsed = false ∧
      ((stScenario.allLines.get ⟨2, by decide⟩).isObject = true →
        (stScenario.allLines.get ⟨2, by decide⟩).content
          = expandedObjContent (stScenario.allLines.get ⟨2, by decide⟩)) ∧
      ((stScenario.allLines.get ⟨2, by decide⟩).isObject = false →
        (stScenario.allLines.get ⟨2, by decide⟩).isArray = true →
        (stScenario.allLines.get ⟨2, by decide⟩).content
          = expandedArrContent (stScenario.allLines.get ⟨2, by decide⟩)) ∧
      projectLines stScenario.allLines
        = (stScenario.allLines, stScenario.displayLines)) ∧
    (((toggleCollapse (toggleCollapse stScenario 2) 2).allLines.map shapeOf
      = stScenario.allLines.map shapeOf) ∧
    (toggleCollapse (toggleCollapse stScenario 2) 2).displayLines
      = stScenario.displayLines) :=
  ⟨⟨by decide, by decide, by decide, by decide, by decide, by decide⟩,
    C10_double_toggle_display stScenario 2
      (stScenario.allLines.get ⟨2, by decide⟩) (by decide) (by decide)
      (by decide) (by decide) (by decide) (by decide)⟩

/-- C9 witness: in the loaded walkthrough state, id 99 matches no line and
id 1 is a scalar line; both toggles are no-ops in both variants. -/
theorem C9_toggle_guard_witness :
    (toggleCollapse stScenario 99 = stScenario ∧
      toggleEditCollapse stScenario 99 = stScenario) ∧
    (toggleCollapse stScenario 1 = stScenario ∧
      toggleEditCollapse stScenario 1 = stScenario) :=
  ⟨C9_toggle_guard_noop stScenario 99 (by decide) (by decide),
   C9_toggle_guard_noop stScenario 1 (by decide) (by decide)⟩

end JsonEditor
